import Mathlib

/-!
The program praq6: context-hash prediction with a PPP bitmap codec and a VLC
(MTF + Golomb) codec.

A shallow embedding of `src/praq6.c`.  The four codec routines and the driver's
dispatch are translated from that file.  The bit buffer (`gtbitio2.c`), the
Golomb codes (`ucodes2.c`) and the move-to-front list (`mtf.c`) are included by
`praq6.c` but are not part of the sources at hand; they are modelled from the
specification's collaborator contracts and marked as such.

Conventions.
* A byte is a `Fin 256`.  A C `int` holding a byte or the end-of-input marker
  is an `Int`; storing it into an `unsigned char` is `toByte` (residue mod 256).
* The run counter `int blen` of the VLC routines is held as its 32-bit pattern,
  a natural below 2^32 with arithmetic modulo 2^32.  Overflow of a signed `int`
  is undefined in C; the pattern follows the two's-complement wrap-around, and
  the patterns from 2^31 on stand for the negative values.  The theorems about
  whole inputs are stated for inputs shorter than 2^31 bytes, where the counter
  does not overflow.
* The frequency counters are declared in `mtf.c` and are unbounded naturals
  here (on an input shorter than 2^31 bytes none of them reaches 2^31); the
  block counter is an `int64_t` and an unbounded integer here.
* The flag array `bbuf` has `PPP_BLOCKSIZE` entries: `decompress_LZP` is the
  source's routine for a last-block size up to `PPP_BLOCKSIZE`.
* Loops whose trip count is not bounded by their arguments take fuel.
-/

namespace Praq6

set_option autoImplicit false

/-! ## Constants (praq6.c lines 17-27, 35-39) -/

abbrev Byte := Fin 256

/-- The constant `#define BSIZE 3`. -/
def BSIZE : Nat := 3

/-- The constant `#define EOF_VLC 256`. -/
def EOF_VLC : Nat := 256

/-- The constant `#define WBITS 20`. -/
def WBITS : Nat := 20

/-- The constant `#define WSIZE (1<<WBITS)`. -/
def WSIZE : Nat := 1 <<< WBITS

/-- The constant `#define WMASK (WSIZE-1)`. -/
def WMASK : Nat := WSIZE - 1

/-- The constant `#define PPP_BLOCKBITS 15`. -/
def PPP_BLOCKBITS : Nat := 15

/-- The constant `#define PPP_BLOCKSIZE (1<<PPP_BLOCKBITS)`. -/
def PPP_BLOCKSIZE : Nat := 1 <<< PPP_BLOCKBITS

/-- The enumerator `mPPP = 1` of the codes enum. -/
def mPPP : Int := 1

/-- The enumerator `mVLCODE` of the codes enum, the one after `mPPP`. -/
def mVLCODE : Int := 2

/-- The value of C's `EOF`, the end-of-input marker of the byte reader. -/
def EOF_MARK : Int := -1

/-- Conversion of a C `int` to `unsigned char`: the residue modulo 256. -/
def toByte (c : Int) : Byte := ⟨(c % 256).toNat, by omega⟩

/-- The statement `prev = ((prev<<5)+c) & WMASK` on `int prev, c`.  For
`0 <= prev < 2^20` the shift is the product with `2^5` and cannot overflow 32
bits; on a two's-complement `int` the mask with `WMASK = 2^20-1` is the
non-negative residue modulo `WSIZE`, also when `c` is the marker `-1`. -/
def hashUpdate (prev : Nat) (c : Int) : Nat :=
  ((((prev : Int) * 2 ^ 5) + c) % (WSIZE : Int)).toNat

/-- The prediction buffer `win_buf` ("GuessTable"), indexed by the context hash. -/
abbrev GuessTable := Nat → Byte

/-- The result of `memset( win_buf, 0, WSIZE )`. -/
def zeroTable : GuessTable := fun _ => 0

/-- The store `w[prev] = c`. -/
def setSlot (w : GuessTable) (prev : Nat) (c : Byte) : GuessTable :=
  fun i => if i = prev then c else w i

/-! ## Output bit buffer (gtbitio2.c, not among the sources) -/

/-- Modelled from the spec: the output side of the bit buffer of `gtbitio2.c`
(section 4.5, "append one bit to an underlying byte buffer, auto-flushing every
8 bits").  `out` are the bytes already complete, in file order, `cur` is the
byte `*pbuf` being filled and `p_cnt` the number of bits it holds.  `p_cnt` is
the variable `praq6.c` assigns directly at line 208. -/
structure PutBuf where
  out : List Byte
  cur : Nat
  p_cnt : Nat
deriving DecidableEq

/-- Modelled from the spec: `init_put_buffer()`, an empty buffer. -/
def init_put_buffer : PutBuf := ⟨[], 0, 0⟩

/-- Modelled from the spec: `advance_buf()`, step to the next bit position; the
eighth bit completes the byte `*pbuf`, which is written, and a zeroed byte is
started. -/
def advance_buf (p : PutBuf) : PutBuf :=
  if p.p_cnt + 1 = 8 then ⟨p.out ++ [toByte p.cur], 0, 0⟩
  else { p with p_cnt := p.p_cnt + 1 }

/-- Modelled from the spec: `put_ONE()`, set bit `p_cnt` of `*pbuf` (bits fill a
byte from the least significant end) and advance. -/
def put_ONE (p : PutBuf) : PutBuf :=
  advance_buf { p with cur := p.cur ||| (1 <<< p.p_cnt) }

/-- Modelled from the spec: `put_ZERO()`, leave the bit clear and advance. -/
def put_ZERO (p : PutBuf) : PutBuf := advance_buf p

/-- Writing one bit given as a boolean. -/
def put_bit (b : Bool) (p : PutBuf) : PutBuf :=
  if b then put_ONE p else put_ZERO p

/-- Modelled from the spec: `pfputc(c)`, write the byte `(unsigned char) c` at
the buffer position.  It is only ever called on a byte boundary. -/
def pfputc (c : Int) (p : PutBuf) : PutBuf :=
  { p with out := p.out ++ [toByte c] }

/-- Modelled from the spec: `flush_put_buffer()`, the bytes of the file; "the
stream-end flush zero-fills any partial trailing byte". -/
def flush_put_buffer (p : PutBuf) : List Byte :=
  if 0 < p.p_cnt then p.out ++ [toByte p.cur] else p.out

/-! ## Input bit buffer (gtbitio2.c, not among the sources) -/

/-- Modelled from the spec: the input side of the bit buffer.  `data` is the
byte `*gbuf` and what follows it, `g_cnt` the bit position within `*gbuf`
(assigned directly by `praq6.c` at line 253).  The contract does not say what a
bit read yields once the input is used up; that value is the field `pad`. -/
structure GetBuf where
  data : List Byte
  g_cnt : Nat
  pad : Bool
deriving DecidableEq

/-- Modelled from the spec: `init_get_buffer()` on an input holding `bytes`. -/
def init_get_buffer (bytes : List Byte) (pad : Bool) : GetBuf := ⟨bytes, 0, pad⟩

/-- Modelled from the spec: `advance_gbuf()`, step to the next bit position,
moving to the next byte after the eighth. -/
def advance_gbuf (g : GetBuf) : GetBuf :=
  if g.g_cnt + 1 = 8 then { g with data := g.data.tail, g_cnt := 0 }
  else { g with g_cnt := g.g_cnt + 1 }

/-- Modelled from the spec: `get_bit()`, bit `g_cnt` of `*gbuf`, then advance. -/
def get_bit (g : GetBuf) : Bool × GetBuf :=
  match g.data with
  | [] => (g.pad, g)
  | x :: _ => (x.val.testBit g.g_cnt, advance_gbuf g)

/-- Modelled from the spec: `gfgetc()`, the next byte, or the end-of-input
marker `EOF` when none is left ("sequential read reporting short-read/EOF"). -/
def gfgetc (g : GetBuf) : Int × GetBuf :=
  match g.data with
  | [] => (EOF_MARK, g)
  | x :: rest => ((x.val : Int), { g with data := rest })

/-! ## Golomb codes (ucodes2.c, not among the sources) -/

/-- The unary prefix of a Golomb code: `q` one bits. -/
def put_ones : Nat → PutBuf → PutBuf
  | 0, p => p
  | q + 1, p => put_ones q (put_ONE p)

/-- Modelled from the spec: `put_nbits`, the low `k` bits of `v` as a
fixed-width field, least significant bit first. -/
def put_nbits (v : Nat) : Nat → PutBuf → PutBuf
  | 0, p => p
  | k + 1, p => put_nbits (v / 2) k (put_bit (v % 2 = 1) p)

/-- Modelled from the spec: `put_golomb(n, k)`, "`value >> k` in a
unary-terminated prefix followed by the low `k` bits as a fixed-width field;
`k = 0` degenerates to pure unary".  The prefix is `n >> k` one bits closed by
a zero bit. -/
def put_golomb (n k : Nat) (p : PutBuf) : PutBuf :=
  put_nbits (n % 2 ^ k) k (put_ZERO (put_ones (n >>> k) p))

/-- The loop `while ( get_bit() ) n++;` of the Golomb reader.  It has no bound
of its own, so it takes fuel; `none` is fuel running out. -/
def get_ones : Nat → Nat → GetBuf → Option (Nat × GetBuf)
  | 0, _, _ => none
  | fuel + 1, n, g =>
    if (get_bit g).1 then get_ones fuel (n + 1) (get_bit g).2
    else some (n, (get_bit g).2)

/-- Modelled from the spec: `get_nbits(k)`, a `k`-bit field read least
significant bit first. -/
def get_nbits : Nat → GetBuf → Nat × GetBuf
  | 0, g => (0, g)
  | k + 1, g =>
    ((get_bit g).1.toNat + 2 * (get_nbits k (get_bit g).2).1, (get_nbits k (get_bit g).2).2)

/-- Modelled from the spec: `get_golomb(k)`, the inverse of `put_golomb`. -/
def get_golomb (fuel k : Nat) (g : GetBuf) : Option (Nat × GetBuf) :=
  match get_ones fuel 0 g with
  | none => none
  | some (q, g1) => some ((q <<< k) + (get_nbits k g1).1, (get_nbits k g1).2)

/-! ## Move-to-front list (mtf.c, not among the sources) -/

/-- Modelled from the spec: the list built by `alloc_mtf(256)`, the 256 byte
values as a total order, head first. -/
def alloc_mtf : List Byte := List.finRange 256

/-- The symbol `head->c` at rank 0. -/
def mtfHead (l : List Byte) : Option Byte := l.head?

/-- Moving a symbol to the front of the list. -/
def moveToFront (l : List Byte) (c : Byte) : List Byte := c :: l.erase c

/-- Modelled from the spec: `mtf(c)`, "returns the symbol's position before
moving it to the front (0 = already at front), then moves it to front". -/
def mtf (l : List Byte) (c : Byte) : Nat × List Byte := (l.indexOf c, moveToFront l c)

/-- Modelled from the spec: `get_mtf_c(rank)`, "returns the symbol currently at
that rank, then moves it to front".  The list holds no symbol at a rank from
its length on, and the contract gives no result there: `none`. -/
def get_mtf_c (l : List Byte) (rank : Nat) : Option (Byte × List Byte) :=
  match l.get? rank with
  | none => none
  | some c => some (c, moveToFront l c)

/-- The frequency counters `table[c].f`. -/
abbrev Freq := Byte → Nat

/-- The counters after `alloc_mtf`: all zero. -/
def zeroFreq : Freq := fun _ => 0

/-- The increment `++table[c].f`. -/
def incFreq (f : Freq) (c : Byte) : Freq := fun x => if x = c then f c + 1 else f x

/-! ## PPP mode: compress_LZP (praq6.c lines 175-218) -/

/-- The variables of `compress_LZP`: the table `w`, the hash `prev`, the
mismatched bytes `cbuf[0..b)`, the output buffer and the two globals the
driver copies into the header. -/
structure LzpEnc where
  w : GuessTable
  prev : Nat
  cbuf : List Byte
  pb : PutBuf
  ppp_nblocks : Int
  ppp_lastblocksize : Int

/-- One pass of the inner loop (lines 184-193) on the byte `c = p[n]`. -/
def lzpEncByte (st : LzpEnc) (c : Byte) : LzpEnc :=
  if st.w st.prev = c then
    { st with pb := put_ONE st.pb, prev := hashUpdate st.prev c.val }
  else
    { st with pb := put_ZERO st.pb, w := setSlot st.w st.prev c,
              cbuf := st.cbuf ++ [c], prev := hashUpdate st.prev c.val }

/-- The loop `for ( i = 0; i < b; i++ ) pfputc( cbuf[i] );`. -/
def writeBytes (cs : List Byte) (p : PutBuf) : PutBuf :=
  cs.foldl (fun q c => pfputc c.val q) p

/-- Lines 207-210: `if ( p_cnt > 0 && p_cnt < 8 ) { p_cnt = 7; advance_buf(); }`. -/
def alignPut (p : PutBuf) : PutBuf :=
  if 0 < p.p_cnt ∧ p.p_cnt < 8 then advance_buf { p with p_cnt := 7 } else p

/-- The body of the outer loop (lines 182-216) for one `fread` result `p` of
`nread = p.length` bytes. -/
def lzpEncBlock (st : LzpEnc) (p : List Byte) : LzpEnc :=
  let st1 := p.foldl lzpEncByte st
  if p.length = PPP_BLOCKSIZE then
    { st1 with pb := writeBytes st1.cbuf st1.pb, cbuf := [],
               ppp_nblocks := st1.ppp_nblocks + 1 }
  else if p.length < PPP_BLOCKSIZE then
    { st1 with pb := writeBytes st1.cbuf (alignPut st1.pb),
               ppp_lastblocksize := (p.length : Int) }
  else st1

/-- The loop `while ( (nread=fread(p, 1, PPP_BLOCKSIZE, gIN)) )` over the
unread input `inp`: `fread` delivers the next `PPP_BLOCKSIZE` bytes, or what
is left, and the loop ends on an empty read.  Each pass takes one unit of
fuel; `inp.length` units are always enough. -/
def lzpEncLoop : Nat → LzpEnc → List Byte → LzpEnc
  | 0, st, _ => st
  | fuel + 1, st, inp =>
    if (inp.take PPP_BLOCKSIZE).length = 0 then st
    else lzpEncLoop fuel (lzpEncBlock st (inp.take PPP_BLOCKSIZE)) (inp.drop PPP_BLOCKSIZE)

/-- The routine `compress_LZP( win_buf, pattern )` on the input `S`, started on
the table `w` and the output buffer `pb`. -/
def compress_LZP (w : GuessTable) (pb : PutBuf) (S : List Byte) : LzpEnc :=
  lzpEncLoop S.length ⟨w, 0, [], pb, 0, 0⟩ S

/-! ## PPP mode: decompress_LZP (praq6.c lines 220-269) -/

/-- The variables of `decompress_LZP`: table, hash, the decoded-output buffer
and the input buffer. -/
structure LzpDec where
  w : GuessTable
  prev : Nat
  pb : PutBuf
  gb : GetBuf

/-- The loop `for (i < n) bbuf[i] = get_bit() ? 1 : 0` (lines 226-229, 247-250):
the `n` flags read, and the input buffer afterwards. -/
def readFlags : Nat → GetBuf → List Bool × GetBuf
  | 0, g => ([], g)
  | n + 1, g => ((get_bit g).1 :: (readFlags n (get_bit g).2).1, (readFlags n (get_bit g).2).2)

/-- Lines 251-255: `if ( g_cnt > 0 && g_cnt < 8 ) { g_cnt = 7; advance_gbuf(); }`. -/
def alignGet (g : GetBuf) : GetBuf :=
  if 0 < g.g_cnt ∧ g.g_cnt < 8 then advance_gbuf { g with g_cnt := 7 } else g

/-- One pass of the output loop (lines 233-240, 259-266) for the flag `bbuf[i]`.
On a 0 flag the `int` returned by `gfgetc()` is written out and stored without
a test for the end-of-input marker. -/
def lzpDecByte (st : LzpDec) (flag : Bool) : LzpDec :=
  if flag then
    let c : Int := ((st.w st.prev).val : Int)
    { st with pb := pfputc c st.pb, prev := hashUpdate st.prev c }
  else
    let c : Int := (gfgetc st.gb).1
    { st with pb := pfputc c st.pb, gb := (gfgetc st.gb).2,
              w := setSlot st.w st.prev (toByte c), prev := hashUpdate st.prev c }

/-- One full block (lines 225-241): `PPP_BLOCKSIZE` flags, then the bytes. -/
def lzpDecFullBlock (st : LzpDec) : LzpDec :=
  (readFlags PPP_BLOCKSIZE st.gb).1.foldl lzpDecByte
    { st with gb := (readFlags PPP_BLOCKSIZE st.gb).2 }

/-- The loop `while ( ppp_nblocks-- )` entered with `ppp_nblocks = n > 0`: `n`
passes of the block body, one after the other. -/
def lzpDecFullBlocks : Nat → LzpDec → LzpDec
  | 0, st => st
  | n + 1, st => lzpDecFullBlock (lzpDecFullBlocks n st)

/-- The last block (lines 245-268): `n` flags, the byte alignment, the bytes. -/
def lzpDecLastBlock (n : Nat) (st : LzpDec) : LzpDec :=
  (readFlags n st.gb).1.foldl lzpDecByte
    { st with gb := alignGet (readFlags n st.gb).2 }

/-- The routine `decompress_LZP( win_buf )` with the globals `ppp_nblocks` and
`ppp_lastblocksize` as read from the header.  The flag loop of the last block
stores into `bbuf[PPP_BLOCKSIZE]` (line 50): for `ppp_lastblocksize` up to
`PPP_BLOCKSIZE` this is the source's routine; a larger size makes the source
store past the end of `bbuf`, which has no defined behaviour and of which this
definition says nothing. -/
def decompress_LZP (ppp_nblocks ppp_lastblocksize : Int) (st : LzpDec) : LzpDec :=
  let st1 := if 0 < ppp_nblocks then lzpDecFullBlocks ppp_nblocks.toNat st else st
  if 0 < ppp_lastblocksize then lzpDecLastBlock ppp_lastblocksize.toNat st1 else st1

/-! ## VLC mode: compress_VLC (praq6.c lines 271-308) -/

/-- The variables of `compress_VLC`: table, hash, the pending run length
`blen` (an `int`, held as its 32-bit pattern), the rank cursor `rank`, the
frequency counters, the MTF list and the output buffer. -/
structure VlcEnc where
  w : GuessTable
  prev : Nat
  blen : Nat
  rank : Byte
  f : Freq
  list : List Byte
  pb : PutBuf

/-- The run flush of lines 285-290 and 302-306: `put_ONE(); put_golomb(--blen, 0)`
when a run is pending, `put_ZERO()` otherwise.  In that branch the pattern of
`blen` is not 0, so `--blen` does not wrap.  (A pattern from 2^31 on stands for
a negative `int`, for which the contract of `put_golomb` says nothing; the
pattern is passed on as it is.) -/
def flushRun (blen : Nat) (p : PutBuf) : PutBuf :=
  if blen ≠ 0 then put_golomb (blen - 1) 0 (put_ONE p) else put_ZERO p

/-- The cursor update `if ( ++table[c].f >= table[rank].f ) rank = c;` of the
hit branch (lines 280, 319), given the counters after the increment. -/
def hitCursor (f1 : Freq) (rank c : Byte) : Byte :=
  if f1 c ≥ f1 rank then c else rank

/-- The cursor update `if ( !(table[rank].f > ++table[c].f && head->c != c) ) rank = c;`
of the miss branch (lines 293, 326), given the counters after the increment and
the list after the lookup.  When `rank = c` the two reads of the counter are
unsequenced in C; the comparison is false for either order, as it is here. -/
def missCursor (f1 : Freq) (list1 : List Byte) (rank c : Byte) : Byte :=
  if ¬ (f1 rank > f1 c ∧ mtfHead list1 ≠ some c) then c else rank

/-- One pass of the inner loop (lines 278-297) on the byte `c = p[n]`.  The
`blen++` of line 279 is taken modulo 2^32. -/
def vlcEncByte (st : VlcEnc) (c : Byte) : VlcEnc :=
  if st.w st.prev = c then
    let f1 := incFreq st.f c
    let rank1 := hitCursor f1 st.rank c
    { st with blen := (st.blen + 1) % 4294967296, f := f1, rank := rank1,
              list := if mtfHead st.list ≠ some rank1 then (mtf st.list rank1).2 else st.list,
              prev := hashUpdate st.prev c.val }
  else
    let f1 := incFreq st.f c
    { st with pb := put_golomb (mtf st.list c).1 BSIZE (flushRun st.blen st.pb),
              blen := 0,
              list := (mtf st.list c).2,
              f := f1,
              rank := missCursor f1 (mtf st.list c).2 st.rank c,
              w := setSlot st.w st.prev c,
              prev := hashUpdate st.prev c.val }

/-- The loop `while ( (nread=fread(p, 1, WSIZE, gIN)) )` over the unread input,
one `fread` result per pass and one unit of fuel per pass. -/
def vlcEncLoop : Nat → VlcEnc → List Byte → VlcEnc
  | 0, st, _ => st
  | fuel + 1, st, inp =>
    if (inp.take WSIZE).length = 0 then st
    else vlcEncLoop fuel ((inp.take WSIZE).foldl vlcEncByte st) (inp.drop WSIZE)

/-- The state `compress_VLC` starts from: `blen=0, rank=0, prev=0`. -/
def vlcEncInit (w : GuessTable) (f : Freq) (list : List Byte) (pb : PutBuf) : VlcEnc :=
  ⟨w, 0, 0, 0, f, list, pb⟩

/-- The routine `compress_VLC( win_buf, pattern )` on the input `S`: the loop,
then the flush of the pending run and the code of `EOF_VLC` (lines 301-307). -/
def compress_VLC (w : GuessTable) (f : Freq) (list : List Byte) (pb : PutBuf)
    (S : List Byte) : VlcEnc :=
  let st := vlcEncLoop S.length (vlcEncInit w f list pb) S
  { st with pb := put_golomb EOF_VLC BSIZE (flushRun st.blen st.pb) }

/-! ## VLC mode: decompress_VLC (praq6.c lines 310-331) -/

/-- The variables of `decompress_VLC`: table, hash, rank cursor, counters, MTF
list, the decoded-output buffer and the input buffer. -/
structure VlcDec where
  w : GuessTable
  prev : Nat
  rank : Byte
  f : Freq
  list : List Byte
  pb : PutBuf
  gb : GetBuf

/-- How a run of `decompress_VLC` ends in the model: by the `return` of line
324; at the call `get_mtf_c(c)` of line 325 made with a rank `c` at which the
list holds no symbol; or with the fuel used up. -/
inductive VlcOutcome where
  | returned (st : VlcDec)
  | noSymbol (rank : Nat) (st : VlcDec)
  | outOfFuel (st : VlcDec)

/-- One pass of the inner `do` loop (lines 318-321). -/
def vlcDecHit (st : VlcDec) : VlcDec :=
  let c := st.w st.prev
  let f1 := incFreq st.f c
  let rank1 := hitCursor f1 st.rank c
  { st with pb := pfputc c.val st.pb, f := f1, rank := rank1,
            list := (mtf st.list rank1).2,
            prev := hashUpdate st.prev c.val }

/-- The body of the inner `do` loop run `n` times. -/
def vlcDecPasses : Nat → VlcDec → VlcDec
  | 0, st => st
  | n + 1, st => vlcDecPasses n (vlcDecHit st)

/-- The number of passes of `do { ... } while ( --blen );` entered with the
counter `blen` (an `int`, held as its 32-bit pattern): the loop is left when
the decremented counter is 0, that is after `blen` passes for `blen` from 1
on, and after the 2^32 passes that bring the counter round to 0 again when it
is entered with 0. -/
def doWhileCount (blen : Nat) : Nat := (blen + 4294967295) % 4294967296 + 1

/-- The loop `do { ... } while ( --blen );` of lines 317-322, entered with the
counter `blen`. -/
def vlcDecRun (blen : Nat) (st : VlcDec) : VlcDec := vlcDecPasses (doWhileCount blen) st

/-- Lines 325-329 for the symbol `c` that `get_mtf_c` returned and the list
`list1` it left. -/
def vlcDecMiss (st : VlcDec) (c : Byte) (list1 : List Byte) : VlcDec :=
  let f1 := incFreq st.f c
  { st with list := list1, f := f1, rank := missCursor f1 list1 st.rank c,
            pb := pfputc c.val st.pb,
            w := setSlot st.w st.prev c,
            prev := hashUpdate st.prev c.val }

/-- Step 1 of a pass of the outer loop (lines 315-323): one bit, and on a 1
the assignment `blen = get_golomb(0)+1`, taken modulo 2^32, and the inner
loop.  `none` is the Golomb reader running out of fuel. -/
def vlcDecStep1 (fuel : Nat) (st : VlcDec) : Option VlcDec :=
  if (get_bit st.gb).1 then
    match get_golomb fuel 0 (get_bit st.gb).2 with
    | none => none
    | some (v, g) => some (vlcDecRun ((v + 1) % 4294967296) { st with gb := g })
  else some { st with gb := (get_bit st.gb).2 }

/-- The outer loop `do { ... } while ( 1 );` of `decompress_VLC`.  One unit of
fuel per pass; the remaining fuel also bounds the unary loops of the Golomb
reader within the pass. -/
def vlcDecLoop : Nat → VlcDec → VlcOutcome
  | 0, st => .outOfFuel st
  | fuel + 1, st =>
    match vlcDecStep1 fuel st with
    | none => .outOfFuel st
    | some st1 =>
      match get_golomb fuel BSIZE st1.gb with
      | none => .outOfFuel st1
      | some (c, g) =>
        if c = EOF_VLC then .returned { st1 with gb := g }
        else
          match get_mtf_c st1.list c with
          | none => .noSymbol c { st1 with gb := g }
          | some (sym, list1) => vlcDecLoop fuel (vlcDecMiss { st1 with gb := g } sym list1)

/-- The state `decompress_VLC` starts from: `rank=0, prev=0`. -/
def vlcDecInit (w : GuessTable) (f : Freq) (list : List Byte) (pb : PutBuf)
    (gb : GetBuf) : VlcDec :=
  ⟨w, 0, 0, f, list, pb, gb⟩

/-- The routine `decompress_VLC( win_buf )`. -/
def decompress_VLC (fuel : Nat) (w : GuessTable) (f : Freq) (list : List Byte)
    (pb : PutBuf) (gb : GetBuf) : VlcOutcome :=
  vlcDecLoop fuel (vlcDecInit w f list pb gb)

/-- The state a run of `decompress_VLC` ended in. -/
def VlcOutcome.state : VlcOutcome → VlcDec
  | .returned st => st
  | .noSymbol _ st => st
  | .outOfFuel st => st

/-! ## The driver (praq6.c lines 115-150) -/

/-- The header record `file_stamp`: the 8 characters of `alg`, the block count,
the size of the last block and the mode selector. -/
structure file_stamp where
  alg : List Byte
  ppp_nblocks : Int
  ppp_lastblocksize : Int
  mcode : Int

/-- The six characters `strcpy( fstamp.alg, "PRAQ6" )` stores: the five
letters and the string terminator. -/
def magicString : List Byte := [0x50, 0x52, 0x41, 0x51, 0x36, 0]

/-- The compress branch of `main` (lines 115-126, 142-150) for the mode
selector `mcode` and the input `S`: the header record as it stands in the
finished file and the body, the flushed output buffer.  `fstamp` is the local
variable as `main` finds it; `strcpy` and the assignment of `mcode` are the
only stores into it, and in PPP mode the counts are stored before the header
is rewritten. -/
def mainCompress (fstamp : file_stamp) (mcode : Int) (S : List Byte) :
    file_stamp × List Byte :=
  let fstamp1 : file_stamp :=
    { fstamp with alg := magicString ++ fstamp.alg.drop 6, mcode := mcode }
  if mcode = mPPP then
    let st := compress_LZP zeroTable init_put_buffer S
    ({ fstamp1 with ppp_nblocks := st.ppp_nblocks,
                    ppp_lastblocksize := st.ppp_lastblocksize },
     flush_put_buffer st.pb)
  else
    (fstamp1, flush_put_buffer (compress_VLC zeroTable zeroFreq alloc_mtf init_put_buffer S).pb)

/-- Which routine the decompress branch of `main` ran, and how it ended. -/
inductive DecodeRun where
  | lzp (st : LzpDec)
  | vlc (r : VlcOutcome)

/-- The decompress branch of `main` (lines 127-141) for the header record
`fstamp` read from the file and the bytes `body` that follow it. -/
def mainDecompress (fuel : Nat) (fstamp : file_stamp) (body : List Byte) (pad : Bool) :
    DecodeRun :=
  if fstamp.mcode = mPPP then
    .lzp (decompress_LZP fstamp.ppp_nblocks fstamp.ppp_lastblocksize
      ⟨zeroTable, 0, init_put_buffer, init_get_buffer body pad⟩)
  else
    .vlc (decompress_VLC fuel zeroTable zeroFreq alloc_mtf init_put_buffer
      (init_get_buffer body pad))

/-- The bytes of the output file after `flush_put_buffer()` (line 142). -/
def DecodeRun.output : DecodeRun → List Byte
  | .lzp st => flush_put_buffer st.pb
  | .vlc r => flush_put_buffer r.state.pb

/-! ## Bit-level view of the buffers (used in the proofs) -/

/-- The eight bits of a byte in buffer order, least significant first. -/
def byteBits (x : Nat) : List Bool := (List.range 8).map (fun i => x.testBit i)

/-- The bits of a byte sequence in buffer order. -/
def bitsOfBytes : List Byte → List Bool
  | [] => []
  | x :: xs => byteBits x.val ++ bitsOfBytes xs

/-- All bits written to an output buffer so far. -/
def PutBuf.bits (p : PutBuf) : List Bool :=
  bitsOfBytes p.out ++ (List.range p.p_cnt).map (fun i => p.cur.testBit i)

/-- Well-formedness of an output buffer: fewer than 8 bits pending and no bit
set at or above the fill position. -/
def PutBuf.ok (p : PutBuf) : Prop := p.p_cnt < 8 ∧ p.cur < 2 ^ p.p_cnt

/-- The bits an input buffer has yet to deliver. -/
def GetBuf.bits (g : GetBuf) : List Bool := (bitsOfBytes g.data).drop g.g_cnt

/-- The bits of a `k`-bit field holding `v`, least significant first. -/
def fieldBits (v : Nat) : Nat → List Bool
  | 0 => []
  | k + 1 => decide (v % 2 = 1) :: fieldBits (v / 2) k

/-- The bits of the Golomb code of `n` with field width `k`. -/
def golombBits (n k : Nat) : List Bool :=
  List.replicate (n >>> k) true ++ false :: fieldBits (n % 2 ^ k) k

/-- The bits of a run flush for a pending run of `blen`. -/
def flushBits (blen : Nat) : List Bool :=
  if blen ≠ 0 then true :: golombBits (blen - 1) 0 else [false]

/-- The number of passes of the inner loop that step 1 of `decompress_VLC`
makes on the run flush written for `n`: none on the bit 0, and on the bit 1
with the code of `n - 1` those of the loop entered with `blen = (n - 1) + 1`.
This is `n` itself for every `n` below 2^32. -/
def runDecoded (n : Nat) : Nat :=
  if n = 0 then 0 else doWhileCount ((n - 1 + 1) % 4294967296)

/-- The state of `compress_VLC` after `n` zero bytes from the start state of
the driver, in closed form: every byte is a hit at the context 0, so only the
run counter and the counter of the byte 0 have changed. -/
def zeroRunState (n : Nat) : VlcEnc :=
  ⟨zeroTable, 0, n % 4294967296, 0, fun x => if x = 0 then n else 0, alloc_mtf,
    init_put_buffer⟩

/-! ## Notions used in the proofs of the VLC codec -/

/-- The list invariant: every byte value has a rank below 256. -/
def ListOK (l : List Byte) : Prop := (∀ c : Byte, c ∈ l) ∧ l.length = 256

/-- `n` passes of the decoder's hit step. -/
def hitIter : Nat → VlcDec → VlcDec
  | 0, d => d
  | n + 1, d => vlcDecHit (hitIter n d)

/-- Encoder and decoder hold the same table, hash, cursor, counters and list. -/
def Agree (e : VlcEnc) (d : VlcDec) : Prop :=
  d.w = e.w ∧ d.prev = e.prev ∧ d.rank = e.rank ∧ d.f = e.f ∧ d.list = e.list

/-- The bits `compress_VLC` writes from the state `e` on for the input `T`,
with the closing flush and sentinel. -/
def vlcEncBits : VlcEnc → List Byte → List Bool
  | e, [] => flushBits e.blen ++ golombBits EOF_VLC BSIZE
  | e, c :: T =>
    if e.w e.prev = c then vlcEncBits (vlcEncByte e c) T
    else flushBits e.blen ++ (golombBits (mtf e.list c).1 BSIZE ++ vlcEncBits (vlcEncByte e c) T)

/-- The encoder state after the bytes `P`, from the start state of the driver. -/
def vlcEncAfter (P : List Byte) : VlcEnc :=
  P.foldl vlcEncByte (vlcEncInit zeroTable zeroFreq alloc_mtf init_put_buffer)

/-- The body `compress_VLC` and the closing `flush_put_buffer()` leave in the
file for the input `S`, from the start state of the driver. -/
def vlcBody (S : List Byte) : List Byte :=
  flush_put_buffer (compress_VLC zeroTable zeroFreq alloc_mtf init_put_buffer S).pb

/-- The bytes `R` are predicted correctly one after the other from the encoder
state `e` on. -/
def AllHits : VlcEnc → List Byte → Prop
  | _, [] => True
  | e, c :: R => e.w e.prev = c ∧ AllHits (vlcEncByte e c) R

/-- The rank at which a run of `decompress_VLC` ended inside the call
`get_mtf_c(c)` of line 325, if it ended there. -/
def VlcOutcome.lookupFault : VlcOutcome → Option Nat
  | .noSymbol rank _ => some rank
  | _ => none

/-- The input buffer over the bytes `D` after `m` bits have been read. -/
def atPos (D : List Byte) (pad : Bool) (m : Nat) : GetBuf := ⟨D.drop (m / 8), m % 8, pad⟩

/-- The table and hash of the PPP codec after one byte. -/
def lzpCoreStep (s : GuessTable × Nat) (c : Byte) : GuessTable × Nat :=
  (if s.1 s.2 = c then s.1 else setSlot s.1 s.2 c, hashUpdate s.2 c.val)

/-- The hit/miss flags of a block, from the table and hash `s`. -/
def lzpFlags : GuessTable × Nat → List Byte → List Bool
  | _, [] => []
  | s, c :: cs => decide (s.1 s.2 = c) :: lzpFlags (lzpCoreStep s c) cs

/-- The mismatched bytes of a block, from the table and hash `s`. -/
def lzpMisses : GuessTable × Nat → List Byte → List Byte
  | _, [] => []
  | s, c :: cs =>
    if s.1 s.2 = c then lzpMisses (lzpCoreStep s c) cs else c :: lzpMisses (lzpCoreStep s c) cs

/-- The decoder loops of `decompress_LZP` for `k` full blocks and a last block
of `l` bytes. -/
def lzpDecBlocks (k l : Nat) (d : LzpDec) : LzpDec :=
  if 0 < l then lzpDecLastBlock l (lzpDecFullBlocks k d) else lzpDecFullBlocks k d

/-- The context hash after the bytes `P`, from the start value 0. -/
def hashOf (P : List Byte) : Nat := P.foldl (fun h c => hashUpdate h c.val) 0

/-- The byte that most recently followed the context `h` in a sequence given
last byte first, and 0 if that context never occurred. -/
def lastFollowerRev : List Byte → Nat → Byte
  | [], _ => 0
  | c :: R, h => if hashOf R.reverse = h then c else lastFollowerRev R h

/-- The prediction table the specification describes for the processed bytes
`P`: "slot = last byte observed following that context", 0 for a context that
never occurred. -/
def lastFollower (P : List Byte) : GuessTable := fun h => lastFollowerRev P.reverse h

/-- The table and hash after one byte as the specification words it: `observe`
writes the byte into the slot after every byte, `advance` updates the hash. -/
def observeStep (s : GuessTable × Nat) (c : Byte) : GuessTable × Nat :=
  (setSlot s.1 s.2 c, hashUpdate s.2 c.val)

/-- The codec state the VLC encoder and decoder share: prediction table,
context hash, rank cursor, frequency counters and MTF list. -/
structure VlcCore where
  w : GuessTable
  prev : Nat
  rank : Byte
  f : Freq
  list : List Byte

/-- The shared codec state held by the encoder. -/
def VlcEnc.core (e : VlcEnc) : VlcCore := ⟨e.w, e.prev, e.rank, e.f, e.list⟩

/-- The shared codec state held by the decoder. -/
def VlcDec.core (d : VlcDec) : VlcCore := ⟨d.w, d.prev, d.rank, d.f, d.list⟩

/-- The codec states after each byte of `T`, in `compress_VLC` from the state
`e` on. -/
def vlcEncTrace : VlcEnc → List Byte → List VlcCore
  | _, [] => []
  | e, c :: T => (vlcEncByte e c).core :: vlcEncTrace (vlcEncByte e c) T

/-- The codec states after each of `n` passes of the inner loop of
`decompress_VLC` (lines 318-321), one per byte output. -/
def hitTrace : Nat → VlcDec → List VlcCore
  | 0, _ => []
  | n + 1, d => (vlcDecHit d).core :: hitTrace n (vlcDecHit d)

/-- The codec states after each byte output in step 1 of a pass of the outer
loop: those of the passes of the inner loop entered with
`blen = get_golomb(0)+1`, none on a 0 bit. -/
def vlcDecStep1Trace (fuel : Nat) (st : VlcDec) : List VlcCore :=
  if (get_bit st.gb).1 then
    match get_golomb fuel 0 (get_bit st.gb).2 with
    | none => []
    | some (v, g) => hitTrace (doWhileCount ((v + 1) % 4294967296)) { st with gb := g }
  else []

/-- The codec states of `decompress_VLC` after each byte it outputs, in order:
the loop `vlcDecLoop` with the state recorded at the end of every pass of the
inner loop and after every decoded miss. -/
def vlcDecTrace : Nat → VlcDec → List VlcCore
  | 0, _ => []
  | fuel + 1, st =>
    match vlcDecStep1 fuel st with
    | none => []
    | some st1 =>
      vlcDecStep1Trace fuel st ++
        match get_golomb fuel BSIZE st1.gb with
        | none => []
        | some (c, g) =>
          if c = EOF_VLC then []
          else
            match get_mtf_c st1.list c with
            | none => []
            | some (sym, list1) =>
              (vlcDecMiss { st1 with gb := g } sym list1).core
                :: vlcDecTrace fuel (vlcDecMiss { st1 with gb := g } sym list1)

/-- The layout of the PPP body the specification describes, for the unread
input `inp` from the table and hash `s`: per block of up to `PPP_BLOCKSIZE`
bytes the bitmap bytes `B`, holding the flags of the block and the filler bits
that complete the last byte, followed by the mismatched bytes of the block in
order, followed by the layout of the rest. -/
def PppLayout : Nat → GuessTable × Nat → List Byte → List Byte → Prop
  | 0, _, inp, body => inp = [] ∧ body = []
  | fuel + 1, s, inp, body =>
    if inp = [] then body = []
    else ∃ B rest,
      body = B ++ (lzpMisses s (inp.take PPP_BLOCKSIZE) ++ rest)
      ∧ B.length = ((inp.take PPP_BLOCKSIZE).length + 7) / 8
      ∧ bitsOfBytes B = lzpFlags s (inp.take PPP_BLOCKSIZE)
          ++ List.replicate ((8 - (inp.take PPP_BLOCKSIZE).length % 8) % 8) false
      ∧ PppLayout fuel ((inp.take PPP_BLOCKSIZE).foldl lzpCoreStep s) (inp.drop PPP_BLOCKSIZE) rest

/-! ## Theorems -/

/-! ### The output buffer -/

theorem toByte_val (c : Byte) : toByte (c.val : Int) = c := by
  apply Fin.ext
  simp only [toByte]
  omega

theorem byteBits_length (x : Nat) : (byteBits x).length = 8 := by
  simp [byteBits]

theorem bitsOfBytes_append (a b : List Byte) :
    bitsOfBytes (a ++ b) = bitsOfBytes a ++ bitsOfBytes b := by
  induction a with
  | nil => rfl
  | cons x xs ih => simp [bitsOfBytes, ih]

theorem bitsOfBytes_length (a : List Byte) : (bitsOfBytes a).length = 8 * a.length := by
  induction a with
  | nil => rfl
  | cons x xs ih => simp [bitsOfBytes, ih, byteBits_length]; omega

theorem toByte_natCast_val (n : Nat) (h : n < 256) : (toByte (n : Int)).val = n := by
  simp only [toByte]
  omega

theorem range_succ_map_testBit (x k : Nat) :
    (List.range (k + 1)).map (fun i => x.testBit i)
      = (List.range k).map (fun i => x.testBit i) ++ [x.testBit k] := by
  simp [List.range_succ]

theorem map_testBit_congr (x y k : Nat) (h : ∀ i, i < k → x.testBit i = y.testBit i) :
    (List.range k).map (fun i => x.testBit i) = (List.range k).map (fun i => y.testBit i) := by
  apply List.map_congr_left
  intro i hi
  exact h i (List.mem_range.mp hi)

theorem advance_buf_bits (p : PutBuf) (b : Bool) (hk : p.p_cnt < 8)
    (hc : p.cur < 2 ^ (p.p_cnt + 1)) (hb : p.cur.testBit p.p_cnt = b) :
    (advance_buf p).ok ∧ (advance_buf p).bits
      = bitsOfBytes p.out ++ (List.range p.p_cnt).map (fun i => p.cur.testBit i) ++ [b] := by
  unfold advance_buf
  split
  · rename_i h8
    have hk7 : p.p_cnt = 7 := by omega
    have hlt : p.cur < 256 := by rw [hk7] at hc; simpa using hc
    refine ⟨by simp [PutBuf.ok], ?_⟩
    simp only [PutBuf.bits, bitsOfBytes_append, bitsOfBytes, List.append_nil, List.range_zero,
      List.map_nil, toByte_natCast_val _ hlt, byteBits]
    rw [show (8 : Nat) = p.p_cnt + 1 by omega, range_succ_map_testBit, hb]
    simp
  · rename_i h8
    refine ⟨⟨by simp; omega, hc⟩, ?_⟩
    simp only [PutBuf.bits]
    rw [range_succ_map_testBit, hb]
    simp

theorem put_bit_spec (b : Bool) (p : PutBuf) (h : p.ok) :
    (put_bit b p).ok ∧ (put_bit b p).bits = p.bits ++ [b] := by
  obtain ⟨hk, hc⟩ := h
  cases b with
  | false =>
    have := advance_buf_bits p false hk (by rw [pow_succ]; omega) (Nat.testBit_lt_two_pow hc)
    simpa [put_bit, put_ZERO, PutBuf.bits] using this
  | true =>
    have h1 : (1 : Nat) <<< p.p_cnt = 2 ^ p.p_cnt := by simp [Nat.shiftLeft_eq]
    have hlt : p.cur ||| 2 ^ p.p_cnt < 2 ^ (p.p_cnt + 1) :=
      Nat.or_lt_two_pow (by rw [pow_succ]; omega) (by rw [pow_succ]; omega)
    have hbit : (p.cur ||| 2 ^ p.p_cnt).testBit p.p_cnt = true := by
      simp [Nat.testBit_or, Nat.testBit_two_pow]
    have := advance_buf_bits { p with cur := p.cur ||| 2 ^ p.p_cnt } true hk hlt hbit
    simp only [put_bit, put_ONE, h1, if_true]
    refine ⟨this.1, ?_⟩
    rw [this.2]
    simp only [PutBuf.bits]
    congr 2
    apply map_testBit_congr
    intro i hi
    simp [Nat.testBit_or, Nat.testBit_two_pow]
    omega

theorem put_ONE_spec (p : PutBuf) (h : p.ok) :
    (put_ONE p).ok ∧ (put_ONE p).bits = p.bits ++ [true] := by
  simpa [put_bit] using put_bit_spec true p h

theorem put_ZERO_spec (p : PutBuf) (h : p.ok) :
    (put_ZERO p).ok ∧ (put_ZERO p).bits = p.bits ++ [false] := by
  simpa [put_bit] using put_bit_spec false p h

theorem put_ones_spec (q : Nat) (p : PutBuf) (h : p.ok) :
    (put_ones q p).ok ∧ (put_ones q p).bits = p.bits ++ List.replicate q true := by
  induction q generalizing p with
  | zero => simp [put_ones, h]
  | succ q ih =>
    have h1 := put_ONE_spec p h
    have h2 := ih (put_ONE p) h1.1
    refine ⟨by simpa [put_ones] using h2.1, ?_⟩
    simp only [put_ones]
    rw [h2.2, h1.2, List.replicate_succ]
    simp

theorem put_nbits_spec (k v : Nat) (p : PutBuf) (h : p.ok) :
    (put_nbits v k p).ok ∧ (put_nbits v k p).bits = p.bits ++ fieldBits v k := by
  induction k generalizing v p with
  | zero => simp [put_nbits, fieldBits, h]
  | succ k ih =>
    have h1 := put_bit_spec (decide (v % 2 = 1)) p h
    have h2 := ih (v / 2) _ h1.1
    refine ⟨by simpa [put_nbits] using h2.1, ?_⟩
    simp only [put_nbits, fieldBits]
    rw [h2.2, h1.2]
    simp

theorem put_golomb_spec (n k : Nat) (p : PutBuf) (h : p.ok) :
    (put_golomb n k p).ok ∧ (put_golomb n k p).bits = p.bits ++ golombBits n k := by
  have h1 := put_ones_spec (n >>> k) p h
  have h2 := put_ZERO_spec _ h1.1
  have h3 := put_nbits_spec k (n % 2 ^ k) _ h2.1
  refine ⟨h3.1, ?_⟩
  unfold put_golomb golombBits
  rw [h3.2, h2.2, h1.2]
  simp

theorem flushRun_spec (blen : Nat) (p : PutBuf) (h : p.ok) :
    (flushRun blen p).ok ∧ (flushRun blen p).bits = p.bits ++ flushBits blen := by
  unfold flushRun flushBits
  split
  · have h1 := put_ONE_spec p h
    have h2 := put_golomb_spec (blen - 1) 0 _ h1.1
    refine ⟨h2.1, ?_⟩
    rw [h2.2, h1.2]
    simp
  · exact put_ZERO_spec p h

theorem init_put_buffer_ok : init_put_buffer.ok := by
  simp [init_put_buffer, PutBuf.ok]

theorem flush_put_buffer_bits (p : PutBuf) (h : p.ok) :
    ∃ z, bitsOfBytes (flush_put_buffer p) = p.bits ++ z := by
  obtain ⟨hk, hc⟩ := h
  unfold flush_put_buffer
  split
  · have hlt : p.cur < 256 := by
      calc p.cur < 2 ^ p.p_cnt := hc
        _ ≤ 2 ^ 8 := Nat.pow_le_pow_right (by norm_num) (by omega)
        _ = 256 := by norm_num
    refine ⟨(List.range (8 - p.p_cnt)).map (fun i => p.cur.testBit (p.p_cnt + i)), ?_⟩
    simp only [PutBuf.bits, bitsOfBytes_append, bitsOfBytes, List.append_nil,
      toByte_natCast_val _ hlt, byteBits, List.append_assoc]
    congr 1
    have h8 : 8 = p.p_cnt + (8 - p.p_cnt) := by omega
    conv_lhs => rw [h8, List.range_add]
    simp
  · refine ⟨[], ?_⟩
    have : p.p_cnt = 0 := by omega
    simp [PutBuf.bits, this]

/-! ### The input buffer -/

theorem bitsOfBytes_get_cons (x : Byte) (xs : List Byte) (k : Nat) (hk : k < 8) :
    (bitsOfBytes (x :: xs)).drop k
      = x.val.testBit k :: (bitsOfBytes (x :: xs)).drop (k + 1) := by
  have hlen : k < (bitsOfBytes (x :: xs)).length := by
    rw [bitsOfBytes_length]; simp; omega
  rw [List.drop_eq_getElem_cons hlen]
  congr 1
  simp only [bitsOfBytes]
  rw [List.getElem_append_left (by rw [byteBits_length]; exact hk)]
  simp [byteBits]

theorem get_bit_spec (g : GetBuf) (b : Bool) (r : List Bool) (hk : g.g_cnt < 8)
    (h : g.bits = b :: r) :
    (get_bit g).1 = b ∧ (get_bit g).2.bits = r ∧ (get_bit g).2.g_cnt < 8
      ∧ (get_bit g).2.pad = g.pad := by
  obtain ⟨data, k, pad⟩ := g
  cases data with
  | nil => simp [GetBuf.bits, bitsOfBytes] at h
  | cons x xs =>
    simp only [GetBuf.bits] at h hk
    rw [bitsOfBytes_get_cons x xs k hk] at h
    simp only [List.cons.injEq] at h
    obtain ⟨hb, hr⟩ := h
    simp only [get_bit, advance_gbuf]
    refine ⟨hb, ?_⟩
    split
    · rename_i h8
      simp only [GetBuf.bits, List.tail_cons, List.drop_zero]
      refine ⟨?_, by norm_num, trivial⟩
      rw [← hr, show k + 1 = 8 by omega]
      simp only [bitsOfBytes]
      rw [List.drop_append_of_le_length (by rw [byteBits_length])]
      simp [List.drop_of_length_le, byteBits_length]
    · rename_i h8
      simp only [GetBuf.bits]
      exact ⟨hr, by omega, trivial⟩

theorem get_ones_spec (q : Nat) : ∀ (fuel n : Nat) (g : GetBuf) (r : List Bool),
    g.g_cnt < 8 → g.bits = List.replicate q true ++ false :: r → q < fuel →
    ∃ g1, get_ones fuel n g = some (n + q, g1) ∧ g1.bits = r ∧ g1.g_cnt < 8
      ∧ g1.pad = g.pad := by
  induction q with
  | zero =>
    intro fuel n g r hk hb hf
    obtain ⟨fuel, rfl⟩ : ∃ m, fuel = m + 1 := ⟨fuel - 1, by omega⟩
    have := get_bit_spec g false r hk (by simpa using hb)
    refine ⟨(get_bit g).2, ?_, this.2.1, this.2.2.1, this.2.2.2⟩
    simp [get_ones, this.1]
  | succ q ih =>
    intro fuel n g r hk hb hf
    obtain ⟨fuel, rfl⟩ : ∃ m, fuel = m + 1 := ⟨fuel - 1, by omega⟩
    have := get_bit_spec g true (List.replicate q true ++ false :: r) hk
      (by simpa [List.replicate_succ] using hb)
    obtain ⟨g1, h1, h2, h3, h4⟩ := ih fuel (n + 1) (get_bit g).2 r this.2.2.1 this.2.1 (by omega)
    refine ⟨g1, ?_, h2, h3, by rw [h4, this.2.2.2]⟩
    simp only [get_ones, this.1, if_true, h1]
    congr 2
    omega

theorem get_nbits_spec (k : Nat) : ∀ (v : Nat) (g : GetBuf) (r : List Bool),
    g.g_cnt < 8 → g.bits = fieldBits v k ++ r → v < 2 ^ k →
    (get_nbits k g).1 = v ∧ (get_nbits k g).2.bits = r ∧ (get_nbits k g).2.g_cnt < 8
      ∧ (get_nbits k g).2.pad = g.pad := by
  induction k with
  | zero =>
    intro v g r hk hb hv
    simp only [fieldBits, List.nil_append] at hb
    simp only [pow_zero] at hv
    simp [get_nbits, hb, hk]
    omega
  | succ k ih =>
    intro v g r hk hb hv
    have := get_bit_spec g (decide (v % 2 = 1)) (fieldBits (v / 2) k ++ r) hk
      (by simpa [fieldBits] using hb)
    have h2 := ih (v / 2) (get_bit g).2 r this.2.2.1 this.2.1
      (by rw [pow_succ] at hv; omega)
    simp only [get_nbits]
    refine ⟨?_, h2.2.1, h2.2.2.1, by rw [h2.2.2.2, this.2.2.2]⟩
    rw [h2.1, this.1]
    by_cases hv2 : v % 2 = 1
    · simp [hv2]; omega
    · simp [hv2]; omega

theorem get_golomb_spec (n k fuel : Nat) (g : GetBuf) (r : List Bool)
    (hk : g.g_cnt < 8) (hb : g.bits = golombBits n k ++ r) (hf : n >>> k < fuel) :
    ∃ g1, get_golomb fuel k g = some (n, g1) ∧ g1.bits = r ∧ g1.g_cnt < 8
      ∧ g1.pad = g.pad := by
  unfold golombBits at hb
  obtain ⟨g1, h1, h2, h3, h4⟩ := get_ones_spec (n >>> k) fuel 0 g
    (fieldBits (n % 2 ^ k) k ++ r) hk (by simpa using hb) hf
  have h5 := get_nbits_spec k (n % 2 ^ k) g1 r h3 h2 (Nat.mod_lt _ (by positivity))
  refine ⟨(get_nbits k g1).2, ?_, h5.2.1, h5.2.2.1, by rw [h5.2.2.2, h4]⟩
  simp only [get_golomb, h1, h5.1, Nat.zero_add]
  congr 2
  rw [Nat.shiftLeft_eq, Nat.shiftRight_eq_div_pow]
  have := Nat.div_add_mod n (2 ^ k)
  rw [Nat.mul_comm]
  exact this

theorem golombBits_length (n k : Nat) : (golombBits n k).length = (n >>> k) + 1 + k := by
  have : ∀ k v, (fieldBits v k).length = k := by
    intro k
    induction k with
    | zero => intro v; rfl
    | succ k ih => intro v; simp [fieldBits, ih]
  simp [golombBits, this]
  omega

/-! ### The move-to-front list -/

theorem alloc_mtf_ok : ListOK alloc_mtf :=
  ⟨fun c => List.mem_finRange c, List.length_finRange 256⟩

theorem moveToFront_ok (l : List Byte) (c : Byte) (h : ListOK l) : ListOK (moveToFront l c) := by
  refine ⟨fun x => ?_, ?_⟩
  · by_cases hx : x = c
    · simp [moveToFront, hx]
    · simp only [moveToFront, List.mem_cons]
      right
      exact (List.mem_erase_of_ne hx).mpr (h.1 x)
  · simp only [moveToFront, List.length_cons, List.length_erase_of_mem (h.1 c), h.2]

theorem mtf_rank_lt (l : List Byte) (c : Byte) (h : ListOK l) : (mtf l c).1 < 256 := by
  exact lt_of_lt_of_eq (List.indexOf_lt_length.mpr (h.1 c)) h.2

theorem get_mtf_c_rank (l : List Byte) (c : Byte) (h : ListOK l) :
    get_mtf_c l (mtf l c).1 = some (c, (mtf l c).2) := by
  simp only [get_mtf_c, mtf]
  rw [List.indexOf_get? (h.1 c)]

theorem moveToFront_head (l : List Byte) (c : Byte) (h : mtfHead l = some c) :
    moveToFront l c = l := by
  cases l with
  | nil => simp [mtfHead] at h
  | cons x xs =>
    simp only [mtfHead, List.head?_cons, Option.some.injEq] at h
    subst h
    simp [moveToFront]

/-! ### The VLC codec -/

theorem hitIter_succ_comm (n : Nat) (d : VlcDec) :
    hitIter (n + 1) d = hitIter n (vlcDecHit d) := by
  induction n with
  | zero => rfl
  | succ n ih => 
    show vlcDecHit (hitIter (n + 1) d) = vlcDecHit (hitIter n (vlcDecHit d))
    rw [ih]

theorem vlcDecPasses_eq (n : Nat) (d : VlcDec) : vlcDecPasses n d = hitIter n d := by
  induction n generalizing d with
  | zero => rfl
  | succ n ih =>
    show vlcDecPasses n (vlcDecHit d) = _
    rw [ih, ← hitIter_succ_comm]

theorem vlcDecRun_eq (blen : Nat) (d : VlcDec) :
    vlcDecRun blen d = hitIter (doWhileCount blen) d := by
  unfold vlcDecRun
  exact vlcDecPasses_eq _ d

/-- Below 2^32 the run flush written for `n` is decoded as `n` passes. -/
theorem runDecoded_eq (n : Nat) (h : n < 4294967296) : runDecoded n = n := by
  unfold runDecoded doWhileCount
  split <;> omega

theorem hitIter_gb (n : Nat) (d : VlcDec) (g : GetBuf) :
    hitIter n { d with gb := g } = { hitIter n d with gb := g } := by
  induction n with
  | zero => rfl
  | succ n ih =>
    show vlcDecHit (hitIter n _) = _
    rw [ih]
    rfl

theorem hitIter_gb_eq (n : Nat) (d : VlcDec) : (hitIter n d).gb = d.gb := by
  induction n with
  | zero => rfl
  | succ n ih => 
    show (vlcDecHit (hitIter n d)).gb = _
    rw [← ih]
    rfl

theorem hitIter_p_cnt (n : Nat) (d : VlcDec) : (hitIter n d).pb.p_cnt = d.pb.p_cnt := by
  induction n with
  | zero => rfl
  | succ n ih =>
    show (vlcDecHit (hitIter n d)).pb.p_cnt = _
    rw [← ih]
    rfl

/-- Step 1 on the bits of a run flush for `n`: the hit passes are made and the
flush is consumed. -/
theorem vlcDecStep1_spec (fuel n : Nat) (d : VlcDec) (r : List Bool)
    (hk : d.gb.g_cnt < 8) (hb : d.gb.bits = flushBits n ++ r) (hn : n ≤ fuel) :
    ∃ g, g.bits = r ∧ g.g_cnt < 8 ∧ g.pad = d.gb.pad ∧
      vlcDecStep1 fuel d = some { hitIter (runDecoded n) d with gb := g } := by
  by_cases h0 : n = 0
  · subst h0
    simp only [flushBits, ne_eq, not_true_eq_false, if_false, List.singleton_append] at hb
    have h1 := get_bit_spec d.gb false _ hk hb
    refine ⟨(get_bit d.gb).2, h1.2.1, h1.2.2.1, h1.2.2.2, ?_⟩
    rw [runDecoded_eq 0 (by omega)]
    simp only [vlcDecStep1, h1.1, Bool.false_eq_true, if_false, hitIter]
  · simp only [flushBits, ne_eq, h0, not_false_eq_true, if_true, List.cons_append] at hb
    have h1 := get_bit_spec d.gb true _ hk hb
    obtain ⟨g0, hg01, hg02, hg03, hg04⟩ := get_golomb_spec (n - 1) 0 fuel (get_bit d.gb).2 _
      h1.2.2.1 h1.2.1 (by simp; omega)
    refine ⟨g0, hg02, hg03, by rw [hg04, h1.2.2.2], ?_⟩
    have hrun : vlcDecRun ((n - 1 + 1) % 4294967296) { d with gb := g0 }
        = { hitIter (runDecoded n) d with gb := g0 } := by
      rw [vlcDecRun_eq, hitIter_gb]
      simp only [runDecoded, h0, if_false]
    simp only [vlcDecStep1, h1.1, if_true, hg01, hrun]

/-- What a pass of `vlcDecLoop` does on a run flush for `n` followed by the
Golomb code of `v`. -/
theorem vlcDecLoop_step (fuel n v : Nat) (d : VlcDec) (r : List Bool)
    (hk : d.gb.g_cnt < 8)
    (hb : d.gb.bits = flushBits n ++ (golombBits v BSIZE ++ r))
    (hn : n ≤ fuel) (hv : v >>> BSIZE < fuel) :
    ∃ g, g.bits = r ∧ g.g_cnt < 8 ∧ g.pad = d.gb.pad ∧
      vlcDecLoop (fuel + 1) d =
        if v = EOF_VLC then .returned { hitIter (runDecoded n) d with gb := g }
        else
          match get_mtf_c (hitIter (runDecoded n) d).list v with
          | none => .noSymbol v { hitIter (runDecoded n) d with gb := g }
          | some (sym, list1) =>
            vlcDecLoop fuel (vlcDecMiss { hitIter (runDecoded n) d with gb := g } sym list1) := by
  obtain ⟨g0, hg01, hg02, hg03, hg04⟩ := vlcDecStep1_spec fuel n d _ hk hb hn
  obtain ⟨g, hg1, hg2, hg3, hg4⟩ := get_golomb_spec v BSIZE fuel g0 r hg02 hg01 hv
  refine ⟨g, hg2, hg3, by rw [hg4, hg03], ?_⟩
  simp only [vlcDecLoop, hg04, hg1]

theorem vlcEncByte_list_ok (e : VlcEnc) (c : Byte) (h : ListOK e.list) :
    ListOK (vlcEncByte e c).list := by
  unfold vlcEncByte
  split
  · simp only
    split
    · exact moveToFront_ok _ _ h
    · exact h
  · exact moveToFront_ok _ _ h

theorem vlcEncByte_pb_ok (e : VlcEnc) (c : Byte) (h : e.pb.ok) :
    (vlcEncByte e c).pb.ok := by
  unfold vlcEncByte
  split
  · exact h
  · exact (put_golomb_spec _ _ _ (flushRun_spec _ _ h).1).1

theorem vlcEnc_bits (T : List Byte) : ∀ (e : VlcEnc), e.pb.ok →
    (put_golomb EOF_VLC BSIZE (flushRun (T.foldl vlcEncByte e).blen
        (T.foldl vlcEncByte e).pb)).ok ∧
    (put_golomb EOF_VLC BSIZE (flushRun (T.foldl vlcEncByte e).blen
        (T.foldl vlcEncByte e).pb)).bits = e.pb.bits ++ vlcEncBits e T := by
  induction T with
  | nil =>
    intro e h
    have h1 := flushRun_spec e.blen e.pb h
    have h2 := put_golomb_spec EOF_VLC BSIZE _ h1.1
    refine ⟨h2.1, ?_⟩
    simp only [List.foldl_nil, vlcEncBits, h2.2, h1.2, List.append_assoc]
  | cons c T ih =>
    intro e h
    have h1 := ih (vlcEncByte e c) (vlcEncByte_pb_ok e c h)
    refine ⟨h1.1, ?_⟩
    simp only [List.foldl_cons]
    rw [h1.2]
    simp only [vlcEncBits]
    by_cases hit : e.w e.prev = c
    · simp only [hit, if_true]
      congr 1
      simp [vlcEncByte, hit]
    · simp only [hit, if_false]
      have h2 := flushRun_spec e.blen e.pb h
      have h3 := put_golomb_spec (mtf e.list c).1 BSIZE _ h2.1
      have : (vlcEncByte e c).pb.bits
          = e.pb.bits ++ (flushBits e.blen ++ golombBits (mtf e.list c).1 BSIZE) := by
        simp only [vlcEncByte, hit, if_false, h3.2, h2.2, List.append_assoc]
      rw [this]
      simp only [List.append_assoc]

theorem agree_hit (e : VlcEnc) (d : VlcDec) (c : Byte) (h : Agree e d)
    (hit : e.w e.prev = c) :
    Agree (vlcEncByte e c) (vlcDecHit d) ∧ (vlcDecHit d).pb.out = d.pb.out ++ [c] := by
  obtain ⟨hw, hp, hr, hf, hl⟩ := h
  have hc : d.w d.prev = c := by rw [hw, hp, hit]
  have hc2 : d.w e.prev = c := by rw [hw, hit]
  refine ⟨⟨?_, ?_, ?_, ?_, ?_⟩, ?_⟩
  · simp [vlcEncByte, hit, vlcDecHit, hw]
  · simp [vlcEncByte, hit, vlcDecHit, hp, hc2]
  · simp [vlcEncByte, hit, vlcDecHit, hc, hr, hf]
  · simp [vlcEncByte, hit, vlcDecHit, hc, hf]
  · simp only [vlcEncByte, hit, if_true, vlcDecHit, hc, hr, hf, hl, mtf]
    split
    · rfl
    · rename_i hh
      simp only [ne_eq, not_not] at hh
      exact moveToFront_head _ _ hh
  · simp [vlcDecHit, hc, pfputc, toByte_val]

theorem agree_miss (e : VlcEnc) (d : VlcDec) (c : Byte) (g : GetBuf) (h : Agree e d)
    (hit : ¬ e.w e.prev = c) :
    Agree (vlcEncByte e c) (vlcDecMiss { d with gb := g } c (mtf e.list c).2)
      ∧ (vlcDecMiss { d with gb := g } c (mtf e.list c).2).pb.out = d.pb.out ++ [c]
      ∧ (vlcDecMiss { d with gb := g } c (mtf e.list c).2).gb = g := by
  obtain ⟨hw, hp, hr, hf, hl⟩ := h
  refine ⟨⟨?_, ?_, ?_, ?_, ?_⟩, ?_, ?_⟩
  · simp [vlcEncByte, hit, vlcDecMiss, hw, hp]
  · simp [vlcEncByte, hit, vlcDecMiss, hp]
  · simp [vlcEncByte, hit, vlcDecMiss, hr, hf]
  · simp [vlcEncByte, hit, vlcDecMiss, hf]
  · simp [vlcEncByte, hit, vlcDecMiss]
  · simp [vlcDecMiss, pfputc, toByte_val]
  · simp [vlcDecMiss]

theorem flushBits_length (n : Nat) : (flushBits n).length = if n = 0 then 1 else n + 1 := by
  unfold flushBits
  split
  · rename_i h
    simp [golombBits_length, h]
    omega
  · rename_i h
    simp only [ne_eq, not_not] at h
    simp [h]

/-- The decoder on the bits the encoder writes from the state `e` on for the
input `T`, when the run counter stays below 2^31 throughout. -/
theorem vlc_core (T : List Byte) : ∀ (e : VlcEnc) (d : VlcDec) (fuel : Nat) (r : List Bool),
    e.blen + T.length < 2147483648 →
    ListOK e.list → Agree e (hitIter e.blen d) → d.gb.g_cnt < 8 →
    d.gb.bits = vlcEncBits e T ++ r → (vlcEncBits e T).length ≤ fuel →
    ∃ dF, vlcDecLoop fuel d = .returned dF
      ∧ dF.pb.out = (hitIter e.blen d).pb.out ++ T
      ∧ dF.gb.bits = r ∧ dF.gb.g_cnt < 8
      ∧ Agree (T.foldl vlcEncByte e) dF ∧ dF.pb.p_cnt = d.pb.p_cnt := by
  induction T with
  | nil =>
    intro e d fuel r hlt hl ha hk hb hf
    simp only [vlcEncBits, List.append_assoc] at hb hf
    rw [List.length_append, flushBits_length, golombBits_length] at hf
    have hq : EOF_VLC >>> BSIZE = 32 := by decide
    rw [hq] at hf
    obtain ⟨fuel, rfl⟩ : ∃ m, fuel = m + 1 := ⟨fuel - 1, by split at hf <;> omega⟩
    obtain ⟨g, hg1, hg2, _, hstep⟩ := vlcDecLoop_step fuel e.blen EOF_VLC d r hk hb
      (by split at hf <;> omega) (by rw [hq]; split at hf <;> omega)
    rw [runDecoded_eq e.blen (by omega)] at hstep
    refine ⟨{ hitIter e.blen d with gb := g }, by rw [hstep]; simp, by simp, hg1, hg2, ?_,
      hitIter_p_cnt _ _⟩
    simpa [Agree] using ha
  | cons c T ih =>
    intro e d fuel r hlt hl ha hk hb hf
    simp only [List.length_cons] at hlt
    by_cases hit : e.w e.prev = c
    · simp only [vlcEncBits, hit, if_true] at hb hf
      have hstep := agree_hit e (hitIter e.blen d) c ha hit
      have hblen : (vlcEncByte e c).blen = e.blen + 1 := by
        simp only [vlcEncByte, hit, if_true]
        omega
      obtain ⟨dF, h1, h2, h3, h4, h5, h6⟩ := ih (vlcEncByte e c) d fuel r
        (by rw [hblen]; omega)
        (vlcEncByte_list_ok e c hl) (by rw [hblen]; exact hstep.1) hk hb hf
      refine ⟨dF, h1, ?_, h3, h4, h5, h6⟩
      rw [h2, hblen]
      show (vlcDecHit (hitIter e.blen d)).pb.out ++ T = _
      rw [hstep.2]
      simp
    · simp only [vlcEncBits, hit, if_false] at hb hf
      have hrank := mtf_rank_lt e.list c hl
      simp only [List.length_append, flushBits_length, golombBits_length] at hf
      obtain ⟨fuel, rfl, hf1, hf2, hf3⟩ : ∃ m, fuel = m + 1 ∧ e.blen ≤ m
          ∧ (mtf e.list c).1 >>> BSIZE < m
          ∧ (vlcEncBits (vlcEncByte e c) T).length ≤ m := by
        generalize (mtf e.list c).1 >>> BSIZE = q at hf
        simp only [BSIZE] at hf
        refine ⟨fuel - 1, ?_⟩
        split at hf <;> omega
      obtain ⟨g, hg1, hg2, _, hstep⟩ := vlcDecLoop_step fuel e.blen (mtf e.list c).1 d
        (vlcEncBits (vlcEncByte e c) T ++ r) hk (by simpa using hb) hf1 hf2
      rw [runDecoded_eq e.blen (by omega)] at hstep
      have hne : (mtf e.list c).1 ≠ EOF_VLC := by
        simp only [EOF_VLC]; omega
      have hlist : (hitIter e.blen d).list = e.list := ha.2.2.2.2
      rw [if_neg hne, hlist, get_mtf_c_rank e.list c hl] at hstep
      simp only at hstep
      have hm := agree_miss e (hitIter e.blen d) c g ha hit
      have hblen : (vlcEncByte e c).blen = 0 := by simp [vlcEncByte, hit]
      obtain ⟨dF, h1, h2, h3, h4, h5, h6⟩ := ih (vlcEncByte e c)
        (vlcDecMiss { hitIter e.blen d with gb := g } c (mtf e.list c).2) fuel r
        (by rw [hblen]; omega)
        (vlcEncByte_list_ok e c hl) (by rw [hblen]; exact hm.1)
        (by rw [hm.2.2]; exact hg2) (by rw [hm.2.2]; exact hg1) hf3
      refine ⟨dF, by rw [hstep]; exact h1, ?_, h3, h4, h5, ?_⟩
      swap
      · rw [h6]
        show (hitIter e.blen d).pb.p_cnt = _
        exact hitIter_p_cnt _ _
      rw [h2, hblen]
      show (vlcDecMiss _ c _).pb.out ++ T = _
      rw [hm.2.1]
      simp

theorem WSIZE_pos : 0 < WSIZE := by
  unfold WSIZE WBITS
  rw [Nat.shiftLeft_eq]
  norm_num

theorem vlcEncLoop_eq_foldl (fuel : Nat) : ∀ (st : VlcEnc) (inp : List Byte),
    inp.length ≤ fuel → vlcEncLoop fuel st inp = inp.foldl vlcEncByte st := by
  induction fuel with
  | zero =>
    intro st inp h
    have : inp = [] := List.length_eq_zero.mp (by omega)
    subst this
    rfl
  | succ fuel ih =>
    intro st inp h
    simp only [vlcEncLoop]
    split
    · rename_i h0
      have : inp = [] := by
        cases inp with
        | nil => rfl
        | cons x xs =>
          have := WSIZE_pos
          simp [List.length_take] at h0
          omega
      subst this
      rfl
    · rename_i h0
      have hpos : 0 < inp.length := by
        cases inp with
        | nil => simp at h0
        | cons x xs => simp
      rw [ih _ _ (by have := WSIZE_pos; simp only [List.length_drop]; omega),
        ← List.foldl_append, List.take_append_drop]

theorem PutBuf.bits_length (p : PutBuf) : p.bits.length = 8 * p.out.length + p.p_cnt := by
  simp [PutBuf.bits, bitsOfBytes_length]

theorem foldl_list_ok (P : List Byte) : ∀ (e : VlcEnc), ListOK e.list →
    ListOK (P.foldl vlcEncByte e).list := by
  induction P with
  | nil => intro e h; exact h
  | cons c P ih => intro e h; exact ih _ (vlcEncByte_list_ok e c h)

theorem compress_VLC_pb (S : List Byte) :
    (compress_VLC zeroTable zeroFreq alloc_mtf init_put_buffer S).pb.ok ∧
    (compress_VLC zeroTable zeroFreq alloc_mtf init_put_buffer S).pb.bits
      = vlcEncBits (vlcEncInit zeroTable zeroFreq alloc_mtf init_put_buffer) S := by
  have h := vlcEnc_bits S (vlcEncInit zeroTable zeroFreq alloc_mtf init_put_buffer)
    init_put_buffer_ok
  simp only [compress_VLC, vlcEncLoop_eq_foldl S.length _ S (le_refl _)]
  refine ⟨h.1, ?_⟩
  rw [h.2]
  simp [vlcEncInit, init_put_buffer, PutBuf.bits, bitsOfBytes]

/-- The decoder on the body of an input `S` shorter than 2^31 bytes: it
returns, with `S` as output, every remaining bit being padding of the last
byte. -/
theorem vlc_decode_body (S : List Byte) (pad : Bool) (k : Nat)
    (hS : S.length < 2147483648) :
    ∃ dF z, decompress_VLC (8 * (vlcBody S).length + k) zeroTable zeroFreq alloc_mtf
        init_put_buffer (init_get_buffer (vlcBody S) pad) = .returned dF
      ∧ dF.pb.out = S ∧ dF.pb.p_cnt = 0 ∧ dF.gb.bits = z
      ∧ bitsOfBytes (vlcBody S)
          = (compress_VLC zeroTable zeroFreq alloc_mtf init_put_buffer S).pb.bits ++ z
      ∧ Agree (vlcEncAfter S) dF := by
  obtain ⟨hok, hbits⟩ := compress_VLC_pb S
  obtain ⟨z, hz⟩ := flush_put_buffer_bits _ hok
  have hlen : (vlcEncBits (vlcEncInit zeroTable zeroFreq alloc_mtf init_put_buffer) S).length
      ≤ 8 * (vlcBody S).length + k := by
    have := congrArg List.length hz
    rw [bitsOfBytes_length, List.length_append, hbits] at this
    unfold vlcBody
    omega
  obtain ⟨dF, h1, h2, h3, _, h5, h6⟩ := vlc_core S
    (vlcEncInit zeroTable zeroFreq alloc_mtf init_put_buffer)
    (vlcDecInit zeroTable zeroFreq alloc_mtf init_put_buffer (init_get_buffer (vlcBody S) pad))
    (8 * (vlcBody S).length + k) z (by simp only [vlcEncInit]; omega)
    (by simp only [vlcEncInit]; exact alloc_mtf_ok)
    (by simp only [vlcEncInit, hitIter, Agree, vlcDecInit, and_self])
    (by simp [vlcDecInit, init_get_buffer])
    (by
      simp only [vlcDecInit, init_get_buffer, GetBuf.bits, List.drop_zero]
      rw [← hbits]
      exact hz) hlen
  refine ⟨dF, z, h1, ?_, ?_, h3, hz, h5⟩
  · rw [h2]
    simp only [vlcEncInit, hitIter, vlcDecInit, init_put_buffer, List.nil_append]
  · rw [h6]
    simp only [vlcDecInit, init_put_buffer]

theorem allHits_run (R : List Byte) : ∀ (e : VlcEnc) (d : VlcDec),
    e.blen + R.length < 4294967296 → AllHits e R → Agree e d →
    (R.foldl vlcEncByte e).pb = e.pb ∧ (R.foldl vlcEncByte e).blen = e.blen + R.length
      ∧ Agree (R.foldl vlcEncByte e) (hitIter R.length d)
      ∧ (hitIter R.length d).pb.out = d.pb.out ++ R := by
  induction R with
  | nil => intro e d _ _ ha; exact ⟨rfl, rfl, ha, by simp [hitIter]⟩
  | cons c R ih =>
    intro e d hlt hR ha
    simp only [List.length_cons] at hlt
    obtain ⟨hit, hR'⟩ := hR
    have hs := agree_hit e d c ha hit
    have hblen : (vlcEncByte e c).blen = e.blen + 1 := by
      simp only [vlcEncByte, hit, if_true]
      omega
    obtain ⟨h1, h2, h3, h4⟩ := ih (vlcEncByte e c) (vlcDecHit d) (by rw [hblen]; omega)
      hR' hs.1
    simp only [List.foldl_cons, List.length_cons]
    rw [hitIter_succ_comm]
    refine ⟨?_, ?_, h3, ?_⟩
    · rw [h1]; simp [vlcEncByte, hit]
    · rw [h2, hblen]; omega
    · rw [h4, hs.2]; simp

/-! ### An input on which the run counter comes round to 0 -/

set_option maxRecDepth 100000 in
theorem mtfHead_alloc_mtf : mtfHead alloc_mtf = some 0 := by
  decide

theorem hashUpdate_zero : hashUpdate 0 ((0 : Byte).val : Int) = 0 := by
  decide

theorem vlcEncByte_hit_mk (w : GuessTable) (prev blen : Nat) (rank : Byte) (f : Freq)
    (list : List Byte) (pb : PutBuf) (c : Byte) (hit : w prev = c) :
    vlcEncByte ⟨w, prev, blen, rank, f, list, pb⟩ c
      = ⟨w, hashUpdate prev c.val, (blen + 1) % 4294967296,
          hitCursor (incFreq f c) rank c, incFreq f c,
          if mtfHead list ≠ some (hitCursor (incFreq f c) rank c)
            then (mtf list (hitCursor (incFreq f c) rank c)).2 else list, pb⟩ := by
  simp only [vlcEncByte, hit, if_true]

theorem zeroRunState_step (n : Nat) : vlcEncByte (zeroRunState n) 0 = zeroRunState (n + 1) := by
  have hf : incFreq (fun x : Byte => if x = 0 then n else 0) 0
      = fun x : Byte => if x = 0 then n + 1 else 0 := by
    funext x
    by_cases hx : x = 0 <;> simp [incFreq, hx]
  have hw : zeroTable 0 = (0 : Byte) := rfl
  have hc : ∀ g : Freq, hitCursor g 0 0 = 0 := by
    intro g
    simp only [hitCursor, ite_self]
  unfold zeroRunState
  rw [vlcEncByte_hit_mk _ _ _ _ _ _ _ _ hw, hf, hc, mtfHead_alloc_mtf, if_neg (fun h => h rfl),
    hashUpdate_zero, Nat.mod_add_mod]

theorem zeroRunState_zero :
    zeroRunState 0 = vlcEncInit zeroTable zeroFreq alloc_mtf init_put_buffer := by
  have hf : (fun x : Byte => if x = 0 then 0 else 0) = zeroFreq := by
    funext x
    simp only [ite_self]
    rfl
  unfold zeroRunState vlcEncInit
  rw [hf, Nat.zero_mod]

theorem zeroRun_foldl (n : Nat) : ∀ m : Nat,
    (List.replicate n (0 : Byte)).foldl vlcEncByte (zeroRunState m) = zeroRunState (m + n) := by
  induction n with
  | zero => intro m; rfl
  | succ n ih =>
    intro m
    rw [List.replicate_succ, List.foldl_cons, zeroRunState_step, ih]
    congr 1
    omega

theorem vlcEncAfter_zeroRun (n : Nat) :
    vlcEncAfter (List.replicate n 0) = zeroRunState n := by
  unfold vlcEncAfter
  rw [← zeroRunState_zero, zeroRun_foldl, Nat.zero_add]

theorem allHits_zeroRun (n : Nat) : ∀ m : Nat,
    AllHits (zeroRunState m) (List.replicate n 0) := by
  induction n with
  | zero => intro m; trivial
  | succ n ih =>
    intro m
    rw [List.replicate_succ]
    refine ⟨?_, ?_⟩
    · unfold zeroRunState
      rfl
    rw [zeroRunState_step]
    exact ih _

/-- After 2^32 zero bytes the run counter is 0 again and nothing has been
written: `compress_VLC` ends as on the empty input. -/
theorem compress_VLC_zeroRun :
    (compress_VLC zeroTable zeroFreq alloc_mtf init_put_buffer
      (List.replicate 4294967296 0)).pb
      = (compress_VLC zeroTable zeroFreq alloc_mtf init_put_buffer []).pb := by
  have h := vlcEncAfter_zeroRun 4294967296
  unfold vlcEncAfter at h
  simp only [compress_VLC, vlcEncLoop_eq_foldl _ _ _ (le_refl _), h, List.foldl_nil]
  simp only [zeroRunState, Nat.mod_self, vlcEncInit]

theorem vlcBody_zeroRun : vlcBody (List.replicate 4294967296 0) = vlcBody [] := by
  unfold vlcBody
  rw [compress_VLC_zeroRun]

set_option maxRecDepth 100000 in
theorem vlcBody_nil : vlcBody [] = [0xFE, 0xFF, 0xFF, 0xFF, 0x01] := by
  decide

/-- C2, counterexample: the input of 2^32 zero bytes.  Every byte is predicted
correctly, the run counter `blen` comes round to 0, and `compress_VLC` writes
what it writes for the empty input, the five bytes `FE FF FF FF 01`; on them
`decompress_VLC` returns with no byte output, not with the input. -/
theorem C2_counterexample :
    (List.replicate 4294967296 (0 : Byte)).length = 4294967296
    ∧ flush_put_buffer (compress_VLC zeroTable zeroFreq alloc_mtf init_put_buffer
        (List.replicate 4294967296 0)).pb = [0xFE, 0xFF, 0xFF, 0xFF, 0x01]
    ∧ ∀ (pad : Bool) (k : Nat), ∃ dF, decompress_VLC (40 + k)
          zeroTable zeroFreq alloc_mtf init_put_buffer
          (init_get_buffer
            (flush_put_buffer (compress_VLC zeroTable zeroFreq alloc_mtf init_put_buffer
              (List.replicate 4294967296 0)).pb) pad)
        = VlcOutcome.returned dF ∧ flush_put_buffer dF.pb = [] := by
  have hbody : flush_put_buffer (compress_VLC zeroTable zeroFreq alloc_mtf init_put_buffer
      (List.replicate 4294967296 0)).pb = [0xFE, 0xFF, 0xFF, 0xFF, 0x01] := by
    have h := vlcBody_zeroRun
    rw [vlcBody_nil] at h
    exact h
  refine ⟨List.length_replicate _ _, hbody, ?_⟩
  intro pad k
  obtain ⟨dF, z, h1, h2, h3, _⟩ := vlc_decode_body [] pad k (by simp)
  rw [vlcBody_nil] at h1
  rw [hbody]
  refine ⟨dF, h1, ?_⟩
  simp [flush_put_buffer, h3, h2]

/-- C2, as amended (VLC round trip): for every byte sequence `S` shorter than
2^31 bytes, `decompress_VLC` started from the all-zero table, the fresh MTF
list and zero counters, run on the bytes that `compress_VLC` and the closing
flush produced for `S` from the same start, returns (for every amount of fuel
from 8 per body byte on, and whatever a read past the end would yield) and its
flushed output is exactly `S`. -/
theorem C2_vlc_round_trip (S : List Byte) (pad : Bool) (k : Nat)
    (hS : S.length < 2147483648) :
    ∃ dF, decompress_VLC
        (8 * (flush_put_buffer
          (compress_VLC zeroTable zeroFreq alloc_mtf init_put_buffer S).pb).length + k)
        zeroTable zeroFreq alloc_mtf init_put_buffer
        (init_get_buffer
          (flush_put_buffer (compress_VLC zeroTable zeroFreq alloc_mtf init_put_buffer S).pb)
          pad)
      = VlcOutcome.returned dF ∧ flush_put_buffer dF.pb = S := by
  obtain ⟨dF, z, h1, h2, h3, _⟩ := vlc_decode_body S pad k hS
  refine ⟨dF, h1, ?_⟩
  simp [flush_put_buffer, h3, h2]

/-- Witness of C2 as amended: the input `41 41 42`. -/
theorem C2_vlc_round_trip_witness :
    ([0x41, 0x41, 0x42] : List Byte).length < 2147483648
    ∧ ∃ dF, decompress_VLC
        (8 * (flush_put_buffer
          (compress_VLC zeroTable zeroFreq alloc_mtf init_put_buffer [0x41, 0x41, 0x42]).pb).length
          + 0)
        zeroTable zeroFreq alloc_mtf init_put_buffer
        (init_get_buffer
          (flush_put_buffer
            (compress_VLC zeroTable zeroFreq alloc_mtf init_put_buffer [0x41, 0x41, 0x42]).pb)
          false)
      = VlcOutcome.returned dF ∧ flush_put_buffer dF.pb = [0x41, 0x41, 0x42] :=
  ⟨by decide, C2_vlc_round_trip [0x41, 0x41, 0x42] false 0 (by decide)⟩

/-- C4, counterexample: on the body `compress_VLC` writes for the input of 2^32
zero bytes, `decompress_VLC` returns at the first code it reads, having
consumed the 37 bits written and output no byte at all, not the 2^32 bytes of
the input. -/
theorem C4_counterexample :
    (List.replicate 4294967296 (0 : Byte)).length = 4294967296
    ∧ ∃ dF, decompress_VLC 40 zeroTable zeroFreq alloc_mtf init_put_buffer
          (init_get_buffer (vlcBody (List.replicate 4294967296 0)) false)
        = VlcOutcome.returned dF
      ∧ dF.pb.out.length = 0
      ∧ 8 * (vlcBody (List.replicate 4294967296 0)).length - dF.gb.bits.length = 37 := by
  refine ⟨List.length_replicate _ _, ?_⟩
  obtain ⟨dF, z, h1, h2, _, h4, h5, _⟩ := vlc_decode_body [] false 0 (by simp)
  rw [vlcBody_zeroRun, vlcBody_nil]
  rw [vlcBody_nil] at h1 h5
  refine ⟨dF, h1, by rw [h2]; rfl, ?_⟩
  have h6 := (compress_VLC_pb []).2
  have h7 : (vlcEncBits (vlcEncInit zeroTable zeroFreq alloc_mtf init_put_buffer) []).length
      = 37 := by
    simp only [vlcEncBits, vlcEncInit, List.length_append, flushBits_length, golombBits_length]
    decide
  have := congrArg List.length h5
  rw [bitsOfBytes_length, List.length_append, h6, h7] at this
  rw [h4]
  simp only [List.length_cons, List.length_nil] at this ⊢
  omega

/-- C4, as amended (sentinel uniqueness): in `compress_VLC` a byte `c` that
follows the bytes `P` is handled from the state reached after `P`, and the rank
code emitted for it there (when it is a miss) is below 256; the bits written
for `S` end with the field-width-3 code of 256; and for `S` shorter than 2^31
bytes `decompress_VLC` on the body of `S` returns with output `S` having
consumed exactly as many bits as were written, that is at that final code. -/
theorem C4_sentinel_unique (S P T : List Byte) (c : Byte) (pad : Bool) (k : Nat) :
    vlcEncLoop (P ++ c :: T).length (vlcEncInit zeroTable zeroFreq alloc_mtf init_put_buffer)
        (P ++ c :: T) = T.foldl vlcEncByte (vlcEncByte (vlcEncAfter P) c)
    ∧ (mtf (vlcEncAfter P).list c).1 < EOF_VLC
    ∧ (∃ front, (compress_VLC zeroTable zeroFreq alloc_mtf init_put_buffer S).pb.bits
          = front ++ golombBits EOF_VLC BSIZE)
    ∧ (S.length < 2147483648 →
        ∃ dF, decompress_VLC (8 * (vlcBody S).length + k) zeroTable zeroFreq alloc_mtf
          init_put_buffer (init_get_buffer (vlcBody S) pad) = VlcOutcome.returned dF
        ∧ dF.pb.out = S ∧ dF.pb.out.length = S.length
        ∧ 8 * (vlcBody S).length - dF.gb.bits.length
            = (compress_VLC zeroTable zeroFreq alloc_mtf init_put_buffer S).pb.bits.length) := by
  refine ⟨?_, ?_, ?_, ?_⟩
  · rw [vlcEncLoop_eq_foldl _ _ _ (le_refl _), List.foldl_append, List.foldl_cons]
    rfl
  · exact mtf_rank_lt _ _ (foldl_list_ok P _ (by simp only [vlcEncInit]; exact alloc_mtf_ok))
  · have h1 := flushRun_spec (vlcEncAfter S).blen (vlcEncAfter S).pb (by
      have hok : ∀ (T : List Byte) (e : VlcEnc), e.pb.ok → (T.foldl vlcEncByte e).pb.ok := by
        intro T
        induction T with
        | nil => intro e h; exact h
        | cons c T ih => intro e h; exact ih _ (vlcEncByte_pb_ok e c h)
      exact hok S _ init_put_buffer_ok)
    have h2 := put_golomb_spec EOF_VLC BSIZE _ h1.1
    refine ⟨(flushRun (vlcEncAfter S).blen (vlcEncAfter S).pb).bits, ?_⟩
    simp only [compress_VLC, vlcEncLoop_eq_foldl S.length _ S (le_refl _)]
    exact h2.2
  · intro hS
    obtain ⟨dF, z, h1, h2, _, h4, h5, _⟩ := vlc_decode_body S pad k hS
    refine ⟨dF, h1, h2, by rw [h2], ?_⟩
    have := congrArg List.length h5
    rw [bitsOfBytes_length, List.length_append] at this
    rw [h4]
    omega

/-- Witness of C4 as amended: the input `41 41 42`, whose three bytes are
output before the decoder returns. -/
theorem C4_sentinel_unique_witness :
    ([0x41, 0x41, 0x42] : List Byte).length < 2147483648
    ∧ ∃ dF, decompress_VLC (8 * (vlcBody [0x41, 0x41, 0x42]).length + 0) zeroTable zeroFreq
          alloc_mtf init_put_buffer (init_get_buffer (vlcBody [0x41, 0x41, 0x42]) false)
          = VlcOutcome.returned dF
        ∧ dF.pb.out = [0x41, 0x41, 0x42]
        ∧ dF.pb.out.length = ([0x41, 0x41, 0x42] : List Byte).length
        ∧ 8 * (vlcBody [0x41, 0x41, 0x42]).length - dF.gb.bits.length
            = (compress_VLC zeroTable zeroFreq alloc_mtf init_put_buffer
                [0x41, 0x41, 0x42]).pb.bits.length :=
  ⟨by decide,
    (C4_sentinel_unique [0x41, 0x41, 0x42] [] [] 0 false 0).2.2.2 (by decide)⟩

set_option maxRecDepth 100000 in
/-- C5, counterexample: the run of `N = 2^32` zero bytes from the start state.
All of them are predicted correctly, yet the run counter is 0 after them and
the flush writes the single bit 0, not the bit 1 followed by the code of
`N - 1`; step 1 of `decompress_VLC` on that event (here followed by the closing
code, the stream `FE FF FF FF 01`) outputs no byte. -/
theorem C5_counterexample :
    (List.replicate 4294967296 (0 : Byte)).length = 4294967296
    ∧ AllHits (vlcEncInit zeroTable zeroFreq alloc_mtf init_put_buffer)
        (List.replicate 4294967296 0)
    ∧ ((List.replicate 4294967296 0).foldl vlcEncByte
        (vlcEncInit zeroTable zeroFreq alloc_mtf init_put_buffer)).blen = 0
    ∧ (flushRun
        ((List.replicate 4294967296 0).foldl vlcEncByte
          (vlcEncInit zeroTable zeroFreq alloc_mtf init_put_buffer)).blen
        ((List.replicate 4294967296 0).foldl vlcEncByte
          (vlcEncInit zeroTable zeroFreq alloc_mtf init_put_buffer)).pb).bits = [false]
    ∧ ∃ d1, vlcDecStep1 0 (vlcDecInit zeroTable zeroFreq alloc_mtf init_put_buffer
          (init_get_buffer [0xFE, 0xFF, 0xFF, 0xFF, 0x01] false)) = some d1
        ∧ d1.pb.out = [] := by
  have h := vlcEncAfter_zeroRun 4294967296
  unfold vlcEncAfter at h
  refine ⟨List.length_replicate _ _, ?_, ?_, ?_, ?_⟩
  · rw [← zeroRunState_zero]
    exact allHits_zeroRun _ _
  · rw [h]
    simp only [zeroRunState, Nat.mod_self]
  · rw [h]
    simp only [zeroRunState, Nat.mod_self, flushRun, ne_eq, not_true_eq_false, if_false]
    decide
  · obtain ⟨g, _, _, _, hg⟩ := vlcDecStep1_spec 0 0
      (vlcDecInit zeroTable zeroFreq alloc_mtf init_put_buffer
        (init_get_buffer [0xFE, 0xFF, 0xFF, 0xFF, 0x01] false))
      (golombBits EOF_VLC BSIZE ++ [false, false, false])
      (by simp only [vlcDecInit, init_get_buffer]; decide)
      (by simp only [vlcDecInit, init_get_buffer]; decide) (le_refl _)
    refine ⟨_, hg, ?_⟩
    rw [runDecoded_eq 0 (by omega)]
    simp only [hitIter, vlcDecInit, init_put_buffer]

/-- C5, as amended (run correctness): from an encoder state with no run
pending, a run `R` of `N < 2^31` correctly predicted bytes writes nothing and
leaves `blen = N`; the flush then writes one event, the bit 0 when `N = 0` and
otherwise the bit 1 followed by the raw Golomb code (`k = 0`) of `N - 1`; a
miss that ends the run writes that flush directly before its rank code; and
step 1 of `decompress_VLC` on that event outputs exactly the `N` bytes of the
run and consumes the event. -/
theorem C5_run_flush (e : VlcEnc) (d : VlcDec) (R : List Byte) (rest : List Bool)
    (fuel : Nat) (hN : R.length < 2147483648) (hpb : e.pb.ok) (h0 : e.blen = 0)
    (hR : AllHits e R) (ha : Agree e d)
    (hk : d.gb.g_cnt < 8) (hb : d.gb.bits = flushBits R.length ++ rest)
    (hf : R.length ≤ fuel) :
    (R.foldl vlcEncByte e).pb = e.pb
    ∧ (R.foldl vlcEncByte e).blen = R.length
    ∧ (flushRun (R.foldl vlcEncByte e).blen (R.foldl vlcEncByte e).pb).bits
        = e.pb.bits ++
          (if R.length = 0 then [false] else true :: golombBits (R.length - 1) 0)
    ∧ (∀ c : Byte, (R.foldl vlcEncByte e).w (R.foldl vlcEncByte e).prev ≠ c →
        (vlcEncByte (R.foldl vlcEncByte e) c).pb
          = put_golomb (mtf (R.foldl vlcEncByte e).list c).1 BSIZE
              (flushRun R.length (R.foldl vlcEncByte e).pb))
    ∧ ∃ d1, vlcDecStep1 fuel d = some d1 ∧ d1.pb.out = d.pb.out ++ R
        ∧ d1.pb.out.length = d.pb.out.length + R.length
        ∧ d1.gb.bits = rest ∧ Agree (R.foldl vlcEncByte e) d1 := by
  obtain ⟨h1, h2, h3, h4⟩ := allHits_run R e d (by omega) hR ha
  rw [h0, Nat.zero_add] at h2
  refine ⟨h1, h2, ?_, ?_, ?_⟩
  · rw [h2, h1, (flushRun_spec R.length e.pb hpb).2]
    congr 1
    unfold flushBits
    by_cases hN : R.length = 0 <;> simp [hN]
  · intro c hc
    simp [vlcEncByte, hc, h2]
  · obtain ⟨g, hg1, _, _, hg4⟩ := vlcDecStep1_spec fuel R.length d rest hk hb hf
    rw [runDecoded_eq R.length (by omega)] at hg4
    refine ⟨_, hg4, h4, by simp [h4], hg1, ?_⟩
    simpa [Agree] using h3

set_option maxRecDepth 100000 in
/-- Witness of C5: the run `0,0,0` from the start state, flushed as the bits
`1,1,1,0`. -/
theorem C5_run_flush_witness :
    ∃ d1, vlcDecStep1 3 (vlcDecInit zeroTable zeroFreq alloc_mtf init_put_buffer
        (init_get_buffer [7] false)) = some d1
      ∧ d1.pb.out = [0, 0, 0] := by
  obtain ⟨_, _, _, _, d1, h1, h2, _⟩ := C5_run_flush
    (vlcEncInit zeroTable zeroFreq alloc_mtf init_put_buffer)
    (vlcDecInit zeroTable zeroFreq alloc_mtf init_put_buffer (init_get_buffer [7] false))
    [0, 0, 0] [false, false, false, false] 3
    (by decide)
    (by simp only [vlcEncInit]; exact init_put_buffer_ok)
    (by simp only [vlcEncInit])
    (by simp only [AllHits, vlcEncInit, vlcEncByte]; decide)
    (by simp only [vlcEncInit, Agree, vlcDecInit, and_self])
    (by simp only [vlcDecInit, init_get_buffer]; decide)
    (by simp only [vlcDecInit, init_get_buffer]; decide)
    (by decide)
  exact ⟨d1, h1, by rw [h2]; simp only [vlcDecInit, init_put_buffer]; rfl⟩

set_option maxRecDepth 100000 in
/-- C6 (empty input, VLC mode): on the empty input `compress_VLC` writes the
single bit 0 and then the field-width-3 Golomb code of 256, nothing else: with
the closing flush the body is the five bytes `FE FF FF FF 01`. -/
theorem C6_vlc_empty (w : GuessTable) (f : Freq) (list : List Byte) :
    (compress_VLC w f list init_put_buffer []).pb
        = put_golomb EOF_VLC BSIZE (put_ZERO init_put_buffer)
    ∧ (compress_VLC w f list init_put_buffer []).pb.bits
        = false :: golombBits EOF_VLC BSIZE
    ∧ golombBits EOF_VLC BSIZE = List.replicate 32 true ++ [false, false, false, false]
    ∧ flush_put_buffer (compress_VLC w f list init_put_buffer []).pb
        = [0xFE, 0xFF, 0xFF, 0xFF, 0x01] := by
  have h1 : (compress_VLC w f list init_put_buffer []).pb
      = put_golomb EOF_VLC BSIZE (put_ZERO init_put_buffer) := by
    simp [compress_VLC, vlcEncLoop, vlcEncInit, flushRun]
  refine ⟨h1, ?_, by decide, ?_⟩
  · rw [h1]
    decide
  · rw [h1]
    decide

set_option maxRecDepth 100000 in
/-- C9, counterexample: on the stream `FE FF FF FF 05` (the bit 0, then the
field-width-3 code of 257) `decompress_VLC` does not stop before the lookup:
the run ends inside the call `get_mtf_c(257)`. -/
theorem C9_counterexample :
    (decompress_VLC 40 zeroTable zeroFreq alloc_mtf init_put_buffer
      (init_get_buffer [0xFE, 0xFF, 0xFF, 0xFF, 0x05] false)).lookupFault = some 257 := by
  decide

/-- C9, as amended: in a pass of `decompress_VLC` the value `v` read in step 2
is compared with 256 only.  Every other value is passed to `get_mtf_c(v)`
unchecked: below 256 the symbol at that rank is decoded and the loop goes on;
above 256 the run ends inside that call, at a rank where the 256-entry list
holds no symbol.  (The pass starts on the run flush written for any `n`; step 1
makes `runDecoded n` passes of the inner loop on it, which is `n` below
2^32.) -/
theorem C9_rank_unchecked (fuel n v : Nat) (d : VlcDec) (r : List Bool)
    (hk : d.gb.g_cnt < 8)
    (hb : d.gb.bits = flushBits n ++ (golombBits v BSIZE ++ r))
    (hn : n ≤ fuel) (hv : v >>> BSIZE < fuel)
    (hl : ListOK (hitIter (runDecoded n) d).list) :
    (v = EOF_VLC → ∃ st, vlcDecLoop (fuel + 1) d = VlcOutcome.returned st)
    ∧ (v < EOF_VLC → ∃ sym list1 g,
        get_mtf_c (hitIter (runDecoded n) d).list v = some (sym, list1)
        ∧ vlcDecLoop (fuel + 1) d
          = vlcDecLoop fuel (vlcDecMiss { hitIter (runDecoded n) d with gb := g } sym list1))
    ∧ (EOF_VLC < v → get_mtf_c (hitIter (runDecoded n) d).list v = none
        ∧ (vlcDecLoop (fuel + 1) d).lookupFault = some v) := by
  obtain ⟨g, _, _, _, hstep⟩ := vlcDecLoop_step fuel n v d r hk hb hn hv
  generalize runDecoded n = m at hl hstep
  refine ⟨?_, ?_, ?_⟩
  · intro h
    rw [if_pos h] at hstep
    exact ⟨_, hstep⟩
  · intro h
    rw [if_neg (by omega)] at hstep
    have hlt : v < (hitIter m d).list.length := by rw [hl.2]; exact h
    have hget : (hitIter m d).list.get? v = some ((hitIter m d).list.get ⟨v, hlt⟩) :=
      List.get?_eq_get hlt
    have hm : get_mtf_c (hitIter m d).list v
        = some ((hitIter m d).list.get ⟨v, hlt⟩,
            moveToFront (hitIter m d).list ((hitIter m d).list.get ⟨v, hlt⟩)) := by
      simp only [get_mtf_c, hget]
    refine ⟨_, _, g, hm, ?_⟩
    rw [hstep, hm]
  · intro h
    rw [if_neg (by omega)] at hstep
    have hnone : (hitIter m d).list.get? v = none := by
      apply List.get?_eq_none.mpr
      rw [hl.2]
      simp only [EOF_VLC] at h
      omega
    have hm : get_mtf_c (hitIter m d).list v = none := by
      simp only [get_mtf_c, hnone]
    refine ⟨hm, ?_⟩
    rw [hstep, hm]
    rfl

set_option maxRecDepth 100000 in
/-- Witness of C9 as amended: the value 257 after an empty run flush. -/
theorem C9_rank_unchecked_witness :
    (vlcDecLoop 40 (vlcDecInit zeroTable zeroFreq alloc_mtf init_put_buffer
      (init_get_buffer [0xFE, 0xFF, 0xFF, 0xFF, 0x05] false))).lookupFault = some 257 :=
  ((C9_rank_unchecked 39 0 257
    (vlcDecInit zeroTable zeroFreq alloc_mtf init_put_buffer
      (init_get_buffer [0xFE, 0xFF, 0xFF, 0xFF, 0x05] false))
    [false, false, false]
    (by simp only [vlcDecInit, init_get_buffer]; decide)
    (by simp only [vlcDecInit, init_get_buffer]; decide)
    (by decide) (by decide)
    (by simp only [runDecoded, if_true, hitIter, vlcDecInit]; exact alloc_mtf_ok)).2.2
    (by decide)).2

/-! ### The PPP codec -/

theorem bitsOfBytes_drop (D : List Byte) (j : Nat) :
    bitsOfBytes (D.drop j) = (bitsOfBytes D).drop (8 * j) := by
  induction j generalizing D with
  | zero => simp
  | succ j ih =>
    cases D with
    | nil => simp [bitsOfBytes]
    | cons x xs =>
      simp only [List.drop_succ_cons, bitsOfBytes]
      rw [ih xs, show 8 * (j + 1) = 8 + 8 * j by omega, ← List.drop_drop,
        List.drop_append_of_le_length (by rw [byteBits_length])]
      simp [List.drop_of_length_le, byteBits_length]

theorem atPos_bits (D : List Byte) (pad : Bool) (m : Nat) :
    (atPos D pad m).bits = (bitsOfBytes D).drop m := by
  simp only [atPos, GetBuf.bits, bitsOfBytes_drop, List.drop_drop]
  congr 1
  omega

theorem atPos_zero (D : List Byte) (pad : Bool) : atPos D pad 0 = ⟨D, 0, pad⟩ := by
  simp [atPos]

theorem get_bit_atPos (D : List Byte) (pad : Bool) (m : Nat) (h : m < 8 * D.length) :
    (get_bit (atPos D pad m)).2 = atPos D pad (m + 1) := by
  have hlt : m / 8 < D.length := by omega
  simp only [atPos, get_bit]
  rw [List.drop_eq_getElem_cons hlt]
  simp only [advance_gbuf]
  split
  · rename_i h8
    have h1 : (m + 1) / 8 = m / 8 + 1 := by omega
    have h2 : (m + 1) % 8 = 0 := by omega
    simp [h1, h2]
  · rename_i h8
    have h1 : (m + 1) / 8 = m / 8 := by omega
    have h2 : (m + 1) % 8 = m % 8 + 1 := by omega
    rw [h1, h2, List.drop_eq_getElem_cons hlt]

theorem readFlags_atPos (D : List Byte) (pad : Bool) (n : Nat) : ∀ m, m + n ≤ 8 * D.length →
    (readFlags n (atPos D pad m)).2 = atPos D pad (m + n) := by
  induction n with
  | zero => intro m _; rfl
  | succ n ih =>
    intro m h
    simp only [readFlags]
    rw [get_bit_atPos D pad m (by omega), ih (m + 1) (by omega)]
    congr 1
    omega

theorem readFlags_bits (fl : List Bool) : ∀ (g : GetBuf) (r : List Bool), g.g_cnt < 8 →
    g.bits = fl ++ r → (readFlags fl.length g).1 = fl := by
  induction fl with
  | nil => intro g r _ _; rfl
  | cons b fl ih =>
    intro g r hk hb
    have h1 := get_bit_spec g b (fl ++ r) hk (by simpa using hb)
    simp only [List.length_cons, readFlags]
    rw [h1.1, ih _ r h1.2.2.1 h1.2.1]

theorem alignGet_atPos (D : List Byte) (pad : Bool) (m : Nat) :
    alignGet (atPos D pad m) = atPos D pad (8 * ((m + 7) / 8)) := by
  simp only [alignGet, atPos]
  split
  · rename_i h
    simp only [advance_gbuf, List.tail_drop]
    have h1 : 8 * ((m + 7) / 8) / 8 = m / 8 + 1 := by omega
    have h2 : 8 * ((m + 7) / 8) % 8 = 0 := by omega
    simp [h1, h2]
  · rename_i h
    have h1 : 8 * ((m + 7) / 8) / 8 = m / 8 := by omega
    have h2 : 8 * ((m + 7) / 8) % 8 = m % 8 := by omega
    rw [h1, h2]

/-! ### The output buffer on byte boundaries -/

theorem put_bit_out (b : Bool) (p : PutBuf) : ∃ X, (put_bit b p).out = p.out ++ X := by
  cases b <;> simp only [put_bit, put_ONE, put_ZERO, advance_buf, if_true, Bool.false_eq_true,
    if_false] <;> split
  · exact ⟨_, rfl⟩
  · exact ⟨[], by simp⟩
  · exact ⟨_, rfl⟩
  · exact ⟨[], by simp⟩

theorem writeBytes_eq (cs : List Byte) (p : PutBuf) :
    writeBytes cs p = { p with out := p.out ++ cs } := by
  induction cs generalizing p with
  | nil => simp [writeBytes]
  | cons c cs ih =>
    have := ih (pfputc c.val p)
    simp only [writeBytes, List.foldl_cons] at this ⊢
    rw [this]
    simp [pfputc, toByte_val]

theorem alignPut_eq (p : PutBuf) (h : p.ok) : alignPut p = ⟨flush_put_buffer p, 0, 0⟩ := by
  obtain ⟨hk, hc⟩ := h
  simp only [alignPut, flush_put_buffer]
  by_cases h0 : 0 < p.p_cnt
  · simp [h0, hk, advance_buf]
  · have hz : p.p_cnt = 0 := by omega
    rw [hz] at hc
    have hc0 : p.cur = 0 := by simpa using hc
    obtain ⟨o, c, k⟩ := p
    simp only at hz hc0
    subst hz hc0
    simp

theorem lzpFlags_length (chunk : List Byte) : ∀ s, (lzpFlags s chunk).length = chunk.length := by
  induction chunk with
  | nil => intro s; rfl
  | cons c cs ih => intro s; simp [lzpFlags, ih]

theorem lzpEnc_fold (chunk : List Byte) : ∀ (e : LzpEnc), e.pb.ok →
    (chunk.foldl lzpEncByte e).pb.ok
    ∧ (chunk.foldl lzpEncByte e).pb.bits = e.pb.bits ++ lzpFlags (e.w, e.prev) chunk
    ∧ (∃ X, (chunk.foldl lzpEncByte e).pb.out = e.pb.out ++ X)
    ∧ (chunk.foldl lzpEncByte e).cbuf = e.cbuf ++ lzpMisses (e.w, e.prev) chunk
    ∧ ((chunk.foldl lzpEncByte e).w, (chunk.foldl lzpEncByte e).prev)
        = chunk.foldl lzpCoreStep (e.w, e.prev)
    ∧ (chunk.foldl lzpEncByte e).ppp_nblocks = e.ppp_nblocks
    ∧ (chunk.foldl lzpEncByte e).ppp_lastblocksize = e.ppp_lastblocksize := by
  induction chunk with
  | nil => intro e h; exact ⟨h, by simp [lzpFlags], ⟨[], by simp⟩, by simp [lzpMisses], rfl, rfl, rfl⟩
  | cons c cs ih =>
    intro e h
    have hb := put_bit_spec (decide (e.w e.prev = c)) e.pb h
    obtain ⟨X1, hX1⟩ := put_bit_out (decide (e.w e.prev = c)) e.pb
    have hpb : (lzpEncByte e c).pb = put_bit (decide (e.w e.prev = c)) e.pb := by
      by_cases hit : e.w e.prev = c <;> simp [lzpEncByte, hit, put_bit]
    have hcore : ((lzpEncByte e c).w, (lzpEncByte e c).prev) = lzpCoreStep (e.w, e.prev) c := by
      by_cases hit : e.w e.prev = c <;> simp [lzpEncByte, hit, lzpCoreStep]
    have hcb : (lzpEncByte e c).cbuf ++ lzpMisses (lzpCoreStep (e.w, e.prev) c) cs
        = e.cbuf ++ lzpMisses (e.w, e.prev) (c :: cs) := by
      by_cases hit : e.w e.prev = c <;> simp [lzpEncByte, hit, lzpMisses]
    have hnb : (lzpEncByte e c).ppp_nblocks = e.ppp_nblocks
        ∧ (lzpEncByte e c).ppp_lastblocksize = e.ppp_lastblocksize := by
      by_cases hit : e.w e.prev = c <;> simp [lzpEncByte, hit]
    obtain ⟨h1, h2, ⟨X, h3⟩, h4, h5, h6, h7⟩ := ih (lzpEncByte e c) (by rw [hpb]; exact hb.1)
    simp only [List.foldl_cons]
    rw [hcore] at h2 h4 h5
    refine ⟨h1, ?_, ⟨X1 ++ X, ?_⟩, ?_, h5, by rw [h6, hnb.1], by rw [h7, hnb.2]⟩
    · rw [h2, hpb, hb.2]
      simp [lzpFlags]
    · rw [h3, hpb, hX1]
      simp
    · rw [h4, hcb]

/-- The bytes a block leaves in the file before its mismatched bytes: the
flags packed into bytes, the last one filled up. -/
theorem lzpEnc_block_bytes (chunk : List Byte) (e : LzpEnc) (out0 : List Byte)
    (hpb : e.pb = ⟨out0, 0, 0⟩) :
    ∃ B z, alignPut (chunk.foldl lzpEncByte e).pb = ⟨out0 ++ B, 0, 0⟩
      ∧ B.length = (chunk.length + 7) / 8
      ∧ bitsOfBytes B = lzpFlags (e.w, e.prev) chunk ++ z
      ∧ (chunk.length % 8 = 0 → (chunk.foldl lzpEncByte e).pb = ⟨out0 ++ B, 0, 0⟩) := by
  have hok : e.pb.ok := by rw [hpb]; simp [PutBuf.ok]
  obtain ⟨h1, h2, ⟨X, h3⟩, _⟩ := lzpEnc_fold chunk e hok
  obtain ⟨z, hz⟩ := flush_put_buffer_bits _ h1
  have hal := alignPut_eq _ h1
  have hfl : ∃ Y, flush_put_buffer (chunk.foldl lzpEncByte e).pb
      = (chunk.foldl lzpEncByte e).pb.out ++ Y
      ∧ Y.length = if 0 < (chunk.foldl lzpEncByte e).pb.p_cnt then 1 else 0 := by
    unfold flush_put_buffer
    split
    · exact ⟨_, rfl, rfl⟩
    · exact ⟨[], by simp, rfl⟩
  obtain ⟨Y, hY, hYlen⟩ := hfl
  have he0 : e.pb.bits = bitsOfBytes out0 := by rw [hpb]; simp [PutBuf.bits]
  have hout0 : e.pb.out = out0 := by rw [hpb]
  rw [hY, h3, hout0] at hz
  rw [h2, he0, List.append_assoc, bitsOfBytes_append, List.append_assoc] at hz
  have hB : bitsOfBytes (X ++ Y) = lzpFlags (e.w, e.prev) chunk ++ z :=
    List.append_cancel_left hz
  have hlen1 := (chunk.foldl lzpEncByte e).pb.bits_length
  rw [h2, he0, List.length_append, bitsOfBytes_length, lzpFlags_length, h3, hout0,
    List.length_append] at hlen1
  have hlen2 := congrArg List.length hB
  rw [bitsOfBytes_length, List.length_append, List.length_append, lzpFlags_length] at hlen2
  have hk := h1.1
  refine ⟨X ++ Y, z, ?_, ?_, hB, ?_⟩
  · rw [hal, hY, h3, hout0, List.append_assoc]
  · rw [List.length_append]
    split at hYlen <;> omega
  · intro h8
    have hp0 : (chunk.foldl lzpEncByte e).pb.p_cnt = 0 := by omega
    have : alignPut (chunk.foldl lzpEncByte e).pb = (chunk.foldl lzpEncByte e).pb := by
      simp [alignPut, hp0]
    rw [← this, hal, hY, h3, hout0, List.append_assoc]

theorem lzpDec_fold (chunk : List Byte) : ∀ (s : GuessTable × Nat) (d : LzpDec)
    (rest : List Byte), (d.w, d.prev) = s → d.gb.data = lzpMisses s chunk ++ rest →
    ((lzpFlags s chunk).foldl lzpDecByte d).pb = { d.pb with out := d.pb.out ++ chunk }
    ∧ ((lzpFlags s chunk).foldl lzpDecByte d).gb = { d.gb with data := rest }
    ∧ (((lzpFlags s chunk).foldl lzpDecByte d).w, ((lzpFlags s chunk).foldl lzpDecByte d).prev)
        = chunk.foldl lzpCoreStep s := by
  induction chunk with
  | nil =>
    intro s d rest hs hd
    simp only [lzpMisses, List.nil_append] at hd
    simp only [lzpFlags, List.foldl_nil]
    exact ⟨by simp, by rw [← hd], hs⟩
  | cons c cs ih =>
    intro s d rest hs hd
    have hw : d.w d.prev = s.1 s.2 := by rw [← hs]
    simp only [lzpFlags, List.foldl_cons]
    by_cases hit : s.1 s.2 = c
    · simp only [lzpMisses, hit, if_true] at hd
      have hstep : lzpDecByte d (decide (s.1 s.2 = c))
          = { d with pb := pfputc c.val d.pb, prev := hashUpdate d.prev c.val } := by
        simp [lzpDecByte, hit, hw]
      obtain ⟨h1, h2, h3⟩ := ih (lzpCoreStep s c) (lzpDecByte d (decide (s.1 s.2 = c))) rest
        (by rw [hstep, ← hs]; simp [lzpCoreStep, hw, hit]) (by rw [hstep]; exact hd)
      refine ⟨?_, ?_, h3⟩
      · rw [h1, hstep]; simp [pfputc, toByte_val]
      · rw [h2, hstep]
    · simp only [lzpMisses, hit, if_false, List.cons_append] at hd
      have hg : gfgetc d.gb = ((c.val : Int), { d.gb with data := lzpMisses (lzpCoreStep s c) cs ++ rest }) := by
        simp [gfgetc, hd]
      have hstep : lzpDecByte d (decide (s.1 s.2 = c))
          = { d with pb := pfputc c.val d.pb,
                     gb := { d.gb with data := lzpMisses (lzpCoreStep s c) cs ++ rest },
                     w := setSlot d.w d.prev c, prev := hashUpdate d.prev c.val } := by
        simp [lzpDecByte, hit, hg, toByte_val]
      obtain ⟨h1, h2, h3⟩ := ih (lzpCoreStep s c) (lzpDecByte d (decide (s.1 s.2 = c))) rest
        (by rw [hstep, ← hs]; simp [lzpCoreStep, hw, hit]) (by rw [hstep])
      refine ⟨?_, ?_, h3⟩
      · rw [h1, hstep]; simp [pfputc, toByte_val]
      · rw [h2, hstep]

theorem PPP_BLOCKSIZE_eq : PPP_BLOCKSIZE = 32768 := by
  unfold PPP_BLOCKSIZE PPP_BLOCKBITS
  rw [Nat.shiftLeft_eq]

theorem lzpDecFullBlocks_zero (d : LzpDec) : lzpDecFullBlocks 0 d = d := by
  simp only [lzpDecFullBlocks]

theorem lzpDecFullBlocks_step (k : Nat) (d : LzpDec) :
    lzpDecFullBlocks (k + 1) d = lzpDecFullBlock (lzpDecFullBlocks k d) := by
  simp only [lzpDecFullBlocks]

theorem lzpDecFullBlocks_succ (k : Nat) (d : LzpDec) :
    lzpDecFullBlocks (k + 1) d = lzpDecFullBlocks k (lzpDecFullBlock d) := by
  induction k with
  | zero => rw [lzpDecFullBlocks_step, lzpDecFullBlocks_zero, lzpDecFullBlocks_zero]
  | succ k ih => rw [lzpDecFullBlocks_step (k + 1) d, ih, lzpDecFullBlocks_step k]

theorem lzpDecBlocks_nil (d : LzpDec) (rest : List Byte) (pad : Bool)
    (hg : d.gb = ⟨[] ++ rest, 0, pad⟩) :
    (lzpDecBlocks (([] : List Byte).length / PPP_BLOCKSIZE)
        (([] : List Byte).length % PPP_BLOCKSIZE) d).pb
      = { d.pb with out := d.pb.out ++ [] }
    ∧ (lzpDecBlocks (([] : List Byte).length / PPP_BLOCKSIZE)
        (([] : List Byte).length % PPP_BLOCKSIZE) d).gb = ⟨rest, 0, pad⟩ := by
  have h0 : ([] : List Byte).length / PPP_BLOCKSIZE = 0 := Nat.zero_div _
  have h1 : ([] : List Byte).length % PPP_BLOCKSIZE = 0 := Nat.zero_mod _
  rw [h0, h1]
  have h2 : lzpDecBlocks 0 0 d = d := by
    unfold lzpDecBlocks
    rw [if_neg (lt_irrefl 0), lzpDecFullBlocks_zero]
  rw [h2, hg]
  exact ⟨by simp, by simp⟩

theorem lzpEncLoop_nil (fuel : Nat) (e : LzpEnc) : lzpEncLoop fuel e [] = e := by
  cases fuel with
  | zero => rfl
  | succ n => rfl

theorem lzp_core_nil (fuel : Nat) (e : LzpEnc) (out0 : List Byte)
    (hpb : e.pb = ⟨out0, 0, 0⟩) (hlast : e.ppp_lastblocksize = 0) :
    (lzpEncLoop fuel e []).ppp_nblocks
        = e.ppp_nblocks + (((([] : List Byte).length / PPP_BLOCKSIZE : Nat)) : Int)
    ∧ (lzpEncLoop fuel e []).ppp_lastblocksize
        = (((([] : List Byte).length % PPP_BLOCKSIZE : Nat)) : Int)
    ∧ (lzpEncLoop fuel e []).pb = ⟨out0 ++ [], 0, 0⟩ := by
  have h0 : ([] : List Byte).length / PPP_BLOCKSIZE = 0 := Nat.zero_div _
  have h1 : ([] : List Byte).length % PPP_BLOCKSIZE = 0 := Nat.zero_mod _
  rw [h0, h1, lzpEncLoop_nil, hlast, hpb]
  simp

theorem lzpDec_block (chunk : List Byte) (s : GuessTable × Nat) (d : LzpDec)
    (B rest : List Byte) (z : List Bool) (pad : Bool)
    (hs : (d.w, d.prev) = s) (hg : d.gb = ⟨B ++ (lzpMisses s chunk ++ rest), 0, pad⟩)
    (hB : B.length = (chunk.length + 7) / 8)
    (hbits : bitsOfBytes B = lzpFlags s chunk ++ z) :
    (lzpDecLastBlock chunk.length d).pb = { d.pb with out := d.pb.out ++ chunk }
    ∧ (lzpDecLastBlock chunk.length d).gb = ⟨rest, 0, pad⟩
    ∧ ((lzpDecLastBlock chunk.length d).w, (lzpDecLastBlock chunk.length d).prev)
        = chunk.foldl lzpCoreStep s
    ∧ (chunk.length = PPP_BLOCKSIZE → lzpDecFullBlock d = lzpDecLastBlock chunk.length d) := by
  have hpos : d.gb = atPos (B ++ (lzpMisses s chunk ++ rest)) pad 0 := by
    rw [atPos_zero]; exact hg
  have hlen : 0 + chunk.length ≤ 8 * (B ++ (lzpMisses s chunk ++ rest)).length := by
    rw [List.length_append]; omega
  have hstate : (readFlags chunk.length d.gb).2
      = atPos (B ++ (lzpMisses s chunk ++ rest)) pad chunk.length := by
    rw [hpos, readFlags_atPos _ _ _ 0 hlen, Nat.zero_add]
  have hflags : (readFlags chunk.length d.gb).1 = lzpFlags s chunk := by
    have := readFlags_bits (lzpFlags s chunk) d.gb
      (z ++ bitsOfBytes (lzpMisses s chunk ++ rest)) (by rw [hg]; norm_num)
      (by rw [hg]; simp [GetBuf.bits, bitsOfBytes_append, hbits])
    rw [lzpFlags_length] at this
    exact this
  have halign : alignGet (readFlags chunk.length d.gb).2 = ⟨lzpMisses s chunk ++ rest, 0, pad⟩ := by
    rw [hstate, alignGet_atPos]
    simp only [atPos]
    have h1 : 8 * ((chunk.length + 7) / 8) / 8 = B.length := by omega
    have h2 : 8 * ((chunk.length + 7) / 8) % 8 = 0 := by omega
    rw [h1, h2, List.drop_left]
  have hfold := lzpDec_fold chunk s
    { d with gb := ⟨lzpMisses s chunk ++ rest, 0, pad⟩ } rest hs rfl
  have hlast : lzpDecLastBlock chunk.length d
      = (lzpFlags s chunk).foldl lzpDecByte
          { d with gb := ⟨lzpMisses s chunk ++ rest, 0, pad⟩ } := by
    simp only [lzpDecLastBlock, hflags, halign]
  rw [hlast]
  refine ⟨hfold.1, hfold.2.1, hfold.2.2, ?_⟩
  intro hfull
  have hal : alignGet (readFlags chunk.length d.gb).2 = (readFlags chunk.length d.gb).2 := by
    rw [hstate, alignGet_atPos]
    have : 8 * ((chunk.length + 7) / 8) = chunk.length := by
      rw [hfull, PPP_BLOCKSIZE_eq]
    rw [this]
  simp only [lzpDecFullBlock, ← hfull, hflags]
  rw [← hal, halign]

theorem lzp_core (fuel : Nat) : ∀ (inp : List Byte) (e : LzpEnc) (out0 : List Byte),
    inp.length ≤ fuel → e.pb = ⟨out0, 0, 0⟩ → e.cbuf = [] → e.ppp_lastblocksize = 0 →
    (lzpEncLoop fuel e inp).ppp_nblocks = e.ppp_nblocks + ((inp.length / PPP_BLOCKSIZE : Nat) : Int)
    ∧ (lzpEncLoop fuel e inp).ppp_lastblocksize = ((inp.length % PPP_BLOCKSIZE : Nat) : Int)
    ∧ ∃ body, (lzpEncLoop fuel e inp).pb = ⟨out0 ++ body, 0, 0⟩
      ∧ ∀ (d : LzpDec) (rest : List Byte) (pad : Bool), d.w = e.w → d.prev = e.prev →
          d.gb = ⟨body ++ rest, 0, pad⟩ →
          (lzpDecBlocks (inp.length / PPP_BLOCKSIZE) (inp.length % PPP_BLOCKSIZE) d).pb
              = { d.pb with out := d.pb.out ++ inp }
          ∧ (lzpDecBlocks (inp.length / PPP_BLOCKSIZE) (inp.length % PPP_BLOCKSIZE) d).gb
              = ⟨rest, 0, pad⟩ := by
  have hBS := PPP_BLOCKSIZE_eq
  induction fuel with
  | zero =>
    intro inp e out0 hlen hpb _ hlast
    have : inp = [] := List.length_eq_zero.mp (by omega)
    subst this
    obtain ⟨n1, n2, n3⟩ := lzp_core_nil 0 e out0 hpb hlast
    refine ⟨n1, n2, [], n3, ?_⟩
    intro d rest pad _ _ hg
    exact lzpDecBlocks_nil d rest pad hg
  | succ fuel ih =>
    intro inp e out0 hlen hpb hcb hlast
    by_cases hnil : inp = []
    · subst hnil
      obtain ⟨n1, n2, n3⟩ := lzp_core_nil (fuel + 1) e out0 hpb hlast
      refine ⟨n1, n2, [], n3, ?_⟩
      intro d rest pad _ _ hg
      exact lzpDecBlocks_nil d rest pad hg
    · have hpos : 0 < inp.length := List.length_pos.mpr hnil
      have htake : (inp.take PPP_BLOCKSIZE).length = min PPP_BLOCKSIZE inp.length :=
        List.length_take _ _
      have hne : ¬ (inp.take PPP_BLOCKSIZE).length = 0 := by rw [htake, hBS]; omega
      obtain ⟨B, z, hal, hBlen, hBbits, hfullpb⟩ :=
        lzpEnc_block_bytes (inp.take PPP_BLOCKSIZE) e out0 hpb
      obtain ⟨_, _, _, hcbuf, hcore, hnb, hlb⟩ :=
        lzpEnc_fold (inp.take PPP_BLOCKSIZE) e (by rw [hpb]; simp [PutBuf.ok])
      rw [hcb, List.nil_append] at hcbuf
      simp only [lzpEncLoop, hne, if_false]
      by_cases hfull : (inp.take PPP_BLOCKSIZE).length = PPP_BLOCKSIZE
      · -- a full block
        have hge : PPP_BLOCKSIZE ≤ inp.length := by rw [htake] at hfull; omega
        have hblk : lzpEncBlock e (inp.take PPP_BLOCKSIZE)
            = { (inp.take PPP_BLOCKSIZE).foldl lzpEncByte e with
                pb := ⟨out0 ++ B ++ lzpMisses (e.w, e.prev) (inp.take PPP_BLOCKSIZE), 0, 0⟩,
                cbuf := [],
                ppp_nblocks := e.ppp_nblocks + 1 } := by
          simp only [lzpEncBlock, hfull, if_true, writeBytes_eq, hcbuf, hnb]
          rw [hfullpb (by rw [hfull, hBS])]
        obtain ⟨h1, h2, body, h3, h4⟩ := ih (inp.drop PPP_BLOCKSIZE)
          (lzpEncBlock e (inp.take PPP_BLOCKSIZE))
          (out0 ++ B ++ lzpMisses (e.w, e.prev) (inp.take PPP_BLOCKSIZE))
          (by rw [List.length_drop]; omega) (by rw [hblk]) (by rw [hblk])
          (by rw [hblk]; exact hlb.trans hlast)
        have hdiv : inp.length / PPP_BLOCKSIZE
            = (inp.drop PPP_BLOCKSIZE).length / PPP_BLOCKSIZE + 1 := by
          rw [List.length_drop, hBS]; omega
        have hmod : inp.length % PPP_BLOCKSIZE
            = (inp.drop PPP_BLOCKSIZE).length % PPP_BLOCKSIZE := by
          rw [List.length_drop, hBS]; omega
        refine ⟨?_, ?_, B ++ lzpMisses (e.w, e.prev) (inp.take PPP_BLOCKSIZE) ++ body, ?_, ?_⟩
        · rw [h1, hdiv, hblk]; push_cast; ring
        · rw [h2, hmod]
        · rw [h3]; simp
        · intro d rest pad hw hp hg
          obtain ⟨b1, b2, b3, b4⟩ := lzpDec_block (inp.take PPP_BLOCKSIZE) (e.w, e.prev) d B
            (body ++ rest) z pad (by rw [hw, hp]) (by rw [hg]; simp) hBlen hBbits
          have hfb : lzpDecFullBlock d = lzpDecLastBlock (inp.take PPP_BLOCKSIZE).length d :=
            b4 hfull
          have hcore2 : (lzpDecFullBlock d).w = (lzpEncBlock e (inp.take PPP_BLOCKSIZE)).w
              ∧ (lzpDecFullBlock d).prev = (lzpEncBlock e (inp.take PPP_BLOCKSIZE)).prev := by
            rw [hfb, hblk]
            have := b3.trans hcore.symm
            simp only [Prod.mk.injEq] at this
            exact this
          obtain ⟨c1, c2⟩ := h4 (lzpDecFullBlock d) rest pad hcore2.1 hcore2.2
            (by rw [hfb, b2])
          have hrec : lzpDecBlocks (inp.length / PPP_BLOCKSIZE) (inp.length % PPP_BLOCKSIZE) d
              = lzpDecBlocks ((inp.drop PPP_BLOCKSIZE).length / PPP_BLOCKSIZE)
                  ((inp.drop PPP_BLOCKSIZE).length % PPP_BLOCKSIZE) (lzpDecFullBlock d) := by
            rw [hdiv, hmod]
            unfold lzpDecBlocks
            rw [lzpDecFullBlocks_succ]
          rw [hrec]
          refine ⟨?_, c2⟩
          rw [c1, hfb, b1]
          simp only [List.append_assoc, List.take_append_drop]
      · -- the last, shorter block
        have hlt : inp.length < PPP_BLOCKSIZE := by rw [htake] at hfull; omega
        have htk : inp.take PPP_BLOCKSIZE = inp := List.take_of_length_le (by omega)
        have hdr : inp.drop PPP_BLOCKSIZE = [] := List.drop_of_length_le (by omega)
        rw [htk] at hal hBlen hBbits hcbuf hcore hnb hlb
        have hblk : lzpEncBlock e inp
            = { inp.foldl lzpEncByte e with
                pb := ⟨out0 ++ B ++ lzpMisses (e.w, e.prev) inp, 0, 0⟩,
                ppp_lastblocksize := (inp.length : Int) } := by
          have h1 : ¬ inp.length = PPP_BLOCKSIZE := by omega
          simp only [lzpEncBlock, h1, if_false, hlt, if_true, writeBytes_eq, hal, hcbuf]
        rw [htk, hdr, lzpEncLoop_nil, hblk]
        have hdiv : inp.length / PPP_BLOCKSIZE = 0 := Nat.div_eq_of_lt hlt
        have hmod : inp.length % PPP_BLOCKSIZE = inp.length := Nat.mod_eq_of_lt hlt
        refine ⟨by rw [hdiv]; simp [hnb], by rw [hmod], B ++ lzpMisses (e.w, e.prev) inp,
          by simp, ?_⟩
        intro d rest pad hw hp hg
        obtain ⟨b1, b2, _, _⟩ := lzpDec_block inp (e.w, e.prev) d B rest z pad
          (by rw [hw, hp]) (by rw [hg]; simp) hBlen hBbits
        rw [hdiv, hmod]
        have hd0 : lzpDecBlocks 0 inp.length d = lzpDecLastBlock inp.length d := by
          unfold lzpDecBlocks
          rw [if_pos hpos, lzpDecFullBlocks_zero]
        rw [hd0]
        exact ⟨b1, b2⟩

theorem decompress_LZP_eq (k l : Nat) (d : LzpDec) :
    decompress_LZP (k : Int) (l : Int) d = lzpDecBlocks k l d := by
  unfold decompress_LZP lzpDecBlocks
  simp only [Int.toNat_ofNat, Nat.cast_pos]
  have hk : (if 0 < k then lzpDecFullBlocks k d else d) = lzpDecFullBlocks k d := by
    by_cases h : 0 < k
    · rw [if_pos h]
    · have : k = 0 := by omega
      subst this
      rw [if_neg h, lzpDecFullBlocks_zero]
  rw [hk]

/-- C1 (PPP round trip): for every byte sequence `S`, `decompress_LZP` started
from the all-zero table on the body that `compress_LZP` produced for `S` from
the all-zero table, with the block count and last block size `compress_LZP`
recorded, outputs exactly `S` (whatever a read past the end would yield). -/
theorem C1_ppp_round_trip (S : List Byte) (pad : Bool) :
    flush_put_buffer
      (decompress_LZP (compress_LZP zeroTable init_put_buffer S).ppp_nblocks
        (compress_LZP zeroTable init_put_buffer S).ppp_lastblocksize
        ⟨zeroTable, 0, init_put_buffer,
          init_get_buffer (flush_put_buffer (compress_LZP zeroTable init_put_buffer S).pb)
            pad⟩).pb = S := by
  obtain ⟨h1, h2, body, h3, h4⟩ := lzp_core S.length S ⟨zeroTable, 0, [], init_put_buffer, 0, 0⟩
    [] (le_refl _) rfl rfl rfl
  have hc : compress_LZP zeroTable init_put_buffer S
      = lzpEncLoop S.length ⟨zeroTable, 0, [], init_put_buffer, 0, 0⟩ S := rfl
  rw [hc, h1, h2, h3]
  simp only [zero_add, List.nil_append]
  rw [decompress_LZP_eq]
  have hfl : flush_put_buffer (⟨body, 0, 0⟩ : PutBuf) = body := by simp [flush_put_buffer]
  rw [hfl]
  obtain ⟨c1, _⟩ := h4 ⟨zeroTable, 0, init_put_buffer, init_get_buffer body pad⟩ [] pad rfl rfl
    (by simp [init_get_buffer])
  rw [c1]
  simp [flush_put_buffer, init_put_buffer]

/-- C3 (PPP header consistency): after `compress_LZP(S)` the recorded
`ppp_nblocks` is `floor(len(S)/32768)` and `ppp_lastblocksize` is
`len(S) mod 32768`, which is below 32768; these are the values the driver
stores into the header record it rewrites. -/
theorem C3_ppp_header (fstamp : file_stamp) (S : List Byte) :
    (compress_LZP zeroTable init_put_buffer S).ppp_nblocks = ((S.length / 32768 : Nat) : Int)
    ∧ (compress_LZP zeroTable init_put_buffer S).ppp_lastblocksize
        = ((S.length % 32768 : Nat) : Int)
    ∧ (compress_LZP zeroTable init_put_buffer S).ppp_lastblocksize < 32768
    ∧ (mainCompress fstamp mPPP S).1.ppp_nblocks = ((S.length / 32768 : Nat) : Int)
    ∧ (mainCompress fstamp mPPP S).1.ppp_lastblocksize = ((S.length % 32768 : Nat) : Int) := by
  obtain ⟨h1, h2, _⟩ := lzp_core S.length S ⟨zeroTable, 0, [], init_put_buffer, 0, 0⟩
    [] (le_refl _) rfl rfl rfl
  have hc : compress_LZP zeroTable init_put_buffer S
      = lzpEncLoop S.length ⟨zeroTable, 0, [], init_put_buffer, 0, 0⟩ S := rfl
  rw [PPP_BLOCKSIZE_eq] at h1 h2
  simp only [zero_add] at h1
  have hm : (mainCompress fstamp mPPP S).1.ppp_nblocks
        = (compress_LZP zeroTable init_put_buffer S).ppp_nblocks
      ∧ (mainCompress fstamp mPPP S).1.ppp_lastblocksize
        = (compress_LZP zeroTable init_put_buffer S).ppp_lastblocksize := by
    simp [mainCompress]
  rw [hm.1, hm.2, hc, h1, h2]
  refine ⟨rfl, rfl, ?_, rfl, rfl⟩
  have : S.length % 32768 < 32768 := Nat.mod_lt _ (by norm_num)
  exact_mod_cast this

set_option maxRecDepth 100000 in
/-- C7 (PPP scenario `41 41 41 41` from the all-zero table): the first byte is
a miss; the context hashes used are 0, 0x41, 0x861, 0x10C61, pairwise
distinct, and all four bytes are misses; `compress_LZP` records block count 0
and last block size 4 and the body is one bitmap byte 0 followed by the four
literals; `decompress_LZP` on that body returns the four bytes. -/
theorem C7_ppp_scenario :
    zeroTable 0 ≠ (0x41 : Byte)
    ∧ hashUpdate 0 0x41 = 0x41 ∧ hashUpdate 0x41 0x41 = 0x861
    ∧ hashUpdate 0x861 0x41 = 0x10C61
    ∧ [0, 0x41, 0x861, 0x10C61].Nodup
    ∧ lzpFlags (zeroTable, 0) [0x41, 0x41, 0x41, 0x41] = [false, false, false, false]
    ∧ (compress_LZP zeroTable init_put_buffer [0x41, 0x41, 0x41, 0x41]).ppp_nblocks = 0
    ∧ (compress_LZP zeroTable init_put_buffer [0x41, 0x41, 0x41, 0x41]).ppp_lastblocksize = 4
    ∧ flush_put_buffer (compress_LZP zeroTable init_put_buffer [0x41, 0x41, 0x41, 0x41]).pb
        = [0x00, 0x41, 0x41, 0x41, 0x41]
    ∧ flush_put_buffer (decompress_LZP 0 4
        ⟨zeroTable, 0, init_put_buffer,
          init_get_buffer [0x00, 0x41, 0x41, 0x41, 0x41] false⟩).pb
        = [0x41, 0x41, 0x41, 0x41] := by
  refine ⟨by decide, by decide, by decide, by decide, by decide, by decide, by decide,
    by decide, by decide, by decide⟩

theorem lzpDecByte_out_length (st : LzpDec) (b : Bool) :
    (lzpDecByte st b).pb.out.length = st.pb.out.length + 1 := by
  cases b <;> simp [lzpDecByte, pfputc]

theorem lzpDec_foldl_out_length (fl : List Bool) : ∀ (st : LzpDec),
    (fl.foldl lzpDecByte st).pb.out.length = st.pb.out.length + fl.length := by
  induction fl with
  | nil => intro st; rfl
  | cons b fl ih =>
    intro st
    rw [List.foldl_cons, ih, lzpDecByte_out_length, List.length_cons]
    omega

theorem readFlags_length (n : Nat) : ∀ (g : GetBuf), (readFlags n g).1.length = n := by
  induction n with
  | zero => intro g; rfl
  | succ n ih => intro g; simp only [readFlags, List.length_cons, ih]

theorem lzpDecLastBlock_out_length (n : Nat) (st : LzpDec) :
    (lzpDecLastBlock n st).pb.out.length = st.pb.out.length + n := by
  unfold lzpDecLastBlock
  rw [lzpDec_foldl_out_length, readFlags_length]

theorem lzpDecFullBlock_out_length (st : LzpDec) :
    (lzpDecFullBlock st).pb.out.length = st.pb.out.length + PPP_BLOCKSIZE := by
  unfold lzpDecFullBlock
  rw [lzpDec_foldl_out_length, readFlags_length]

theorem lzpDecFullBlocks_out_length (k : Nat) (st : LzpDec) :
    (lzpDecFullBlocks k st).pb.out.length = st.pb.out.length + k * PPP_BLOCKSIZE := by
  induction k with
  | zero => rw [lzpDecFullBlocks_zero]; simp
  | succ k ih =>
    rw [lzpDecFullBlocks_step, lzpDecFullBlock_out_length, ih, Nat.succ_mul]
    omega

set_option maxRecDepth 100000 in
/-- C10, counterexample: a last block of one byte whose bitmap byte `00` is
there but whose literal is not.  `decompress_LZP` does not abort: it writes the
end-of-input marker out as the byte 255 and stores it in the table. -/
theorem C10_counterexample :
    flush_put_buffer (decompress_LZP 0 1
        ⟨zeroTable, 0, init_put_buffer, init_get_buffer [0x00] false⟩).pb = [255]
    ∧ (decompress_LZP 0 1
        ⟨zeroTable, 0, init_put_buffer, init_get_buffer [0x00] false⟩).w 0 = 255 := by
  refine ⟨by decide, by decide⟩

/-- C10, as amended: `decompress_LZP` has no test for the end of the input.
For a last-block size of at most `PPP_BLOCKSIZE = 32768`, so that the flags of
the last block fit the array `bbuf`, and whatever the input holds, it emits
exactly `32768 * block_count + last_block_size` bytes (counts that are not
positive count as 0); and on a 0 flag with no byte left, the marker `EOF` that
`gfgetc` returns is written out as the byte 255, stored in the table slot and
fed to the hash. -/
theorem C10_no_end_test (nb last : Int) (st : LzpDec) (w : GuessTable) (prev g_cnt : Nat)
    (pb : PutBuf) (pad : Bool) (hlast : last ≤ (PPP_BLOCKSIZE : Int)) :
    (∀ g : GetBuf, (readFlags last.toNat g).1.length ≤ PPP_BLOCKSIZE)
    ∧ (decompress_LZP nb last st).pb.out.length
        = st.pb.out.length + 32768 * nb.toNat + last.toNat
    ∧ lzpDecByte ⟨w, prev, pb, ⟨[], g_cnt, pad⟩⟩ false
        = ⟨setSlot w prev 255, hashUpdate prev EOF_MARK,
            { pb with out := pb.out ++ [255] }, ⟨[], g_cnt, pad⟩⟩ := by
  refine ⟨?_, ?_, ?_⟩
  · intro g
    rw [readFlags_length]
    omega
  · unfold decompress_LZP
    have h1 : (if 0 < nb then lzpDecFullBlocks nb.toNat st else st).pb.out.length
        = st.pb.out.length + 32768 * nb.toNat := by
      split
      · rw [lzpDecFullBlocks_out_length, PPP_BLOCKSIZE_eq]; omega
      · omega
    simp only
    split
    · rw [lzpDecLastBlock_out_length, h1]
    · rw [h1]; omega
  · simp only [lzpDecByte, gfgetc, pfputc, Bool.false_eq_true, if_false]
    have : toByte EOF_MARK = 255 := by decide
    rw [this]

/-- Witness of C10 as amended: a last block of one byte and no full block, on
the one-byte body `00`. -/
theorem C10_no_end_test_witness :
    (1 : Int) ≤ (PPP_BLOCKSIZE : Int)
    ∧ (decompress_LZP 0 1
        ⟨zeroTable, 0, init_put_buffer, init_get_buffer [0x00] false⟩).pb.out.length
      = (⟨zeroTable, 0, init_put_buffer, init_get_buffer [0x00] false⟩ : LzpDec).pb.out.length
          + 32768 * (0 : Int).toNat + (1 : Int).toNat :=
  ⟨by decide,
    (C10_no_end_test 0 1 ⟨zeroTable, 0, init_put_buffer, init_get_buffer [0x00] false⟩
      zeroTable 0 0 init_put_buffer false (by decide)).2.1⟩

set_option maxRecDepth 1000000 in
/-- C8, counterexample: a header whose magic is eight zero bytes with mode 1,
and a header with mode 7: the first is decoded by `decompress_LZP`, the second
by `decompress_VLC`, and both runs produce output bytes. -/
theorem C8_counterexample :
    (mainDecompress 0 ⟨[0, 0, 0, 0, 0, 0, 0, 0], 0, 4, 1⟩
        [0x00, 0x41, 0x41, 0x41, 0x41] false).output = [0x41, 0x41, 0x41, 0x41]
    ∧ (mainDecompress 100 ⟨[0x50, 0x52, 0x41, 0x51, 0x36, 0, 0, 0], 0, 0, 7⟩
        [254, 5, 0, 224, 255, 255, 255, 31, 0] false).output = [0x41, 0x41, 0x41, 0x41] := by
  refine ⟨by decide, by decide⟩

/-- C8, as amended: the decompress branch of the driver does not look at the
magic, and it knows no format error: mode selector 1 runs `decompress_LZP` with
the counts of the header, every other selector value runs `decompress_VLC`. -/
theorem C8_dispatch (fuel : Nat) (fstamp : file_stamp) (alg : List Byte) (body : List Byte)
    (pad : Bool) :
    mainDecompress fuel { fstamp with alg := alg } body pad
        = mainDecompress fuel fstamp body pad
    ∧ mainDecompress fuel fstamp body pad
        = if fstamp.mcode = 1 then
            DecodeRun.lzp (decompress_LZP fstamp.ppp_nblocks fstamp.ppp_lastblocksize
              ⟨zeroTable, 0, init_put_buffer, init_get_buffer body pad⟩)
          else
            DecodeRun.vlc (decompress_VLC fuel zeroTable zeroFreq alloc_mtf init_put_buffer
              (init_get_buffer body pad)) := by
  exact ⟨rfl, rfl⟩

/-! ### The context hash -/

theorem WSIZE_eq : WSIZE = 1048576 := by
  unfold WSIZE WBITS
  rw [Nat.shiftLeft_eq]

theorem WMASK_eq : WMASK = 2 ^ 20 - 1 := by
  unfold WMASK
  rw [WSIZE_eq]
  norm_num

theorem hashUpdate_lt (prev : Nat) (c : Int) : hashUpdate prev c < WSIZE := by
  have hW : (WSIZE : Int) = 1048576 := by rw [WSIZE_eq]; rfl
  rw [WSIZE_eq]
  simp only [hashUpdate, hW]
  omega

theorem hashUpdate_byte (h : Nat) (b : Byte) :
    hashUpdate h b.val = ((h <<< 5) + b.val) &&& WMASK := by
  have hW : (WSIZE : Int) = 1048576 := by rw [WSIZE_eq]; rfl
  rw [WMASK_eq, Nat.and_pow_two_sub_one_eq_mod, Nat.shiftLeft_eq]
  simp only [hashUpdate, hW]
  omega

/-- C17 (context hash range): for `0 <= h < 2^20` and a byte `b` the sum
`(h << 5) + b` stays below `2^31`, so the update does not overflow a signed
32-bit `int`; the update is `((h << 5) + b) & WMASK` and lies in `[0, 2^20)`.
Hence every hash the four routines use as index into the `2^20`-slot table is
in bounds: the start value 0 is, and each step of `compress_LZP`,
`decompress_LZP`, `compress_VLC` and `decompress_VLC` leaves a hash below
`WSIZE`, whatever state and input it is made on. -/
theorem C17_hash_range (h : Nat) (b : Byte) (hh : h < 2 ^ 20)
    (ze : LzpEnc) (zd : LzpDec) (ve : VlcEnc) (vd : VlcDec) (c sym : Byte) (flag : Bool)
    (list1 : List Byte) :
    (h <<< 5) + b.val < 2 ^ 31
    ∧ hashUpdate h b.val = ((h <<< 5) + b.val) &&& WMASK
    ∧ hashUpdate h b.val < 2 ^ 20
    ∧ WSIZE = 2 ^ 20
    ∧ (lzpEncByte ze c).prev < WSIZE
    ∧ (lzpDecByte zd flag).prev < WSIZE
    ∧ (vlcEncByte ve c).prev < WSIZE
    ∧ (vlcDecHit vd).prev < WSIZE
    ∧ (vlcDecMiss vd sym list1).prev < WSIZE := by
  have hb := b.isLt
  refine ⟨?_, hashUpdate_byte h b, ?_, by rw [WSIZE_eq]; norm_num, ?_, ?_, ?_, ?_, ?_⟩
  · rw [Nat.shiftLeft_eq]
    omega
  · have := hashUpdate_lt h b.val
    rw [WSIZE_eq] at this
    omega
  · unfold lzpEncByte
    split <;> simp only [hashUpdate_lt]
  · unfold lzpDecByte
    split <;> simp only [hashUpdate_lt]
  · unfold vlcEncByte
    split <;> simp only [hashUpdate_lt]
  · simp only [vlcDecHit, hashUpdate_lt]
  · simp only [vlcDecMiss, hashUpdate_lt]

set_option maxRecDepth 100000 in
/-- Witness of C17: the hash `0x861` and the byte `0x41`. -/
theorem C17_hash_range_witness :
    hashUpdate 0x861 0x41 = ((0x861 <<< 5) + 0x41) &&& WMASK ∧ hashUpdate 0x861 0x41 < 2 ^ 20 :=
  ⟨(C17_hash_range 0x861 0x41 (by norm_num)
      ⟨zeroTable, 0, [], init_put_buffer, 0, 0⟩
      ⟨zeroTable, 0, init_put_buffer, init_get_buffer [] false⟩
      (vlcEncInit zeroTable zeroFreq alloc_mtf init_put_buffer)
      (vlcDecInit zeroTable zeroFreq alloc_mtf init_put_buffer (init_get_buffer [] false))
      0 0 false []).2.1,
   (C17_hash_range 0x861 0x41 (by norm_num)
      ⟨zeroTable, 0, [], init_put_buffer, 0, 0⟩
      ⟨zeroTable, 0, init_put_buffer, init_get_buffer [] false⟩
      (vlcEncInit zeroTable zeroFreq alloc_mtf init_put_buffer)
      (vlcDecInit zeroTable zeroFreq alloc_mtf init_put_buffer (init_get_buffer [] false))
      0 0 false []).2.2.1⟩

/-- C20 (order-4 context): four hash updates with the bytes `b1..b4` give
`((b1 << 15) + (b2 << 10) + (b3 << 5) + b4) mod 2^20` from every starting
hash, so from any two starting hashes the same value: from the fifth byte on
the context depends on the previous four bytes only. -/
theorem C20_order4 (h h' : Nat) (b1 b2 b3 b4 : Byte) :
    hashUpdate (hashUpdate (hashUpdate (hashUpdate h b1.val) b2.val) b3.val) b4.val
        = ((b1.val <<< 15) + (b2.val <<< 10) + (b3.val <<< 5) + b4.val) % 2 ^ 20
    ∧ hashUpdate (hashUpdate (hashUpdate (hashUpdate h b1.val) b2.val) b3.val) b4.val
        = hashUpdate (hashUpdate (hashUpdate (hashUpdate h' b1.val) b2.val) b3.val) b4.val := by
  have hW : (WSIZE : Int) = 1048576 := by rw [WSIZE_eq]; rfl
  have key : ∀ g : Nat,
      hashUpdate (hashUpdate (hashUpdate (hashUpdate g b1.val) b2.val) b3.val) b4.val
        = ((b1.val <<< 15) + (b2.val <<< 10) + (b3.val <<< 5) + b4.val) % 2 ^ 20 := by
    intro g
    simp only [hashUpdate, hW, Nat.shiftLeft_eq]
    omega
  exact ⟨key h, by rw [key h, key h']⟩

/-! ### Cursor and list in the VLC steps -/

theorem mtfHead_moveToFront (l : List Byte) (c : Byte) : mtfHead (moveToFront l c) = some c := rfl

theorem get_mtf_c_some (l : List Byte) (r : Nat) (sym : Byte) (l1 : List Byte)
    (h : get_mtf_c l r = some (sym, l1)) : l1 = moveToFront l sym := by
  unfold get_mtf_c at h
  split at h
  · simp at h
  · simp only [Option.some.injEq, Prod.mk.injEq] at h
    rw [← h.2, h.1]

theorem missCursor_eq (f1 : Freq) (list : List Byte) (rank c : Byte) :
    missCursor f1 (moveToFront list c) rank c = c := by
  simp [missCursor, mtfHead_moveToFront]

/-- C11 (determinism), evaluated on the code: the driver stores only the six
characters of the magic, the mode selector and, in PPP mode, the two counts
into its local header record before writing it.  The other fields reach the
file as the local held them: in VLC mode the block count and the last block
size, in both modes the two characters after the string terminator.  Two runs
on the empty input in VLC mode whose locals differ write different headers. -/
theorem C11_header_from_local (fstamp : file_stamp) (S : List Byte) :
    (mainCompress fstamp mVLCODE S).1.ppp_nblocks = fstamp.ppp_nblocks
    ∧ (mainCompress fstamp mVLCODE S).1.ppp_lastblocksize = fstamp.ppp_lastblocksize
    ∧ (mainCompress fstamp mVLCODE S).1.alg = magicString ++ fstamp.alg.drop 6
    ∧ (mainCompress fstamp mPPP S).1.alg = magicString ++ fstamp.alg.drop 6
    ∧ (mainCompress ⟨[0, 0, 0, 0, 0, 0, 0, 0], 0, 0, 0⟩ mVLCODE []).1.ppp_nblocks = 0
    ∧ (mainCompress ⟨[0, 0, 0, 0, 0, 0, 1, 1], 5, 7, 0⟩ mVLCODE []).1.ppp_nblocks = 5
    ∧ (mainCompress ⟨[0, 0, 0, 0, 0, 0, 0, 0], 0, 0, 0⟩ mVLCODE []).1.alg
        = [0x50, 0x52, 0x41, 0x51, 0x36, 0, 0, 0]
    ∧ (mainCompress ⟨[0, 0, 0, 0, 0, 0, 1, 1], 5, 7, 0⟩ mVLCODE []).1.alg
        = [0x50, 0x52, 0x41, 0x51, 0x36, 0, 1, 1] := by
  have hne : ¬ mVLCODE = mPPP := by decide
  refine ⟨?_, ?_, ?_, ?_, ?_, ?_, ?_, ?_⟩ <;>
    simp only [mainCompress, hne, if_false, if_true, magicString] <;> rfl

/-- C14 (hit-branch equivalence): from equal table, hash, cursor, counters and
list, and for the correctly predicted byte `c = w[prev]`, the hit step of
`decompress_VLC`, which promotes the cursor unconditionally, leaves the same
counters, cursor and list (and table and hash) as the hit step of
`compress_VLC`, which promotes the cursor only when it is not the list head. -/
theorem C14_hit_equivalence (w : GuessTable) (prev blen : Nat) (rank : Byte) (f : Freq)
    (list : List Byte) (pe pd : PutBuf) (gb : GetBuf) :
    (vlcDecHit ⟨w, prev, rank, f, list, pd, gb⟩).f
        = (vlcEncByte ⟨w, prev, blen, rank, f, list, pe⟩ (w prev)).f
    ∧ (vlcDecHit ⟨w, prev, rank, f, list, pd, gb⟩).rank
        = (vlcEncByte ⟨w, prev, blen, rank, f, list, pe⟩ (w prev)).rank
    ∧ (vlcDecHit ⟨w, prev, rank, f, list, pd, gb⟩).list
        = (vlcEncByte ⟨w, prev, blen, rank, f, list, pe⟩ (w prev)).list
    ∧ Agree (vlcEncByte ⟨w, prev, blen, rank, f, list, pe⟩ (w prev))
        (vlcDecHit ⟨w, prev, rank, f, list, pd, gb⟩) := by
  have h := (agree_hit ⟨w, prev, blen, rank, f, list, pe⟩ ⟨w, prev, rank, f, list, pd, gb⟩
    (w prev) ⟨rfl, rfl, rfl, rfl, rfl⟩ rfl).1
  exact ⟨h.2.2.2.1, h.2.2.1, h.2.2.2.2, h⟩

/-- C18 (miss-branch cursor update): whatever the counters, the cursor and the
list order were, after the lookup of the mismatched byte `c` has moved it to
the front the cursor rule of the miss branch yields `c`: in `compress_VLC` after
`mtf(c)`, and in `decompress_VLC` after `get_mtf_c` returned `c`. -/
theorem C18_miss_cursor (e : VlcEnc) (st : VlcDec) (c sym : Byte) (r : Nat)
    (list1 : List Byte) (f1 : Freq) (list : List Byte) (rank : Byte)
    (hmiss : e.w e.prev ≠ c) (hget : get_mtf_c st.list r = some (sym, list1)) :
    missCursor f1 (mtf list c).2 rank c = c
    ∧ (vlcEncByte e c).rank = c
    ∧ (vlcDecMiss st sym list1).rank = sym := by
  refine ⟨missCursor_eq f1 list rank c, ?_, ?_⟩
  · simp only [vlcEncByte, hmiss, if_false, mtf]
    exact missCursor_eq _ _ _ _
  · rw [get_mtf_c_some _ _ _ _ hget]
    simp only [vlcDecMiss]
    exact missCursor_eq _ _ _ _

set_option maxRecDepth 100000 in
/-- Witness of C18: the byte `0x41` as first byte, a miss at rank `0x41`. -/
theorem C18_miss_cursor_witness :
    (vlcEncByte (vlcEncInit zeroTable zeroFreq alloc_mtf init_put_buffer) 0x41).rank = 0x41
    ∧ (vlcDecMiss (vlcDecInit zeroTable zeroFreq alloc_mtf init_put_buffer
          (init_get_buffer [] false)) 0x41 (moveToFront alloc_mtf 0x41)).rank = 0x41 :=
  (C18_miss_cursor (vlcEncInit zeroTable zeroFreq alloc_mtf init_put_buffer)
    (vlcDecInit zeroTable zeroFreq alloc_mtf init_put_buffer (init_get_buffer [] false))
    0x41 0x41 0x41 (moveToFront alloc_mtf 0x41) zeroFreq alloc_mtf 0
    (by simp only [vlcEncInit]; decide)
    (by
      have := get_mtf_c_rank alloc_mtf 0x41 alloc_mtf_ok
      have hr : (mtf alloc_mtf 0x41).1 = 0x41 := by decide
      rw [hr] at this
      simpa only [vlcDecInit, mtf] using this)).2

/-- C19 (cursor is head): after every processed byte the rank cursor is the
symbol at the head of the MTF list, from whatever state the step is made: in
`compress_VLC` after a hit or a miss, in `decompress_VLC` after a pass of the
inner loop and after a miss decoded through `get_mtf_c`; in particular in the
encoder state after any non-empty sequence of bytes. -/
theorem C19_cursor_is_head (e : VlcEnc) (d : VlcDec) (c sym : Byte) (r : Nat)
    (list1 : List Byte) (P : List Byte) :
    mtfHead (vlcEncByte e c).list = some (vlcEncByte e c).rank
    ∧ mtfHead (vlcDecHit d).list = some (vlcDecHit d).rank
    ∧ (get_mtf_c d.list r = some (sym, list1) →
        mtfHead (vlcDecMiss d sym list1).list = some (vlcDecMiss d sym list1).rank)
    ∧ mtfHead (vlcEncAfter (P ++ [c])).list = some (vlcEncAfter (P ++ [c])).rank := by
  have henc : ∀ (e : VlcEnc) (c : Byte),
      mtfHead (vlcEncByte e c).list = some (vlcEncByte e c).rank := by
    intro e c
    unfold vlcEncByte
    split
    · simp only
      split
      · rfl
      · rename_i hh
        simpa using hh
    · simp only [mtf]
      rw [missCursor_eq]
      rfl
  refine ⟨henc e c, rfl, ?_, ?_⟩
  · intro hget
    rw [get_mtf_c_some _ _ _ _ hget]
    simp only [vlcDecMiss]
    rw [missCursor_eq]
    rfl
  · simp only [vlcEncAfter, List.foldl_append, List.foldl_cons, List.foldl_nil]
    exact henc _ c

theorem indexOf_le_erase (z y : Byte) (l : List Byte) :
    List.indexOf z l ≤ List.indexOf z (l.erase y) + 1 := by
  induction l with
  | nil => simp
  | cons a t ih =>
    by_cases haz : a = z
    · subst haz
      simp
    · rw [List.indexOf_cons_ne _ haz]
      by_cases hay : a = y
      · subst hay
        simp
      · rw [List.erase_cons_tail (by simpa using hay), List.indexOf_cons_ne _ haz]
        omega

theorem indexOf_moveToFront (z y : Byte) (l : List Byte) (h : z ≠ y) :
    List.indexOf z l ≤ List.indexOf z (moveToFront l y) := by
  unfold moveToFront
  rw [List.indexOf_cons_ne _ (Ne.symm h)]
  exact indexOf_le_erase z y l

set_option maxRecDepth 100000 in
/-- C12, counterexample: in the input `0 0 0 0 0 1 0 0 0 0 1` the last byte,
a 1, is predicted correctly, and after it has been processed the head of the
MTF list is 0: the byte 1 is at rank 1. -/
theorem C12_counterexample :
    (vlcEncAfter [0, 0, 0, 0, 0, 1, 0, 0, 0, 0]).w (vlcEncAfter [0, 0, 0, 0, 0, 1, 0, 0, 0, 0]).prev
        = 1
    ∧ mtfHead (vlcEncAfter [0, 0, 0, 0, 0, 1, 0, 0, 0, 0, 1]).list = some 0
    ∧ (mtf (vlcEncAfter [0, 0, 0, 0, 0, 1, 0, 0, 0, 0, 1]).list 1).1 = 1 := by
  refine ⟨by decide, by decide, by decide⟩

/-- C12, as amended: every step of the VLC encoder and decoder moves exactly
one symbol `y` to the front of the MTF list and leaves the rank of every other
symbol unchanged or larger.  After a miss on `X` that symbol is `X`.  After a
hit on `X` it is the rank cursor, which is `X` when the incremented frequency
of `X` has reached the frequency of the cursor, and the former cursor
otherwise. -/
theorem C12_mtf_step (e : VlcEnc) (d : VlcDec) (c sym z : Byte) (r : Nat)
    (list1 : List Byte) :
    (vlcEncByte e c).list = moveToFront e.list (vlcEncByte e c).rank
    ∧ (e.w e.prev ≠ c → (vlcEncByte e c).rank = c)
    ∧ (e.w e.prev = c → (vlcEncByte e c).rank = hitCursor (incFreq e.f c) e.rank c)
    ∧ (mtf (vlcEncByte e c).list (vlcEncByte e c).rank).1 = 0
    ∧ (z ≠ (vlcEncByte e c).rank →
        (mtf e.list z).1 ≤ (mtf (vlcEncByte e c).list z).1)
    ∧ (vlcDecHit d).list = moveToFront d.list (vlcDecHit d).rank
    ∧ (vlcDecHit d).rank = hitCursor (incFreq d.f (d.w d.prev)) d.rank (d.w d.prev)
    ∧ (z ≠ (vlcDecHit d).rank → (mtf d.list z).1 ≤ (mtf (vlcDecHit d).list z).1)
    ∧ (get_mtf_c d.list r = some (sym, list1) →
        (vlcDecMiss d sym list1).list = moveToFront d.list sym
        ∧ (vlcDecMiss d sym list1).rank = sym
        ∧ (z ≠ sym → (mtf d.list z).1 ≤ (mtf (vlcDecMiss d sym list1).list z).1)) := by
  have hlist : (vlcEncByte e c).list = moveToFront e.list (vlcEncByte e c).rank := by
    unfold vlcEncByte
    split
    · simp only
      split
      · rfl
      · rename_i hh
        simp only [ne_eq, not_not] at hh
        exact (moveToFront_head _ _ hh).symm
    · simp only [mtf]
      rw [missCursor_eq]
  have hmiss : e.w e.prev ≠ c → (vlcEncByte e c).rank = c := by
    intro h
    simp only [vlcEncByte, h, if_false, mtf]
    exact missCursor_eq _ _ _ _
  have hhit : e.w e.prev = c → (vlcEncByte e c).rank = hitCursor (incFreq e.f c) e.rank c := by
    intro h
    simp only [vlcEncByte, h, if_true]
  refine ⟨hlist, hmiss, hhit, ?_, ?_, rfl, rfl, ?_, ?_⟩
  · rw [hlist]
    simp [mtf, moveToFront]
  · intro hz
    simp only [mtf]
    rw [hlist]
    exact indexOf_moveToFront z _ _ hz
  · intro hz
    simp only [mtf]
    exact indexOf_moveToFront z _ _ hz
  · intro hget
    have hl := get_mtf_c_some _ _ _ _ hget
    subst hl
    refine ⟨rfl, ?_, ?_⟩
    · simp only [vlcDecMiss]
      exact missCursor_eq _ _ _ _
    · intro hz
      simp only [mtf, vlcDecMiss]
      exact indexOf_moveToFront z _ _ hz

/-! ### The prediction table -/

theorem lzpCoreStep_eq_observe (s : GuessTable × Nat) (c : Byte) :
    lzpCoreStep s c = observeStep s c := by
  unfold lzpCoreStep observeStep
  by_cases h : s.1 s.2 = c
  · rw [if_pos h]
    congr 1
    funext i
    simp only [setSlot]
    split
    · rename_i hi
      rw [hi, h]
    · rfl
  · rw [if_neg h]

theorem hashOf_concat (P : List Byte) (c : Byte) :
    hashOf (P ++ [c]) = hashUpdate (hashOf P) c.val := by
  simp only [hashOf, List.foldl_concat]

theorem lastFollower_nil (h : Nat) : lastFollower [] h = 0 := rfl

theorem lastFollower_concat (P : List Byte) (c : Byte) (h : Nat) :
    lastFollower (P ++ [c]) h = if hashOf P = h then c else lastFollower P h := by
  simp only [lastFollower, List.reverse_append, List.reverse_cons, List.reverse_nil,
    List.nil_append, List.singleton_append, lastFollowerRev, List.reverse_reverse]

theorem observeStep_follow (P : List Byte) (c : Byte) :
    observeStep (lastFollower P, hashOf P) c = (lastFollower (P ++ [c]), hashOf (P ++ [c])) := by
  unfold observeStep
  rw [hashOf_concat]
  congr 1
  funext h
  rw [lastFollower_concat]
  simp only [setSlot]
  by_cases hh : h = hashOf P
  · rw [if_pos hh, if_pos hh.symm]
  · rw [if_neg hh, if_neg (fun e => hh e.symm)]

theorem core_fold (P : List Byte) :
    P.foldl lzpCoreStep (zeroTable, 0) = (lastFollower P, hashOf P) := by
  induction P using List.reverseRecOn with
  | nil => rfl
  | append_singleton P c ih =>
    rw [List.foldl_concat, ih, lzpCoreStep_eq_observe, observeStep_follow]

theorem lzpEncByte_core (e : LzpEnc) (c : Byte) :
    ((lzpEncByte e c).w, (lzpEncByte e c).prev) = lzpCoreStep (e.w, e.prev) c := by
  by_cases hit : e.w e.prev = c <;> simp [lzpEncByte, hit, lzpCoreStep]

theorem lzpEnc_foldl_core (P : List Byte) : ∀ (e : LzpEnc),
    ((P.foldl lzpEncByte e).w, (P.foldl lzpEncByte e).prev) = P.foldl lzpCoreStep (e.w, e.prev) := by
  induction P with
  | nil => intro e; rfl
  | cons c P ih => intro e; rw [List.foldl_cons, ih, lzpEncByte_core, List.foldl_cons]

theorem lzpEncBlock_core (e : LzpEnc) (p : List Byte) :
    ((lzpEncBlock e p).w, (lzpEncBlock e p).prev) = p.foldl lzpCoreStep (e.w, e.prev) := by
  rw [← lzpEnc_foldl_core]
  unfold lzpEncBlock
  simp only
  split
  · rfl
  · split <;> rfl

theorem lzpEncLoop_core (fuel : Nat) : ∀ (e : LzpEnc) (inp : List Byte), inp.length ≤ fuel →
    ((lzpEncLoop fuel e inp).w, (lzpEncLoop fuel e inp).prev)
      = inp.foldl lzpCoreStep (e.w, e.prev) := by
  induction fuel with
  | zero =>
    intro e inp h
    have : inp = [] := List.length_eq_zero.mp (by omega)
    subst this
    rw [lzpEncLoop_nil]
    rfl
  | succ fuel ih =>
    intro e inp h
    by_cases hnil : inp = []
    · subst hnil
      rw [lzpEncLoop_nil]
      rfl
    · have hpos : 0 < inp.length := List.length_pos.mpr hnil
      have hne : ¬ (inp.take PPP_BLOCKSIZE).length = 0 := by
        rw [List.length_take, PPP_BLOCKSIZE_eq]; omega
      simp only [lzpEncLoop, hne, if_false]
      rw [ih _ _ (by rw [List.length_drop, PPP_BLOCKSIZE_eq]; omega), lzpEncBlock_core,
        ← List.foldl_append, List.take_append_drop]

theorem vlcEncByte_core (e : VlcEnc) (c : Byte) :
    ((vlcEncByte e c).w, (vlcEncByte e c).prev) = lzpCoreStep (e.w, e.prev) c := by
  by_cases hit : e.w e.prev = c <;> simp [vlcEncByte, hit, lzpCoreStep]

theorem vlcEnc_foldl_core (P : List Byte) : ∀ (e : VlcEnc),
    ((P.foldl vlcEncByte e).w, (P.foldl vlcEncByte e).prev) = P.foldl lzpCoreStep (e.w, e.prev) := by
  induction P with
  | nil => intro e; rfl
  | cons c P ih => intro e; rw [List.foldl_cons, ih, vlcEncByte_core, List.foldl_cons]

/-- C15 (prediction-table invariant): writing the slot on a miss only is the
same as writing it after every byte; after any bytes `P` from the all-zero
table, in `compress_LZP` and in `compress_VLC`, the slot of every hash `h` holds
the byte that most recently followed the context `h` in `P`, and 0 if that
context did not occur, and the hash is that of `P`; and every decoder step
(`decompress_LZP` on a 1 flag and on a 0 flag with its literal,
`decompress_VLC` in a hit pass and on a decoded miss) made on the table and
hash of `P` leaves the table and hash of `P` followed by the byte it outputs. -/
theorem C15_table_invariant (P rest : List Byte) (c : Byte) (h : Nat) (s : GuessTable × Nat)
    (pe pd : PutBuf) (gb : GetBuf) (g_cnt : Nat) (pad : Bool) (rank : Byte) (f : Freq)
    (list list1 : List Byte) :
    lzpCoreStep s c = observeStep s c
    ∧ lastFollower [] h = 0
    ∧ lastFollower (P ++ [c]) h = (if hashOf P = h then c else lastFollower P h)
    ∧ (P.foldl lzpEncByte ⟨zeroTable, 0, [], pe, 0, 0⟩).w h = lastFollower P h
    ∧ (P.foldl lzpEncByte ⟨zeroTable, 0, [], pe, 0, 0⟩).prev = hashOf P
    ∧ (compress_LZP zeroTable pe P).w h = lastFollower P h
    ∧ (vlcEncAfter P).w h = lastFollower P h
    ∧ (vlcEncAfter P).prev = hashOf P
    ∧ (lzpDecByte ⟨lastFollower P, hashOf P, pd, gb⟩ true).w h
        = lastFollower (P ++ [lastFollower P (hashOf P)]) h
    ∧ (lzpDecByte ⟨lastFollower P, hashOf P, pd, gb⟩ true).prev
        = hashOf (P ++ [lastFollower P (hashOf P)])
    ∧ (lzpDecByte ⟨lastFollower P, hashOf P, pd, ⟨c :: rest, g_cnt, pad⟩⟩ false).w h
        = lastFollower (P ++ [c]) h
    ∧ (lzpDecByte ⟨lastFollower P, hashOf P, pd, ⟨c :: rest, g_cnt, pad⟩⟩ false).prev
        = hashOf (P ++ [c])
    ∧ (vlcDecHit ⟨lastFollower P, hashOf P, rank, f, list, pd, gb⟩).w h
        = lastFollower (P ++ [lastFollower P (hashOf P)]) h
    ∧ (vlcDecHit ⟨lastFollower P, hashOf P, rank, f, list, pd, gb⟩).prev
        = hashOf (P ++ [lastFollower P (hashOf P)])
    ∧ (vlcDecMiss ⟨lastFollower P, hashOf P, rank, f, list, pd, gb⟩ c list1).w h
        = lastFollower (P ++ [c]) h
    ∧ (vlcDecMiss ⟨lastFollower P, hashOf P, rank, f, list, pd, gb⟩ c list1).prev
        = hashOf (P ++ [c]) := by
  have e1 := (lzpEnc_foldl_core P ⟨zeroTable, 0, [], pe, 0, 0⟩).trans (core_fold P)
  have e2 : ((compress_LZP zeroTable pe P).w, (compress_LZP zeroTable pe P).prev)
      = (lastFollower P, hashOf P) :=
    (lzpEncLoop_core P.length ⟨zeroTable, 0, [], pe, 0, 0⟩ P (le_refl _)).trans (core_fold P)
  have e3 : ((vlcEncAfter P).w, (vlcEncAfter P).prev) = (lastFollower P, hashOf P) :=
    (vlcEnc_foldl_core P _).trans (core_fold P)
  simp only [Prod.mk.injEq] at e1 e2 e3
  have o1 := observeStep_follow P (lastFollower P (hashOf P))
  have o2 := observeStep_follow P c
  have o3 := lzpCoreStep_eq_observe (lastFollower P, hashOf P) (lastFollower P (hashOf P))
  simp only [observeStep, Prod.mk.injEq] at o1 o2
  simp only [lzpCoreStep, if_true, observeStep, Prod.mk.injEq] at o3
  refine ⟨lzpCoreStep_eq_observe s c, rfl, lastFollower_concat P c h, by rw [e1.1], e1.2,
    by rw [e2.1], by rw [e3.1], e3.2, ?_, ?_, ?_, ?_, ?_, ?_, ?_, ?_⟩
  · simp only [lzpDecByte, if_true]
    rw [← o1.1, ← o3.1]
  · simp only [lzpDecByte, if_true]
    exact o1.2
  · simp only [lzpDecByte, gfgetc, Bool.false_eq_true, if_false, toByte_val]
    rw [← o2.1]
  · simp only [lzpDecByte, gfgetc, Bool.false_eq_true, if_false]
    exact o2.2
  · simp only [vlcDecHit]
    rw [← o1.1, ← o3.1]
  · simp only [vlcDecHit]
    exact o1.2
  · simp only [vlcDecMiss]
    rw [← o2.1]
  · simp only [vlcDecMiss]
    exact o2.2

/-! ### The states of the VLC decoder byte by byte -/

theorem agree_core (e : VlcEnc) (d : VlcDec) (h : Agree e d) : d.core = e.core := by
  obtain ⟨h1, h2, h3, h4, h5⟩ := h
  simp only [VlcDec.core, VlcEnc.core, h1, h2, h3, h4, h5]

theorem hitTrace_gb (n : Nat) : ∀ (d : VlcDec) (g : GetBuf),
    hitTrace n { d with gb := g } = hitTrace n d := by
  induction n with
  | zero => intro d g; rfl
  | succ n ih =>
    intro d g
    simp only [hitTrace]
    have : vlcDecHit { d with gb := g } = { vlcDecHit d with gb := g } := rfl
    rw [this, ih]
    rfl

theorem hitTrace_succ (n : Nat) : ∀ (d : VlcDec),
    hitTrace (n + 1) d = hitTrace n d ++ [(hitIter (n + 1) d).core] := by
  induction n with
  | zero => intro d; rfl
  | succ n ih =>
    intro d
    have h1 : hitTrace (n + 1 + 1) d = (vlcDecHit d).core :: hitTrace (n + 1) (vlcDecHit d) := rfl
    rw [h1, ih (vlcDecHit d), hitIter_succ_comm (n + 1) d]
    rfl

theorem vlcDecStep1Trace_spec (fuel n : Nat) (d : VlcDec) (r : List Bool)
    (hk : d.gb.g_cnt < 8) (hb : d.gb.bits = flushBits n ++ r) (hn : n ≤ fuel) :
    vlcDecStep1Trace fuel d = hitTrace (runDecoded n) d := by
  by_cases h0 : n = 0
  · subst h0
    simp only [flushBits, ne_eq, not_true_eq_false, if_false, List.singleton_append] at hb
    have h1 := get_bit_spec d.gb false _ hk hb
    rw [runDecoded_eq 0 (by omega)]
    simp only [vlcDecStep1Trace, h1.1, Bool.false_eq_true, if_false]
    rfl
  · simp only [flushBits, ne_eq, h0, not_false_eq_true, if_true, List.cons_append] at hb
    have h1 := get_bit_spec d.gb true _ hk hb
    obtain ⟨g0, hg01, _, _, _⟩ := get_golomb_spec (n - 1) 0 fuel (get_bit d.gb).2 _
      h1.2.2.1 h1.2.1 (by simp; omega)
    simp only [vlcDecStep1Trace, h1.1, if_true, hg01]
    rw [hitTrace_gb]
    simp only [runDecoded, h0, if_false]

/-- What a pass of `vlcDecTrace` records on a run flush for `n` followed by the
Golomb code of `v`. -/
theorem vlcDecTrace_step (fuel n v : Nat) (d : VlcDec) (r : List Bool)
    (hk : d.gb.g_cnt < 8)
    (hb : d.gb.bits = flushBits n ++ (golombBits v BSIZE ++ r))
    (hn : n ≤ fuel) (hv : v >>> BSIZE < fuel) :
    ∃ g, g.bits = r ∧ g.g_cnt < 8 ∧
      vlcDecTrace (fuel + 1) d = hitTrace (runDecoded n) d ++
        if v = EOF_VLC then []
        else
          match get_mtf_c (hitIter (runDecoded n) d).list v with
          | none => []
          | some (sym, list1) =>
            (vlcDecMiss { hitIter (runDecoded n) d with gb := g } sym list1).core
              :: vlcDecTrace fuel
                  (vlcDecMiss { hitIter (runDecoded n) d with gb := g } sym list1) := by
  obtain ⟨g0, hg01, hg02, _, hg04⟩ := vlcDecStep1_spec fuel n d _ hk hb hn
  obtain ⟨g, hg1, hg2, hg3, _⟩ := get_golomb_spec v BSIZE fuel g0 r hg02 hg01 hv
  have ht := vlcDecStep1Trace_spec fuel n d _ hk hb hn
  refine ⟨g, hg2, hg3, ?_⟩
  generalize runDecoded n = m at hg04 ht
  simp only [vlcDecTrace, hg04, hg1, ht]

theorem vlc_trace_core (T : List Byte) : ∀ (e : VlcEnc) (d : VlcDec) (fuel : Nat)
    (r : List Bool), e.blen + T.length < 2147483648 →
    ListOK e.list → Agree e (hitIter e.blen d) → d.gb.g_cnt < 8 →
    d.gb.bits = vlcEncBits e T ++ r → (vlcEncBits e T).length ≤ fuel →
    vlcDecTrace fuel d = hitTrace e.blen d ++ vlcEncTrace e T := by
  induction T with
  | nil =>
    intro e d fuel r hlt hl ha hk hb hf
    simp only [vlcEncBits, List.append_assoc] at hb hf
    rw [List.length_append, flushBits_length, golombBits_length] at hf
    have hq : EOF_VLC >>> BSIZE = 32 := by decide
    rw [hq] at hf
    obtain ⟨fuel, rfl⟩ : ∃ m, fuel = m + 1 := ⟨fuel - 1, by split at hf <;> omega⟩
    obtain ⟨g, _, _, hstep⟩ := vlcDecTrace_step fuel e.blen EOF_VLC d r hk hb
      (by split at hf <;> omega) (by rw [hq]; split at hf <;> omega)
    rw [runDecoded_eq e.blen (by omega)] at hstep
    rw [hstep]
    simp [vlcEncTrace]
  | cons c T ih =>
    intro e d fuel r hlt hl ha hk hb hf
    simp only [List.length_cons] at hlt
    by_cases hit : e.w e.prev = c
    · simp only [vlcEncBits, hit, if_true] at hb hf
      have hstep := agree_hit e (hitIter e.blen d) c ha hit
      have hblen : (vlcEncByte e c).blen = e.blen + 1 := by
        simp only [vlcEncByte, hit, if_true]
        omega
      have h1 := ih (vlcEncByte e c) d fuel r (by rw [hblen]; omega)
        (vlcEncByte_list_ok e c hl)
        (by rw [hblen]; exact hstep.1) hk hb hf
      rw [h1, hblen, hitTrace_succ, List.append_assoc]
      congr 1
      simp only [vlcEncTrace, List.singleton_append]
      congr 1
      exact agree_core _ _ hstep.1
    · simp only [vlcEncBits, hit, if_false] at hb hf
      have hrank := mtf_rank_lt e.list c hl
      simp only [List.length_append, flushBits_length, golombBits_length] at hf
      obtain ⟨fuel, rfl, hf1, hf2, hf3⟩ : ∃ m, fuel = m + 1 ∧ e.blen ≤ m
          ∧ (mtf e.list c).1 >>> BSIZE < m
          ∧ (vlcEncBits (vlcEncByte e c) T).length ≤ m := by
        generalize (mtf e.list c).1 >>> BSIZE = q at hf
        simp only [BSIZE] at hf
        refine ⟨fuel - 1, ?_⟩
        split at hf <;> omega
      obtain ⟨g, hg1, hg2, hstep⟩ := vlcDecTrace_step fuel e.blen (mtf e.list c).1 d
        (vlcEncBits (vlcEncByte e c) T ++ r) hk (by simpa using hb) hf1 hf2
      rw [runDecoded_eq e.blen (by omega)] at hstep
      have hne : (mtf e.list c).1 ≠ EOF_VLC := by
        simp only [EOF_VLC]; omega
      have hlist : (hitIter e.blen d).list = e.list := ha.2.2.2.2
      rw [if_neg hne, hlist, get_mtf_c_rank e.list c hl] at hstep
      simp only at hstep
      have hm := agree_miss e (hitIter e.blen d) c g ha hit
      have hblen : (vlcEncByte e c).blen = 0 := by simp [vlcEncByte, hit]
      have h1 := ih (vlcEncByte e c)
        (vlcDecMiss { hitIter e.blen d with gb := g } c (mtf e.list c).2) fuel r
        (by rw [hblen]; omega)
        (vlcEncByte_list_ok e c hl) (by rw [hblen]; exact hm.1)
        (by rw [hm.2.2]; exact hg2) (by rw [hm.2.2]; exact hg1) hf3
      rw [hstep, h1, hblen]
      congr 1
      simp only [vlcEncTrace, hitTrace, List.nil_append]
      congr 1
      exact agree_core _ _ hm.1

theorem vlcEncTrace_getElem (T : List Byte) : ∀ (e : VlcEnc) (i : Nat), i < T.length →
    (vlcEncTrace e T)[i]? = some ((T.take (i + 1)).foldl vlcEncByte e).core := by
  induction T with
  | nil => intro e i h; simp at h
  | cons c T ih =>
    intro e i h
    cases i with
    | zero => simp [vlcEncTrace]
    | succ i =>
      simp only [vlcEncTrace, List.getElem?_cons_succ, List.take_succ_cons, List.foldl_cons]
      exact ih _ i (by simpa using h)

theorem vlcEncTrace_length (T : List Byte) : ∀ (e : VlcEnc), (vlcEncTrace e T).length = T.length := by
  induction T with
  | nil => intro e; rfl
  | cons c T ih => intro e; simp [vlcEncTrace, ih]

set_option maxRecDepth 100000 in
/-- C13, counterexample: the input of 2^32 zero bytes.  After it the encoder
has counted the byte 0 2^32 times, while `decompress_VLC` on the body written
for it records no state at all, outputs no byte and returns with every counter
at 0: the decoder never holds the encoder state after the bytes of this
input. -/
theorem C13_counterexample :
    (List.replicate 4294967296 (0 : Byte)).length = 4294967296
    ∧ (vlcEncAfter (List.replicate 4294967296 0)).core.f 0 = 4294967296
    ∧ (vlcDecTrace 40 (vlcDecInit zeroTable zeroFreq alloc_mtf init_put_buffer
        (init_get_buffer (vlcBody (List.replicate 4294967296 0)) false))).length = 0
    ∧ ∃ dF, decompress_VLC 40 zeroTable zeroFreq alloc_mtf init_put_buffer
          (init_get_buffer (vlcBody (List.replicate 4294967296 0)) false)
        = VlcOutcome.returned dF
      ∧ dF.pb.out = [] ∧ dF.core.f 0 = 0
      ∧ dF.core ≠ (vlcEncAfter (List.replicate 4294967296 0)).core := by
  have hf : (vlcEncAfter (List.replicate 4294967296 0)).core.f 0 = 4294967296 := by
    rw [vlcEncAfter_zeroRun]
    simp only [zeroRunState, VlcEnc.core, if_true]
  obtain ⟨dF, z, h1, h2, _, _, _, h6⟩ := vlc_decode_body [] false 0 (by simp)
  have hd : dF.core.f 0 = 0 := by
    rw [agree_core _ _ h6]
    rfl
  refine ⟨List.length_replicate _ _, hf, ?_, ?_⟩
  · rw [vlcBody_zeroRun, vlcBody_nil]
    decide
  · rw [vlcBody_zeroRun, vlcBody_nil]
    rw [vlcBody_nil] at h1
    refine ⟨dF, h1, h2, hd, ?_⟩
    intro h
    have := congrArg (fun c : VlcCore => c.f 0) h
    simp only [hd, hf] at this
    exact absurd this (by decide)

/-- C13, as amended (VLC state symmetry): for every input `S` shorter than 2^31
bytes, before any byte the encoder and the decoder hold the same codec state,
and `decompress_VLC` run on the body of `S` outputs `len(S)` bytes such that,
for every `i < len(S)`, its table, hash, MTF list, counters and cursor at the
end of the step that outputs byte `i + 1` are those of `compress_VLC` after the
first `i + 1` bytes of `S`; the decoder returns in the state the encoder ends
in. -/
theorem C13_state_symmetry (S : List Byte) (pad : Bool) (k : Nat)
    (hS : S.length < 2147483648) :
    (vlcDecInit zeroTable zeroFreq alloc_mtf init_put_buffer
        (init_get_buffer (vlcBody S) pad)).core = (vlcEncAfter []).core
    ∧ (vlcDecTrace (8 * (vlcBody S).length + k)
        (vlcDecInit zeroTable zeroFreq alloc_mtf init_put_buffer
          (init_get_buffer (vlcBody S) pad))).length = S.length
    ∧ (∀ i, i < S.length →
        (vlcDecTrace (8 * (vlcBody S).length + k)
          (vlcDecInit zeroTable zeroFreq alloc_mtf init_put_buffer
            (init_get_buffer (vlcBody S) pad)))[i]?
          = some (vlcEncAfter (S.take (i + 1))).core)
    ∧ (∀ i, i ≤ S.length →
        vlcEncLoop (S.take i).length (vlcEncInit zeroTable zeroFreq alloc_mtf init_put_buffer)
          (S.take i) = vlcEncAfter (S.take i))
    ∧ ∃ dF, decompress_VLC (8 * (vlcBody S).length + k) zeroTable zeroFreq alloc_mtf
          init_put_buffer (init_get_buffer (vlcBody S) pad) = VlcOutcome.returned dF
        ∧ dF.core = (vlcEncAfter S).core := by
  obtain ⟨hok, hbits⟩ := compress_VLC_pb S
  obtain ⟨z, hz⟩ := flush_put_buffer_bits _ hok
  have hlen : (vlcEncBits (vlcEncInit zeroTable zeroFreq alloc_mtf init_put_buffer) S).length
      ≤ 8 * (vlcBody S).length + k := by
    have := congrArg List.length hz
    rw [bitsOfBytes_length, List.length_append, hbits] at this
    unfold vlcBody
    omega
  have htr := vlc_trace_core S
    (vlcEncInit zeroTable zeroFreq alloc_mtf init_put_buffer)
    (vlcDecInit zeroTable zeroFreq alloc_mtf init_put_buffer (init_get_buffer (vlcBody S) pad))
    (8 * (vlcBody S).length + k) z (by simp only [vlcEncInit]; omega)
    (by simp only [vlcEncInit]; exact alloc_mtf_ok)
    (by simp only [vlcEncInit, hitIter, Agree, vlcDecInit, and_self])
    (by simp [vlcDecInit, init_get_buffer])
    (by
      simp only [vlcDecInit, init_get_buffer, GetBuf.bits, List.drop_zero]
      rw [← hbits]
      exact hz) hlen
  have hb0 : (vlcEncInit zeroTable zeroFreq alloc_mtf init_put_buffer).blen = 0 := by
    simp only [vlcEncInit]
  rw [hb0] at htr
  simp only [hitTrace, List.nil_append] at htr
  refine ⟨?_, ?_, ?_, ?_, ?_⟩
  · simp only [vlcDecInit, VlcDec.core, vlcEncAfter, List.foldl_nil, vlcEncInit, VlcEnc.core]
  · rw [htr, vlcEncTrace_length]
  · intro i hi
    rw [htr, vlcEncTrace_getElem S _ i hi]
    rfl
  · intro i _
    rw [vlcEncLoop_eq_foldl _ _ _ (le_refl _)]
    rfl
  · obtain ⟨dF, _, h1, _, _, _, _, h6⟩ := vlc_decode_body S pad k hS
    exact ⟨dF, h1, agree_core _ _ h6⟩

set_option maxRecDepth 100000 in
/-- Witness of C13 as amended: the input `41 41 42`; the decoder returns in the
state the encoder ends in. -/
theorem C13_state_symmetry_witness :
    ([0x41, 0x41, 0x42] : List Byte).length < 2147483648
    ∧ ∃ dF, decompress_VLC (8 * (vlcBody [0x41, 0x41, 0x42]).length + 0) zeroTable zeroFreq
          alloc_mtf init_put_buffer (init_get_buffer (vlcBody [0x41, 0x41, 0x42]) false)
        = VlcOutcome.returned dF
      ∧ dF.core = (vlcEncAfter [0x41, 0x41, 0x42]).core :=
  ⟨by decide, (C13_state_symmetry [0x41, 0x41, 0x42] false 0 (by decide)).2.2.2.2⟩

/-! ### The layout of the PPP body -/

theorem flush_put_buffer_fill (p : PutBuf) (h : p.ok) :
    bitsOfBytes (flush_put_buffer p) = p.bits ++ List.replicate ((8 - p.p_cnt) % 8) false := by
  obtain ⟨hk, hc⟩ := h
  unfold flush_put_buffer
  split
  · rename_i hpos
    have hlt : p.cur < 256 := by
      calc p.cur < 2 ^ p.p_cnt := hc
        _ ≤ 2 ^ 8 := Nat.pow_le_pow_right (by norm_num) (by omega)
        _ = 256 := by norm_num
    simp only [PutBuf.bits, bitsOfBytes_append, bitsOfBytes, List.append_nil,
      toByte_natCast_val _ hlt, byteBits, List.append_assoc]
    congr 1
    have h8 : 8 = p.p_cnt + (8 - p.p_cnt) := by omega
    conv_lhs => rw [h8, List.range_add]
    rw [List.map_append]
    congr 1
    rw [show (8 - p.p_cnt) % 8 = 8 - p.p_cnt by omega, List.map_map]
    apply List.ext_getElem
    · simp
    · intro i h1 h2
      simp only [List.getElem_map, List.getElem_range, Function.comp, List.getElem_replicate]
      apply Nat.testBit_lt_two_pow
      calc p.cur < 2 ^ p.p_cnt := hc
        _ ≤ 2 ^ (p.p_cnt + i) := Nat.pow_le_pow_right (by norm_num) (by omega)
  · have : p.p_cnt = 0 := by omega
    simp [PutBuf.bits, this]

theorem alignPut_bits (p : PutBuf) (h : p.ok) :
    (alignPut p).bits = p.bits ++ List.replicate ((8 - p.p_cnt) % 8) false := by
  rw [alignPut_eq p h, ← flush_put_buffer_fill p h]
  simp [PutBuf.bits]

theorem alignGet_bits (g : GetBuf) (h : g.g_cnt < 8) :
    (alignGet g).bits = g.bits.drop ((8 - g.g_cnt) % 8) := by
  unfold alignGet
  split
  · rename_i hpos
    obtain ⟨data, k, pad⟩ := g
    simp only at hpos h
    simp only [advance_gbuf, GetBuf.bits, List.drop_zero, List.drop_drop]
    rw [show (8 - k) % 8 = 8 - k by omega, show k + (8 - k) = 8 by omega]
    cases data with
    | nil => simp [bitsOfBytes]
    | cons x xs =>
      simp only [List.tail_cons, bitsOfBytes]
      rw [List.drop_append_of_le_length (by rw [byteBits_length])]
      simp [List.drop_of_length_le, byteBits_length]
  · have : g.g_cnt = 0 := by omega
    simp [this]

theorem lzpMisses_append (a : List Byte) : ∀ (s : GuessTable × Nat) (b : List Byte),
    lzpMisses s (a ++ b) = lzpMisses s a ++ lzpMisses (a.foldl lzpCoreStep s) b := by
  induction a with
  | nil => intro s b; rfl
  | cons c a ih =>
    intro s b
    have h1 := ih (lzpCoreStep s c) b
    by_cases hit : s.1 s.2 = c
    · simp only [List.cons_append, lzpMisses, List.foldl_cons, hit, if_true]
      exact h1
    · simp only [List.cons_append, lzpMisses, List.foldl_cons, hit, if_false]
      exact congrArg (List.cons c) h1

/-- The bytes a block leaves in the file before its mismatched bytes, with the
filler bits of the last byte. -/
theorem lzpEnc_block_fill (chunk : List Byte) (e : LzpEnc) (out0 : List Byte)
    (hpb : e.pb = ⟨out0, 0, 0⟩) :
    ∃ B, alignPut (chunk.foldl lzpEncByte e).pb = ⟨out0 ++ B, 0, 0⟩
      ∧ B.length = (chunk.length + 7) / 8
      ∧ bitsOfBytes B = lzpFlags (e.w, e.prev) chunk
          ++ List.replicate ((8 - chunk.length % 8) % 8) false
      ∧ (chunk.foldl lzpEncByte e).pb.p_cnt = chunk.length % 8
      ∧ (chunk.length % 8 = 0 → (chunk.foldl lzpEncByte e).pb = ⟨out0 ++ B, 0, 0⟩) := by
  have hok : e.pb.ok := by rw [hpb]; simp [PutBuf.ok]
  obtain ⟨h1, h2, ⟨X, h3⟩, _⟩ := lzpEnc_fold chunk e hok
  have hz := flush_put_buffer_fill _ h1
  have hal := alignPut_eq _ h1
  have hfl : ∃ Y, flush_put_buffer (chunk.foldl lzpEncByte e).pb
      = (chunk.foldl lzpEncByte e).pb.out ++ Y := by
    unfold flush_put_buffer
    split
    · exact ⟨_, rfl⟩
    · exact ⟨[], by simp⟩
  obtain ⟨Y, hY⟩ := hfl
  have he0 : e.pb.bits = bitsOfBytes out0 := by rw [hpb]; simp [PutBuf.bits]
  have hout0 : e.pb.out = out0 := by rw [hpb]
  have hlen1 := (chunk.foldl lzpEncByte e).pb.bits_length
  rw [h2, he0, List.length_append, bitsOfBytes_length, lzpFlags_length, h3, hout0,
    List.length_append] at hlen1
  have hk := h1.1
  have hp : (chunk.foldl lzpEncByte e).pb.p_cnt = chunk.length % 8 := by omega
  rw [hY, h3, hout0] at hz
  rw [h2, he0, List.append_assoc, bitsOfBytes_append, List.append_assoc, hp] at hz
  have hB := List.append_cancel_left hz
  have hlen2 := congrArg List.length hB
  rw [bitsOfBytes_length, List.length_append, List.length_append, lzpFlags_length,
    List.length_replicate] at hlen2
  refine ⟨X ++ Y, ?_, ?_, hB, hp, ?_⟩
  · rw [hal, hY, h3, hout0, List.append_assoc]
  · rw [List.length_append]
    omega
  · intro h8
    have hp0 : (chunk.foldl lzpEncByte e).pb.p_cnt = 0 := by omega
    have : alignPut (chunk.foldl lzpEncByte e).pb = (chunk.foldl lzpEncByte e).pb := by
      simp [alignPut, hp0]
    rw [← this, hal, hY, h3, hout0, List.append_assoc]

theorem PppLayout_nil (fuel : Nat) (s : GuessTable × Nat) : PppLayout fuel s [] [] := by
  cases fuel with
  | zero => exact ⟨rfl, rfl⟩
  | succ n => simp [PppLayout]

theorem lzp_layout (fuel : Nat) : ∀ (inp : List Byte) (e : LzpEnc) (out0 : List Byte),
    inp.length ≤ fuel → e.pb = ⟨out0, 0, 0⟩ → e.cbuf = [] →
    ∃ body, (lzpEncLoop fuel e inp).pb = ⟨out0 ++ body, 0, 0⟩
      ∧ PppLayout fuel (e.w, e.prev) inp body
      ∧ body.length = 4096 * (inp.length / PPP_BLOCKSIZE) + (inp.length % PPP_BLOCKSIZE + 7) / 8
          + (lzpMisses (e.w, e.prev) inp).length := by
  have hBS := PPP_BLOCKSIZE_eq
  induction fuel with
  | zero =>
    intro inp e out0 hlen hpb _
    have : inp = [] := List.length_eq_zero.mp (by omega)
    subst this
    refine ⟨[], by rw [lzpEncLoop_nil, hpb, List.append_nil], PppLayout_nil _ _, ?_⟩
    rw [List.length_nil, Nat.zero_div, Nat.zero_mod]
    rfl
  | succ fuel ih =>
    intro inp e out0 hlen hpb hcb
    by_cases hnil : inp = []
    · subst hnil
      refine ⟨[], by rw [lzpEncLoop_nil, hpb, List.append_nil], PppLayout_nil _ _, ?_⟩
      rw [List.length_nil, Nat.zero_div, Nat.zero_mod]
      rfl
    · have hpos : 0 < inp.length := List.length_pos.mpr hnil
      have htake : (inp.take PPP_BLOCKSIZE).length = min PPP_BLOCKSIZE inp.length :=
        List.length_take _ _
      have hne : ¬ (inp.take PPP_BLOCKSIZE).length = 0 := by rw [htake, hBS]; omega
      obtain ⟨B, hal, hBlen, hBbits, _, hfullpb⟩ :=
        lzpEnc_block_fill (inp.take PPP_BLOCKSIZE) e out0 hpb
      obtain ⟨_, _, _, hcbuf, _, _, _⟩ :=
        lzpEnc_fold (inp.take PPP_BLOCKSIZE) e (by rw [hpb]; simp [PutBuf.ok])
      rw [hcb, List.nil_append] at hcbuf
      have hcore := lzpEncBlock_core e (inp.take PPP_BLOCKSIZE)
      have hmiss : lzpMisses (e.w, e.prev) inp
          = lzpMisses (e.w, e.prev) (inp.take PPP_BLOCKSIZE)
            ++ lzpMisses ((inp.take PPP_BLOCKSIZE).foldl lzpCoreStep (e.w, e.prev))
                (inp.drop PPP_BLOCKSIZE) := by
        rw [← lzpMisses_append, List.take_append_drop]
      simp only [lzpEncLoop, hne, if_false]
      by_cases hfull : (inp.take PPP_BLOCKSIZE).length = PPP_BLOCKSIZE
      · have hge : PPP_BLOCKSIZE ≤ inp.length := by rw [htake] at hfull; omega
        have hblk : (lzpEncBlock e (inp.take PPP_BLOCKSIZE)).pb
              = ⟨out0 ++ B ++ lzpMisses (e.w, e.prev) (inp.take PPP_BLOCKSIZE), 0, 0⟩
            ∧ (lzpEncBlock e (inp.take PPP_BLOCKSIZE)).cbuf = [] := by
          simp only [lzpEncBlock, hfull, if_true, writeBytes_eq, hcbuf]
          rw [hfullpb (by rw [hfull, hBS])]
          simp
        obtain ⟨body, h1, h2, h3⟩ := ih (inp.drop PPP_BLOCKSIZE)
          (lzpEncBlock e (inp.take PPP_BLOCKSIZE))
          (out0 ++ B ++ lzpMisses (e.w, e.prev) (inp.take PPP_BLOCKSIZE))
          (by rw [List.length_drop]; omega) hblk.1 hblk.2
        have hs : ((lzpEncBlock e (inp.take PPP_BLOCKSIZE)).w,
            (lzpEncBlock e (inp.take PPP_BLOCKSIZE)).prev)
              = (inp.take PPP_BLOCKSIZE).foldl lzpCoreStep (e.w, e.prev) := hcore
        rw [hs] at h2 h3
        refine ⟨B ++ (lzpMisses (e.w, e.prev) (inp.take PPP_BLOCKSIZE) ++ body), ?_, ?_, ?_⟩
        · rw [h1]; simp
        · simp only [PppLayout, hnil, if_false]
          exact ⟨B, body, rfl, hBlen, hBbits, h2⟩
        · rw [hmiss]
          simp only [List.length_append, h3, hBlen, hfull, List.length_drop]
          rw [hBS]
          omega
      · have hlt : inp.length < PPP_BLOCKSIZE := by rw [htake] at hfull; omega
        have htk : inp.take PPP_BLOCKSIZE = inp := List.take_of_length_le (by omega)
        have hdr : inp.drop PPP_BLOCKSIZE = [] := List.drop_of_length_le (by omega)
        have hblk : (lzpEncBlock e inp).pb
            = ⟨out0 ++ B ++ lzpMisses (e.w, e.prev) inp, 0, 0⟩ := by
          have h1 : ¬ inp.length = PPP_BLOCKSIZE := by omega
          rw [htk] at hal hcbuf
          simp only [lzpEncBlock, h1, if_false, hlt, if_true, writeBytes_eq, hal, hcbuf]
        refine ⟨B ++ (lzpMisses (e.w, e.prev) inp ++ []), ?_, ?_, ?_⟩
        · rw [htk, hdr, lzpEncLoop_nil, hblk]; simp
        · simp only [PppLayout, hnil, if_false]
          refine ⟨B, [], ?_, hBlen, hBbits, ?_⟩
          · rw [htk]
          · rw [hdr]; exact PppLayout_nil _ _
        · rw [htk] at hBlen
          simp only [List.length_append, List.length_nil, hBlen,
            Nat.div_eq_of_lt hlt, Nat.mod_eq_of_lt hlt]
          omega

/-- C16 (PPP body layout and alignment): the body `compress_LZP` writes for `S`
is laid out block by block, each block as its bitmap bytes followed by its
mismatched bytes in order; the bitmap of a block of `n` flags takes
`ceil(n/8)` bytes, its `n` flags followed by `(8 - n mod 8) mod 8` filler bits,
which is 4096 bytes and no filler for a full block of 32768; so the body has
`4096 * B + ceil(R/8) + misses` bytes for `B` full blocks and a remainder of `R`.
The alignment of the writer appends `(8 - p_cnt) mod 8` zero bits and that of
the reader skips `(8 - g_cnt) mod 8` bits, and after the `R` flags of the last
block both counters stand at `R mod 8`. -/
theorem C16_ppp_layout (S chunk D : List Byte) (p : PutBuf) (g : GetBuf) (pad : Bool)
    (R : Nat) (w : GuessTable) (prev : Nat) (out0 : List Byte) (nb lb : Int) :
    PppLayout S.length (zeroTable, 0) S
        (flush_put_buffer (compress_LZP zeroTable init_put_buffer S).pb)
    ∧ (flush_put_buffer (compress_LZP zeroTable init_put_buffer S).pb).length
        = 4096 * (S.length / 32768) + (S.length % 32768 + 7) / 8
          + (lzpMisses (zeroTable, 0) S).length
    ∧ PPP_BLOCKSIZE = 32768 ∧ (32768 + 7) / 8 = 4096 ∧ (8 - 32768 % 8) % 8 = 0
    ∧ (p.ok → (alignPut p).bits = p.bits ++ List.replicate ((8 - p.p_cnt) % 8) false)
    ∧ (g.g_cnt < 8 → (alignGet g).bits = g.bits.drop ((8 - g.g_cnt) % 8))
    ∧ (chunk.foldl lzpEncByte ⟨w, prev, [], ⟨out0, 0, 0⟩, nb, lb⟩).pb.p_cnt = chunk.length % 8
    ∧ (R ≤ 8 * D.length → (readFlags R ⟨D, 0, pad⟩).2.g_cnt = R % 8) := by
  obtain ⟨body, h1, h2, h3⟩ := lzp_layout S.length S ⟨zeroTable, 0, [], init_put_buffer, 0, 0⟩
    [] (le_refl _) rfl rfl
  have hc : compress_LZP zeroTable init_put_buffer S
      = lzpEncLoop S.length ⟨zeroTable, 0, [], init_put_buffer, 0, 0⟩ S := rfl
  have hfl : flush_put_buffer (compress_LZP zeroTable init_put_buffer S).pb = body := by
    rw [hc, h1]
    simp [flush_put_buffer]
  rw [PPP_BLOCKSIZE_eq] at h3
  refine ⟨by rw [hfl]; exact h2, by rw [hfl]; exact h3, PPP_BLOCKSIZE_eq, by norm_num,
    by norm_num, alignPut_bits p, alignGet_bits g, ?_, ?_⟩
  · obtain ⟨_, _, _, _, hp, _⟩ := lzpEnc_block_fill chunk
      ⟨w, prev, [], ⟨out0, 0, 0⟩, nb, lb⟩ out0 rfl
    exact hp
  · intro hR
    have := readFlags_atPos D pad R 0 (by omega)
    rw [atPos_zero, Nat.zero_add] at this
    rw [this]
    rfl

end Praq6
